import Mathlib

/-!
# SimpleLRU (src/storage/SimpleLRU.cpp, SimpleLRU.h)

A shallow embedding of the `Afina::Backend::SimpleLRU` storage engine.

* The free store is a list of `lru_node` records; the address of a node is its
  position in that list.  `new lru_node(k, v)` appends a record, so addresses
  are never reused.  No statement of the source destroys a node except the
  `reset` in `put_node_in_head` (see `Fault.node_deleted`).
* A `std::unique_ptr<lru_node>` is an `Option Nat`: `none` is the null pointer.
  `p.release()` is the assignment `p := none`; `p = std::unique_ptr(q)` after a
  `release()` and `p.reset(q)` on a null `p` are the assignment `p := q`.
* `_lru_index` is a `std::map` from (a reference to) a node's `const` key to
  (a reference to) that node.  It is an association list of `(key, address)`
  pairs; the map's key order is only observable through `print`, which is not
  modelled.
* Loops that follow `next` or `prev` links take a `fuel` argument and stop with
  `Fault.out_of_fuel` when it is used up.
-/

namespace Afina
namespace Backend

/-- The `lru_node` struct of SimpleLRU.h: a `const` key, a value and the two
links. -/
structure lru_node where
  key : String
  value : String
  prev : Option Nat
  next : Option Nat
deriving DecidableEq

/-- The data members of `SimpleLRU` together with the free store holding the
nodes. -/
structure SimpleLRU where
  _max_size : Nat
  heap : List lru_node
  _lru_head : Option Nat
  _lru_tail : Option Nat
  _lru_index : List (String × Nat)
deriving DecidableEq

/-- The ways a call can end without returning to its caller. -/
inductive Fault where
  /-- The loop bound of the model was used up. -/
  | out_of_fuel
  /-- An `assert(!_lru_head->prev)` failed. -/
  | assertion_failed
  /-- A pointer was dereferenced that is null or not the address of a node. -/
  | invalid_pointer
  /-- The statement `_lru_head->prev.reset(tmp_node)` found a non-null pointer
  in `_lru_head->prev` and ran `delete` on it.  The destructor of `lru_node`
  destroys its two `unique_ptr` members in turn; execution is not followed
  past that point. -/
  | node_deleted
deriving DecidableEq

/-- The constructor `SimpleLRU(size_t max_size)`: no nodes, null head and tail,
empty index. -/
def SimpleLRU.new (max_size : Nat) : SimpleLRU :=
  { _max_size := max_size, heap := [], _lru_head := none, _lru_tail := none,
    _lru_index := [] }

/-- Dereference the address `a`. -/
def deref (s : SimpleLRU) (a : Nat) : Except Fault lru_node :=
  match s.heap[a]? with
  | some n => .ok n
  | none => .error .invalid_pointer

/-- Overwrite the node at address `a` by `f` of it. -/
def update (s : SimpleLRU) (a : Nat) (f : lru_node → lru_node) :
    Except Fault SimpleLRU :=
  match s.heap[a]? with
  | some n => .ok { s with heap := s.heap.set a (f n) }
  | none => .error .invalid_pointer

/-- The assignment `a->next := v`. -/
def set_next (s : SimpleLRU) (a : Nat) (v : Option Nat) : Except Fault SimpleLRU :=
  update s a (fun n => { n with next := v })

/-- The assignment `a->prev := v`. -/
def set_prev (s : SimpleLRU) (a : Nat) (v : Option Nat) : Except Fault SimpleLRU :=
  update s a (fun n => { n with prev := v })

/-- The assignment `a->value := v`. -/
def set_value (s : SimpleLRU) (a : Nat) (v : String) : Except Fault SimpleLRU :=
  update s a (fun n => { n with value := v })

/-- The call `_lru_index.find(key)`: the address mapped to `key`, if any. -/
def index_find (s : SimpleLRU) (key : String) : Option Nat :=
  (s._lru_index.find? (fun e => e.1 == key)).map (fun e => e.2)

/-- The call `_lru_index.erase(it)` for the entry with key `key`. -/
def index_erase (s : SimpleLRU) (key : String) : SimpleLRU :=
  { s with _lru_index := s._lru_index.eraseP (fun e => e.1 == key) }

/-- The call `_lru_index.insert({key, node})`; `std::map::insert` leaves the
map alone when the key is already there. -/
def index_insert (s : SimpleLRU) (key : String) (a : Nat) : SimpleLRU :=
  if (index_find s key).isSome then s
  else { s with _lru_index := s._lru_index ++ [(key, a)] }

/-- The loop `tmp_node = _lru_head.get(); while (tmp_node) { if (tmp_node->key
== key) ...; tmp_node = tmp_node->next.get(); }` shared by `Put`,
`PutIfAbsent`, `Set`, `Delete` and `Get`: the first node with key `key` met
from `tmp_node` along `next`, or `none` when the null link is reached. -/
def find_in_list (s : SimpleLRU) (key : String) :
    Nat → Option Nat → Except Fault (Option Nat)
  | _, none => .ok none
  | 0, some _ => .error .out_of_fuel
  | fuel + 1, some a => do
    let n ← deref s a
    if n.key == key then pure (some a)
    else find_in_list s key fuel n.next

/-- Source lines 56-70, `release_node`. -/
def release_node (s : SimpleLRU) (tmp_node : Nat) : Except Fault SimpleLRU := do
  -- if (tmp_node->prev) {
  let n ← deref s tmp_node
  let s ← (match n.prev with
    | some p => do
      -- tmp_node->prev->next.release();
      let s ← set_next s p none
      -- tmp_node->prev->next = std::unique_ptr<lru_node>(tmp_node->next.get());
      let n ← deref s tmp_node
      set_next s p n.next
    | none => pure s)
  -- if (tmp_node->next) {
  let n ← deref s tmp_node
  let s ← (match n.next with
    | some q => do
      -- tmp_node->next->prev.release();
      let s ← set_prev s q none
      -- tmp_node->next->prev = std::unique_ptr<lru_node>(tmp_node->prev.get());
      let n ← deref s tmp_node
      set_prev s q n.prev
    | none => pure s)
  -- if (tmp_node->prev && !tmp_node->next) {
  let n ← deref s tmp_node
  if n.prev.isSome && n.next.isNone then
    -- _lru_tail.release(); _lru_tail = std::unique_ptr<lru_node>(tmp_node->prev.get());
    pure { s with _lru_tail := n.prev }
  else pure s

/-- The statement `_lru_head->prev.reset(tmp_node)` of source line 82 on the
node `h` that `_lru_head` points to: `reset` stores the new pointer and runs
`delete` on the one it held when that was not null. -/
def reset_head_prev (s : SimpleLRU) (h tmp_node : Nat) : Except Fault SimpleLRU := do
  let hn ← deref s h
  if hn.prev.isSome then throw Fault.node_deleted
  else set_prev s h (some tmp_node)

/-- Source lines 72-86, `put_node_in_head`. -/
def put_node_in_head (s : SimpleLRU) (tmp_node : Nat) : Except Fault SimpleLRU :=
  -- if (tmp_node == _lru_head.get()) return;
  if s._lru_head = some tmp_node then pure s
  else do
    let s ← release_node s tmp_node
    -- tmp_node->prev.release(); tmp_node->next.release();
    let s ← set_prev s tmp_node none
    let s ← set_next s tmp_node none
    -- tmp_node->next.reset(_lru_head.get());
    let s ← set_next s tmp_node s._lru_head
    -- if (_lru_head) { _lru_head->prev.reset(tmp_node); _lru_head.release(); }
    let s ← (match s._lru_head with
      | some h => reset_head_prev s h tmp_node
      | none => pure s)
    -- _lru_head = std::unique_ptr<lru_node>(tmp_node);
    pure { s with _lru_head := some tmp_node }

/-- The statement `assert(!_lru_head->prev)`. -/
def assert_head_no_prev (s : SimpleLRU) : Except Fault Unit :=
  match s._lru_head with
  | none => .error .invalid_pointer
  | some h => do
    let hn ← deref s h
    if hn.prev.isSome then throw Fault.assertion_failed else pure ()

/-- The value of `sizeof(_lru_index)`, a `std::map`, on LP64 libstdc++. -/
def sizeof_lru_index : Nat := 48

/-- The value of `sizeof(decltype(_lru_index)::key_type)`, a
`std::reference_wrapper`. -/
def sizeof_key_type : Nat := 8

/-- The value of `sizeof(decltype(_lru_index)::mapped_type)`, a
`std::reference_wrapper`. -/
def sizeof_mapped_type : Nat := 8

/-- The value of `sizeof(node)` for `lru_node *node`. -/
def sizeof_node_ptr : Nat := 8

/-- The value of `sizeof(key)` for `const std::string &key`, that is
`sizeof(std::string)`, on LP64 libstdc++. -/
def sizeof_string : Nat := 32

/-- The local `cache_size` of `cache_cleaner` (source lines 32-34). -/
def cache_size (s : SimpleLRU) : Nat :=
  sizeof_lru_index + s._lru_index.length * (sizeof_key_type + sizeof_mapped_type)

/-- The loop of `cache_cleaner` (source lines 43-52): walk `prev` links from
`tmp_node`; erase from the index the entry whose key is the key of the node, if
there is one, and count it; stop at the null link or when `cnt` reaches
`num_to_del`. -/
def cache_cleaner_loop (num_to_del : Nat) :
    Nat → SimpleLRU → Option Nat → Nat → Except Fault SimpleLRU
  | _, s, none, _ => .ok s
  | 0, s, some _, cnt => if cnt < num_to_del then .error .out_of_fuel else .ok s
  | fuel + 1, s, some a, cnt =>
    if cnt < num_to_del then do
      let n ← deref s a
      if (index_find s n.key).isSome then
        cache_cleaner_loop num_to_del fuel (index_erase s n.key) n.prev (cnt + 1)
      else
        cache_cleaner_loop num_to_del fuel s n.prev cnt
    else .ok s

/-- The test `cache_size + key_size + node_size >= _max_size` of source
line 37. -/
def cache_might_overflow (s : SimpleLRU) (key_size node_size : Nat) : Bool :=
  decide (s._max_size ≤ cache_size s + key_size + node_size)

/-- Source lines 30-54, `cache_cleaner`. -/
def cache_cleaner (fuel : Nat) (s : SimpleLRU) (key_size node_size : Nat) :
    Except Fault SimpleLRU :=
  if cache_might_overflow s key_size node_size then
    cache_cleaner_loop (s._lru_index.length / 4) fuel s s._lru_tail 0
  else .ok s

/-- The statement `new lru_node(key, value)`: the new node and its address. -/
def new_node (s : SimpleLRU) (key value : String) : SimpleLRU × Nat :=
  ({ s with heap := s.heap ++ [{ key := key, value := value, prev := none, next := none }] },
   s.heap.length)

/-- Source lines 122-127 and 162-167: `if (!_lru_tail) { _lru_tail = node }`
and `_lru_index.insert({_lru_head->key, *_lru_head})`. -/
def link_tail_and_index (s : SimpleLRU) (node : Nat) : Except Fault SimpleLRU :=
  -- if (!_lru_tail) { _lru_tail = std::unique_ptr<lru_node>(node); }
  let s := if s._lru_tail.isNone then { s with _lru_tail := some node } else s
  -- _lru_index.insert({std::cref(_lru_head.get()->key), std::ref(*_lru_head.get())});
  match s._lru_head with
  | none => throw Fault.invalid_pointer
  | some h => do
    let hn ← deref s h
    pure (index_insert s hn.key h)

/-- Source lines 112-129 and 153-169: the tail shared by `Put` and
`PutIfAbsent` once the key was found neither in the index nor on the list;
`key_size` is the first argument they pass to `cache_cleaner`. -/
def insert_new (fuel : Nat) (s : SimpleLRU) (key value : String) (key_size : Nat) :
    Except Fault SimpleLRU := do
  -- lru_node *node = new lru_node(key, value);
  let node := (new_node s key value).2
  let s := (new_node s key value).1
  let s ← cache_cleaner fuel s key_size sizeof_node_ptr
  let s ← put_node_in_head s node
  assert_head_no_prev s
  link_tail_and_index s node

/-- Source lines 89-130, `Put`. -/
def Put (fuel : Nat) (s : SimpleLRU) (key value : String) :
    Except Fault (SimpleLRU × Bool) :=
  match index_find s key with
  | some a => do
    let s ← set_value s a value
    let s ← put_node_in_head s a
    pure (s, true)
  | none => do
    match ← find_in_list s key fuel s._lru_head with
    | some tmp_node =>
      let s ← set_value s tmp_node value
      let s ← put_node_in_head s tmp_node
      assert_head_no_prev s
      pure (s, true)
    | none =>
      let s ← insert_new fuel s key value 8
      pure (s, true)

/-- Source lines 133-170, `PutIfAbsent`. -/
def PutIfAbsent (fuel : Nat) (s : SimpleLRU) (key value : String) :
    Except Fault (SimpleLRU × Bool) :=
  match index_find s key with
  | some _ => pure (s, false)
  | none => do
    match ← find_in_list s key fuel s._lru_head with
    | some tmp_node =>
      let s ← put_node_in_head s tmp_node
      assert_head_no_prev s
      pure (s, false)
    | none =>
      let s ← insert_new fuel s key value sizeof_string
      pure (s, true)

/-- Source lines 173-197, `Set`. -/
def Set (fuel : Nat) (s : SimpleLRU) (key value : String) :
    Except Fault (SimpleLRU × Bool) :=
  match index_find s key with
  | some a => do
    let s ← set_value s a value
    let s ← put_node_in_head s a
    pure (s, true)
  | none => do
    match ← find_in_list s key fuel s._lru_head with
    | some tmp_node =>
      let s ← set_value s tmp_node value
      let s ← put_node_in_head s tmp_node
      assert_head_no_prev s
      pure (s, true)
    | none => pure (s, false)

/-- Source lines 200-226, `Delete`.  The source reads `it->second` after
`_lru_index.erase(it)`; the model reads the address before the erasure. -/
def Delete (fuel : Nat) (s : SimpleLRU) (key : String) :
    Except Fault (SimpleLRU × Bool) :=
  match index_find s key with
  | some a => do
    let s := index_erase s key
    let s ← release_node s a
    -- if (_lru_index.size() == 0) { _lru_head.release(); _lru_tail.release(); }
    let s := if s._lru_index.length = 0 then
      { s with _lru_head := none, _lru_tail := none } else s
    pure (s, true)
  | none => do
    match ← find_in_list s key fuel s._lru_head with
    | some tmp_node =>
      let s ← release_node s tmp_node
      pure (s, true)
    | none => pure (s, false)

/-- Source lines 229-252, `Get`.  The result `some v` stands for `return true`
with `value = v`, the result `none` for `return false`, which leaves `value`
untouched. -/
def Get (fuel : Nat) (s : SimpleLRU) (key : String) :
    Except Fault (SimpleLRU × Option String) :=
  match index_find s key with
  | some a => do
    let n ← deref s a
    pure (s, some n.value)
  | none => do
    match ← find_in_list s key fuel s._lru_head with
    | some tmp_node =>
      let n ← deref s tmp_node
      let s ← put_node_in_head s tmp_node
      assert_head_no_prev s
      pure (s, some n.value)
    | none => pure (s, none)

/-- A call of one of the five public member functions. -/
inductive Op where
  | Put (key value : String)
  | PutIfAbsent (key value : String)
  | Set (key value : String)
  | Delete (key : String)
  | Get (key : String)
deriving DecidableEq

/-- What a public member function hands back: the `bool` of `Put`,
`PutIfAbsent`, `Set` and `Delete`, or the outcome of `Get`. -/
inductive Result where
  | bool (b : Bool)
  | value (v : Option String)
deriving DecidableEq

/-- Perform one call. -/
def step (fuel : Nat) (s : SimpleLRU) : Op → Except Fault (SimpleLRU × Result)
  | .Put k v => (Put fuel s k v).map (fun r => (r.1, .bool r.2))
  | .PutIfAbsent k v => (PutIfAbsent fuel s k v).map (fun r => (r.1, .bool r.2))
  | .Set k v => (Set fuel s k v).map (fun r => (r.1, .bool r.2))
  | .Delete k => (Delete fuel s k).map (fun r => (r.1, .bool r.2))
  | .Get k => (Get fuel s k).map (fun r => (r.1, .value r.2))

/-- Perform a sequence of calls, collecting what each one hands back. -/
def run (fuel : Nat) (s : SimpleLRU) : List Op → Except Fault (SimpleLRU × List Result)
  | [] => .ok (s, [])
  | o :: os => do
    let (s, r) ← step fuel s o
    let (s, rs) ← run fuel s os
    pure (s, r :: rs)

/-- The key of the node at address `a`. -/
def key_at (heap : List lru_node) (a : Nat) : Option String :=
  (heap[a]?).map (fun n => n.key)

/-- The key of the node `_lru_head` points to. -/
def head_key (s : SimpleLRU) : Option String :=
  s._lru_head.bind (key_at s.heap)

/-- The keys of the nodes met from the pointer `c` along `next` links, the
first `fuel` of them at most. -/
def chain_keys (s : SimpleLRU) : Nat → Option Nat → List String
  | _, none => []
  | 0, some _ => []
  | fuel + 1, some a =>
    match s.heap[a]? with
    | some n => n.key :: chain_keys s fuel n.next
    | none => []

/-- Following `next` links from the pointer `c` visits the nodes at the
addresses `l`, in this order, and then meets the null pointer. -/
def next_chain (heap : List lru_node) : Option Nat → List Nat → Prop
  | c, [] => c = none
  | c, a :: l => c = some a ∧ ∃ n, heap[a]? = some n ∧ next_chain heap n.next l

/-- Following `prev` links from the pointer `c` visits the nodes at the
addresses `l`, in this order, and then meets the null pointer. -/
def prev_chain (heap : List lru_node) : Option Nat → List Nat → Prop
  | c, [] => c = none
  | c, a :: l => c = some a ∧ ∃ n, heap[a]? = some n ∧ prev_chain heap n.prev l

/-- Every index entry refers to one of the nodes at the addresses `l`, and its
key is the key of that node. -/
def index_on_chain (s : SimpleLRU) (l : List Nat) : Prop :=
  ∀ k a, (k, a) ∈ s._lru_index → a ∈ l ∧ key_at s.heap a = some k

/-- The number of bytes of a key together with its value. -/
def entry_bytes (key value : String) : Nat :=
  key.utf8ByteSize + value.utf8ByteSize

/-- The key and the value of the node at address `b`. -/
def node_data (s : SimpleLRU) (b : Nat) : Option (String × String) :=
  (s.heap[b]?).map (fun n => (n.key, n.value))

/-- The `prev` link of the node at address `b`. -/
def prev_at (s : SimpleLRU) (b : Nat) : Option (Option Nat) :=
  (s.heap[b]?).map (fun n => n.prev)

/-- The `next` link of the node at address `b`. -/
def next_at (s : SimpleLRU) (b : Nat) : Option (Option Nat) :=
  (s.heap[b]?).map (fun n => n.next)

/-- Every `prev` and every `next` link of a node is null or the address of a
node. -/
def pointers_valid (s : SimpleLRU) : Prop :=
  ∀ a x, (prev_at s a = some (some x) ∨ next_at s a = some (some x)) → x < s.heap.length

/-- The pointer `_lru_head` is null or the address of a node whose `prev` link
is null. -/
def head_no_prev (s : SimpleLRU) : Prop :=
  ∀ h, s._lru_head = some h → prev_at s h = some none

/-- The key and the value of the node `_lru_head` points to. -/
def head_entry (s : SimpleLRU) : Option (String × String) :=
  s._lru_head.bind (node_data s)

/-- The state `t` differs from `s` at most in links, `_lru_head` and
`_lru_tail`: same capacity, same index, same number of nodes, and every node
keeps its key and its value. -/
def same_data (s t : SimpleLRU) : Prop :=
  t._max_size = s._max_size ∧ t._lru_index = s._lru_index ∧
  t.heap.length = s.heap.length ∧ ∀ b, node_data t b = node_data s b

/-- The state after `Put("a", "1")`, `Put("b", "2")` on a cache of capacity
4096: the chain is `b`, `a` and both keys are in the index. -/
def state_ab : SimpleLRU :=
  { _max_size := 4096,
    heap := [{ key := "a", value := "1", prev := some 1, next := none },
             { key := "b", value := "2", prev := none, next := some 0 }],
    _lru_head := some 1, _lru_tail := some 0,
    _lru_index := [("a", 0), ("b", 1)] }

/-- The state after `Put("a", "1")`, `Put("k", "2")`, `Delete("k")` on a cache
of capacity 4096: `_lru_head` still points to the node of `k`, which is no
longer in the index. -/
def state_stale_head : SimpleLRU :=
  { _max_size := 4096,
    heap := [{ key := "a", value := "1", prev := none, next := none },
             { key := "k", value := "2", prev := none, next := some 0 }],
    _lru_head := some 1, _lru_tail := some 0,
    _lru_index := [("a", 0)] }

/-- The calls `Put(a)`, `Put(b)`, `Put(c)`, `Delete(c)`, `Put(b, x)`,
`Delete(c)`, `Delete(b)`. -/
def ops_self_prev : List Op :=
  [.Put "a" "1", .Put "b" "2", .Put "c" "3", .Delete "c", .Put "b" "x",
   .Delete "c", .Delete "b"]

/-- The state after the calls `ops_self_prev` on a cache of capacity 4096:
`_lru_head` and `_lru_tail` point to the node of `b`, whose `next` link is null
and whose `prev` link is its own address; only `a` is in the index. -/
def state_self_prev : SimpleLRU :=
  { _max_size := 4096,
    heap := [{ key := "a", value := "1", prev := none, next := none },
             { key := "b", value := "x", prev := some 1, next := none },
             { key := "c", value := "3", prev := some 1, next := some 1 }],
    _lru_head := some 1, _lru_tail := some 1,
    _lru_index := [("a", 0)] }

/-- A value of 5000 bytes. -/
def big_value : String := String.mk (List.replicate 5000 'x')

/-- The state after `Put("a", "1")`, `Put("b", "2")`, `Put("c", "3")`,
`Delete("c")`, `Put("b", "x")` on a cache of capacity 4096: `_lru_head` points
to the node of `b`, whose `next` is the node of `c`, whose `next` is the node
of `b` again; `_lru_tail` points to the node of `a`, which no `next` link
leads to. -/
def state_cycle : SimpleLRU :=
  { _max_size := 4096,
    heap := [{ key := "a", value := "1", prev := none, next := none },
             { key := "b", value := "x", prev := none, next := some 2 },
             { key := "c", value := "3", prev := some 1, next := some 1 }],
    _lru_head := some 1, _lru_tail := some 0,
    _lru_index := [("a", 0), ("b", 1)] }

/-- The nodes at the addresses `l` form a doubly linked segment: the `prev`
link of the first is `p`, the `prev` link of every other one is the address
before it in `l`, the `next` link of the last is `nx`, and the `next` link of
every other one is the address after it in `l`. -/
def dseg (s : SimpleLRU) : Option Nat → List Nat → Option Nat → Prop
  | _, [], _ => True
  | p, a :: l, nx =>
    prev_at s a = some p ∧ next_at s a = some (l.head?.or nx) ∧ dseg s (some a) l nx

/-- The chain is the doubly linked list of the nodes at the addresses `l`: the
addresses are pairwise distinct, `_lru_head` points to the first and
`_lru_tail` to the last of them (both are null when there is none), `next`
links lead from each node to the one behind it and from the last to null, and
`prev` links are the inverse of the `next` links, the one of the first node
being null. -/
def dlist (s : SimpleLRU) (l : List Nat) : Prop :=
  l.Nodup ∧ s._lru_head = l.head? ∧ s._lru_tail = l.getLast? ∧ dseg s none l none

/-- The state is well formed, with the chain at the addresses `l`: the chain is
a doubly linked list from `_lru_head` to `_lru_tail`, the keys of its nodes are
pairwise distinct, every index entry refers to a chain node carrying the key of
the entry, and the keys of the index are pairwise distinct, as in a
`std::map`. -/
def well_formed (s : SimpleLRU) (l : List Nat) : Prop :=
  dlist s l ∧ (l.map (key_at s.heap)).Nodup ∧ index_on_chain s l ∧
  (s._lru_index.map Prod.fst).Nodup

/-- The calls other than `Delete`. -/
def Op.no_delete : Op → Bool
  | .Delete _ => false
  | _ => true

/-- The key/value store after writing `v` under `k`. -/
def write (m : String → Option String) (k v : String) : String → Option String :=
  fun x => if x = k then some v else m x

/-- The specification of the stored values, section 4.4 of the spec with no
eviction: `Put` writes the value, `PutIfAbsent` writes it when the key is
absent, `Set` writes it when the key is present, `Delete` removes the key, and
`Get` changes nothing. -/
def spec_store (m : String → Option String) : Op → String → Option String
  | .Put k v => write m k v
  | .PutIfAbsent k v => if (m k).isSome then m else write m k v
  | .Set k v => if (m k).isSome then write m k v else m
  | .Delete k => fun x => if x = k then none else m x
  | .Get _ => m

/-- The specification of what a call returns, section 4.4 of the spec: `Put`
always `true`, `PutIfAbsent` `true` iff the key was absent, `Set` and `Delete`
`true` iff the key was present, `Get` the stored value if any. -/
def spec_result (m : String → Option String) : Op → Result
  | .Put _ _ => .bool true
  | .PutIfAbsent k _ => .bool (m k).isNone
  | .Set k _ => .bool (m k).isSome
  | .Delete k => .bool (m k).isSome
  | .Get k => .value (m k)

/-- The specification of a sequence of calls: the stored values at the end and
what each call returns. -/
def spec_run (m : String → Option String) : List Op → (String → Option String) × List Result
  | [] => (m, [])
  | o :: os => ((spec_run (spec_store m o) os).1, spec_result m o :: (spec_run (spec_store m o) os).2)

/-- The chain at the addresses `l` holds exactly the key/value store `m`: some
node of the chain carries the key `k` with the value `v` iff `m k = some v`. -/
def holds (s : SimpleLRU) (l : List Nat) (m : String → Option String) : Prop :=
  ∀ k v, (∃ a ∈ l, node_data s a = some (k, v)) ↔ m k = some v

/-- The keys of the nodes at the addresses `l`, from the last back to the
first: the keys met walking `prev` links from `_lru_tail`. -/
def keys_from_tail (s : SimpleLRU) (l : List Nat) : List String :=
  l.reverse.filterMap (key_at s.heap)

/-- The specification of the keys eviction erases: of the keys met walking
from `_lru_tail`, skipping those not in the index, the first `n / 4`, with `n`
the number of index entries. -/
def spec_victims (s : SimpleLRU) (l : List Nat) : List String :=
  ((keys_from_tail s l).filter (fun k => (index_find s k).isSome)).take
    (s._lru_index.length / 4)

/-- Of the keys `ws`, in this order, the first `q` that are in the index of
`u`. -/
def walk_victims (u : SimpleLRU) (ws : List String) (q : Nat) : List String :=
  (ws.filter (fun k => (index_find u k).isSome)).take q

/-- The state after `Put` of `a`, `b`, `c`, `d` on a cache of capacity 100:
the chain is `d`, `c`, `b`, `a` and the four keys are in the index. -/
def state_abcd : SimpleLRU :=
  { _max_size := 100,
    heap := [{ key := "a", value := "1", prev := some 1, next := none },
             { key := "b", value := "2", prev := some 2, next := some 0 },
             { key := "c", value := "3", prev := some 3, next := some 1 },
             { key := "d", value := "4", prev := none, next := some 2 }],
    _lru_head := some 3, _lru_tail := some 0,
    _lru_index := [("a", 0), ("b", 1), ("c", 2), ("d", 3)] }

/-- The specification of the index `cache_cleaner` leaves on the state `s`
with chain `l` when the two sizes passed add up to `sizes`: with `n` the number
of index entries, the index without the entries of the keys `spec_victims s l`
when `48 + 16 * n + sizes >= _max_size`, and the index as it is otherwise. -/
def spec_index_after_cleaner (s : SimpleLRU) (l : List Nat) (sizes : Nat) :
    List (String × Nat) :=
  if s._max_size ≤ 48 + 16 * s._lru_index.length + sizes then
    s._lru_index.filter (fun e => decide (e.1 ∉ spec_victims s l))
  else s._lru_index

/-! ## The store -/

theorem update_ok {s : SimpleLRU} {a : Nat} {f : lru_node → lru_node} {n : lru_node}
    (h : s.heap[a]? = some n) :
    update s a f = .ok { s with heap := s.heap.set a (f n) } := by
  simp [update, h]

theorem update_inv {s t : SimpleLRU} {a : Nat} {f : lru_node → lru_node}
    (h : update s a f = .ok t) :
    ∃ n, s.heap[a]? = some n ∧ t = { s with heap := s.heap.set a (f n) } := by
  unfold update at h
  split at h
  · rename_i n hn
    exact ⟨n, hn, by injection h with h; exact h.symm⟩
  · cases h

theorem deref_inv {s : SimpleLRU} {a : Nat} {n : lru_node} (h : deref s a = .ok n) :
    s.heap[a]? = some n := by
  unfold deref at h
  split at h
  · rename_i m hm
    injection h with h
    rw [hm, h]
  · cases h

theorem deref_ok {s : SimpleLRU} {a : Nat} {n : lru_node} (h : s.heap[a]? = some n) :
    deref s a = .ok n := by
  simp [deref, h]

theorem same_data_refl (s : SimpleLRU) : same_data s s :=
  ⟨rfl, rfl, rfl, fun _ => rfl⟩

theorem same_data_trans {s t u : SimpleLRU} (h₁ : same_data s t) (h₂ : same_data t u) :
    same_data s u :=
  ⟨h₂.1.trans h₁.1, h₂.2.1.trans h₁.2.1, h₂.2.2.1.trans h₁.2.2.1,
    fun b => (h₂.2.2.2 b).trans (h₁.2.2.2 b)⟩

/-- An update that keeps key and value of the node changes links only. -/
theorem update_frame {s t : SimpleLRU} {a : Nat} {f : lru_node → lru_node}
    (hf : ∀ n, (f n).key = n.key ∧ (f n).value = n.value)
    (h : update s a f = .ok t) :
    same_data s t ∧ t._lru_head = s._lru_head ∧ t._lru_tail = s._lru_tail := by
  obtain ⟨n, hn, rfl⟩ := update_inv h
  refine ⟨⟨rfl, rfl, by simp, fun b => ?_⟩, rfl, rfl⟩
  simp only [node_data]
  by_cases hb : a = b
  · subst hb
    have hlt : a < s.heap.length := by
      rcases List.getElem?_eq_some.mp hn with ⟨h, _⟩
      exact h
    simp [List.getElem?_set_self hlt, hn, hf n]
  · simp [List.getElem?_set_ne hb]

theorem set_next_frame {s t : SimpleLRU} {a : Nat} {v : Option Nat}
    (h : set_next s a v = .ok t) :
    same_data s t ∧ t._lru_head = s._lru_head ∧ t._lru_tail = s._lru_tail :=
  update_frame (f := fun n => { n with next := v }) (fun _ => ⟨rfl, rfl⟩) h

theorem set_prev_frame {s t : SimpleLRU} {a : Nat} {v : Option Nat}
    (h : set_prev s a v = .ok t) :
    same_data s t ∧ t._lru_head = s._lru_head ∧ t._lru_tail = s._lru_tail :=
  update_frame (f := fun n => { n with prev := v }) (fun _ => ⟨rfl, rfl⟩) h

/-- The assignment `a->next := v` leaves every `prev` link alone. -/
theorem set_next_prev_at {s t : SimpleLRU} {a : Nat} {v : Option Nat}
    (h : set_next s a v = .ok t) (b : Nat) : prev_at t b = prev_at s b := by
  obtain ⟨n, hn, rfl⟩ := update_inv h
  simp only [prev_at]
  by_cases hb : a = b
  · subst hb
    have hlt : a < s.heap.length := by
      rcases List.getElem?_eq_some.mp hn with ⟨h, _⟩
      exact h
    simp [List.getElem?_set_self hlt, hn]
  · simp [List.getElem?_set_ne hb]

/-- The assignment `a->prev := v` leaves the `prev` link of every other node
alone. -/
theorem set_prev_prev_at_ne {s t : SimpleLRU} {a : Nat} {v : Option Nat}
    (h : set_prev s a v = .ok t) {b : Nat} (hb : a ≠ b) : prev_at t b = prev_at s b := by
  obtain ⟨n, hn, rfl⟩ := update_inv h
  simp [prev_at, List.getElem?_set_ne hb]

/-- After the assignment `a->prev := v` the `prev` link of `a` is `v`. -/
theorem set_prev_prev_at_self {s t : SimpleLRU} {a : Nat} {v : Option Nat}
    (h : set_prev s a v = .ok t) : prev_at t a = some v := by
  obtain ⟨n, hn, rfl⟩ := update_inv h
  have hlt : a < s.heap.length := by
    rcases List.getElem?_eq_some.mp hn with ⟨h, _⟩
    exact h
  simp [prev_at, List.getElem?_set_self hlt]

/-- The assignment `a->prev := v` leaves every `next` link alone. -/
theorem set_prev_next_at {s t : SimpleLRU} {a : Nat} {v : Option Nat}
    (h : set_prev s a v = .ok t) (b : Nat) : next_at t b = next_at s b := by
  obtain ⟨n, hn, rfl⟩ := update_inv h
  simp only [next_at]
  by_cases hb : a = b
  · subst hb
    have hlt : a < s.heap.length := by
      rcases List.getElem?_eq_some.mp hn with ⟨h, _⟩
      exact h
    simp [List.getElem?_set_self hlt, hn]
  · simp [List.getElem?_set_ne hb]

/-- The assignment `a->next := v` leaves the `next` link of every other node
alone. -/
theorem set_next_next_at_ne {s t : SimpleLRU} {a : Nat} {v : Option Nat}
    (h : set_next s a v = .ok t) {b : Nat} (hb : a ≠ b) : next_at t b = next_at s b := by
  obtain ⟨n, hn, rfl⟩ := update_inv h
  simp [next_at, List.getElem?_set_ne hb]

/-- After the assignment `a->next := v` the `next` link of `a` is `v`. -/
theorem set_next_next_at_self {s t : SimpleLRU} {a : Nat} {v : Option Nat}
    (h : set_next s a v = .ok t) : next_at t a = some v := by
  obtain ⟨n, hn, rfl⟩ := update_inv h
  have hlt : a < s.heap.length := by
    rcases List.getElem?_eq_some.mp hn with ⟨h, _⟩
    exact h
  simp [next_at, List.getElem?_set_self hlt]

theorem bind_ok_inv {α β : Type} {x : Except Fault α} {f : α → Except Fault β} {b : β}
    (h : (x >>= f) = .ok b) : ∃ a, x = .ok a ∧ f a = .ok b := by
  cases x with
  | error e => cases h
  | ok a => exact ⟨a, rfl, h⟩

theorem pure_ok_inv {α : Type} {a b : α} (h : (pure a : Except Fault α) = .ok b) : a = b := by
  injection h

theorem lt_of_getElem? {heap : List lru_node} {a : Nat} {n : lru_node}
    (h : heap[a]? = some n) : a < heap.length := by
  rcases List.getElem?_eq_some.mp h with ⟨h, _⟩
  exact h

theorem getElem?_of_lt {heap : List lru_node} {a : Nat} (h : a < heap.length) :
    ∃ n, heap[a]? = some n :=
  ⟨heap[a], List.getElem?_eq_getElem h⟩

theorem prev_at_eq {s : SimpleLRU} {b : Nat} {n : lru_node} (h : s.heap[b]? = some n) :
    prev_at s b = some n.prev := by
  simp [prev_at, h]

theorem next_at_eq {s : SimpleLRU} {b : Nat} {n : lru_node} (h : s.heap[b]? = some n) :
    next_at s b = some n.next := by
  simp [next_at, h]

/-- The first block of `release_node` changes links only, keeps every `prev`
link, and leaves the `next` link of `tmp_node` as it was or null. -/
theorem release_node_block1 {s t : SimpleLRU} {a : Nat} {n : lru_node}
    (h : (match n.prev with
      | some p => do
        let s ← set_next s p none
        let n ← deref s a
        set_next s p n.next
      | none => pure s) = .ok t) :
    same_data s t ∧ t._lru_head = s._lru_head ∧ t._lru_tail = s._lru_tail ∧
    (∀ b, prev_at t b = prev_at s b) ∧
    (next_at t a = next_at s a ∨ next_at t a = some none) := by
  split at h
  · rename_i p hp
    obtain ⟨s1, h1, h'⟩ := bind_ok_inv h
    obtain ⟨n1, hn1, h2⟩ := bind_ok_inv h'
    have f1 := set_next_frame h1
    have f2 := set_next_frame h2
    refine ⟨same_data_trans f1.1 f2.1, f2.2.1.trans f1.2.1, f2.2.2.trans f1.2.2,
      fun b => (set_next_prev_at h2 b).trans (set_next_prev_at h1 b), ?_⟩
    by_cases hpa : p = a
    · subst hpa
      right
      have e1 := set_next_next_at_self h1
      rw [next_at_eq (deref_inv hn1)] at e1
      injection e1 with e1
      rw [set_next_next_at_self h2, e1]
    · left
      rw [set_next_next_at_ne h2 hpa, set_next_next_at_ne h1 hpa]
  · have := pure_ok_inv h
    subst this
    exact ⟨same_data_refl _, rfl, rfl, fun _ => rfl, Or.inl rfl⟩

/-- The second block of `release_node` changes links only, keeps every `next`
link, and keeps the `prev` link of every node other than the one `tmp_node`
has as its `next`. -/
theorem release_node_block2 {s t : SimpleLRU} {a : Nat} {n : lru_node}
    (h : (match n.next with
      | some q => do
        let s ← set_prev s q none
        let n ← deref s a
        set_prev s q n.prev
      | none => pure s) = .ok t) :
    same_data s t ∧ t._lru_head = s._lru_head ∧ t._lru_tail = s._lru_tail ∧
    (∀ b, next_at t b = next_at s b) ∧
    (∀ b, n.next ≠ some b → prev_at t b = prev_at s b) := by
  split at h
  · rename_i q hq
    obtain ⟨s1, h1, h'⟩ := bind_ok_inv h
    obtain ⟨n1, hn1, h2⟩ := bind_ok_inv h'
    have f1 := set_prev_frame h1
    have f2 := set_prev_frame h2
    refine ⟨same_data_trans f1.1 f2.1, f2.2.1.trans f1.2.1, f2.2.2.trans f1.2.2,
      fun b => (set_prev_next_at h2 b).trans (set_prev_next_at h1 b), ?_⟩
    intro b hb
    have hqb : q ≠ b := fun e => hb (by rw [hq, e])
    rw [set_prev_prev_at_ne h2 hqb, set_prev_prev_at_ne h1 hqb]
  · have := pure_ok_inv h
    subst this
    exact ⟨same_data_refl _, rfl, rfl, fun _ => rfl, fun _ _ => rfl⟩

/-- What `release_node` leaves alone: capacity, index, the number of nodes,
keys and values, `_lru_head`, and the `prev` link of every node that
`tmp_node` does not have as its `next`. -/
theorem release_node_frame {s t : SimpleLRU} {a : Nat} (h : release_node s a = .ok t) :
    same_data s t ∧ t._lru_head = s._lru_head ∧
    ∀ b, next_at s a ≠ some (some b) → prev_at t b = prev_at s b := by
  unfold release_node at h
  obtain ⟨n, hn, h⟩ := bind_ok_inv h
  obtain ⟨s1, h1, h⟩ := bind_ok_inv h
  obtain ⟨n1, hn1, h⟩ := bind_ok_inv h
  obtain ⟨s2, h2, h⟩ := bind_ok_inv h
  obtain ⟨n2, hn2, h⟩ := bind_ok_inv h
  obtain ⟨d1, hh1, -, p1, x1⟩ := release_node_block1 h1
  obtain ⟨d2, hh2, -, -, p2⟩ := release_node_block2 h2
  have hst : same_data s2 t ∧ t._lru_head = s2._lru_head ∧ t.heap = s2.heap := by
    split at h
    · have := pure_ok_inv h
      subst this
      exact ⟨⟨rfl, rfl, rfl, fun _ => rfl⟩, rfl, rfl⟩
    · have := pure_ok_inv h
      subst this
      exact ⟨same_data_refl _, rfl, rfl⟩
  refine ⟨same_data_trans (same_data_trans d1 d2) hst.1, hst.2.1.trans (hh2.trans hh1), ?_⟩
  intro b hb
  have e1 : prev_at t b = prev_at s2 b := by simp [prev_at, hst.2.2]
  have hn1b : n1.next ≠ some b := by
    intro e
    have e2 := next_at_eq (deref_inv hn1)
    rw [e] at e2
    rcases x1 with x1 | x1
    · exact hb (x1 ▸ e2)
    · rw [x1] at e2
      cases e2
  rw [e1, p2 b hn1b, p1 b]

theorem bind_ok_of {α β : Type} {x : Except Fault α} {f : α → Except Fault β} {a : α} {b : β}
    (hx : x = .ok a) (hf : f a = .ok b) : (x >>= f) = .ok b := by
  subst hx
  exact hf

theorem update_ok_of_lt {s : SimpleLRU} {a : Nat} (f : lru_node → lru_node)
    (h : a < s.heap.length) : ∃ t, update s a f = .ok t := by
  obtain ⟨n, hn⟩ := getElem?_of_lt h
  exact ⟨_, update_ok hn⟩

theorem set_next_ok {s : SimpleLRU} {a : Nat} (v : Option Nat) (h : a < s.heap.length) :
    ∃ t, set_next s a v = .ok t :=
  update_ok_of_lt _ h

theorem set_prev_ok {s : SimpleLRU} {a : Nat} (v : Option Nat) (h : a < s.heap.length) :
    ∃ t, set_prev s a v = .ok t :=
  update_ok_of_lt _ h

theorem deref_ok_of_lt {s : SimpleLRU} {a : Nat} (h : a < s.heap.length) :
    ∃ n, deref s a = .ok n := by
  obtain ⟨n, hn⟩ := getElem?_of_lt h
  exact ⟨n, deref_ok hn⟩

/-- Where the two links of `tmp_node` are null or addresses of nodes,
`release_node` returns. -/
theorem release_node_ok {s : SimpleLRU} {a : Nat}
    (hv : ∀ x, (prev_at s a = some (some x) ∨ next_at s a = some (some x)) →
      x < s.heap.length)
    (ha : a < s.heap.length) : ∃ t, release_node s a = .ok t := by
  unfold release_node
  obtain ⟨n, hn⟩ := getElem?_of_lt ha
  -- first block
  have hb1 : ∃ s1, (match n.prev with
      | some p => do
        let s ← set_next s p none
        let n ← deref s a
        set_next s p n.next
      | none => pure s) = .ok s1 := by
    cases hp : n.prev with
    | none => exact ⟨s, rfl⟩
    | some p =>
      have hpl : p < s.heap.length := hv p (Or.inl (by rw [prev_at_eq hn, hp]))
      obtain ⟨sa, hsa⟩ := set_next_ok none hpl
      have hl : sa.heap.length = s.heap.length := (set_next_frame hsa).1.2.2.1
      obtain ⟨na, hna⟩ := deref_ok_of_lt (s := sa) (hl ▸ ha)
      obtain ⟨sb, hsb⟩ := set_next_ok (s := sa) na.next (hl ▸ hpl)
      exact ⟨sb, bind_ok_of hsa (bind_ok_of hna hsb)⟩
  obtain ⟨s1, h1⟩ := hb1
  obtain ⟨d1, -, -, -, x1⟩ := release_node_block1 h1
  have hl1 : s1.heap.length = s.heap.length := d1.2.2.1
  obtain ⟨n1, hn1⟩ := deref_ok_of_lt (s := s1) (hl1 ▸ ha)
  -- second block
  have hb2 : ∃ s2, (match n1.next with
      | some q => do
        let s ← set_prev s1 q none
        let n ← deref s a
        set_prev s q n.prev
      | none => pure s1) = .ok s2 := by
    cases hq : n1.next with
    | none => exact ⟨s1, rfl⟩
    | some q =>
      have hql : q < s.heap.length := by
        have e := next_at_eq (deref_inv hn1)
        rw [hq] at e
        rcases x1 with x1 | x1
        · rw [x1] at e
          exact hv q (Or.inr e)
        · rw [x1] at e
          cases e
      obtain ⟨sa, hsa⟩ := set_prev_ok (s := s1) none (hl1 ▸ hql)
      have hl : sa.heap.length = s1.heap.length := (set_prev_frame hsa).1.2.2.1
      obtain ⟨na, hna⟩ := deref_ok_of_lt (s := sa) (hl ▸ hl1 ▸ ha)
      obtain ⟨sb, hsb⟩ := set_prev_ok (s := sa) na.prev (hl ▸ hl1 ▸ hql)
      exact ⟨sb, bind_ok_of hsa (bind_ok_of hna hsb)⟩
  obtain ⟨s2, h2⟩ := hb2
  obtain ⟨d2, -, -, -, -⟩ := release_node_block2 h2
  have hl2 : s2.heap.length = s.heap.length := d2.2.2.1.trans hl1
  obtain ⟨n2, hn2⟩ := deref_ok_of_lt (s := s2) (hl2 ▸ ha)
  have hb3 : ∃ t, (if n2.prev.isSome && n2.next.isNone then
      (pure { s2 with _lru_tail := n2.prev } : Except Fault SimpleLRU) else pure s2) = .ok t := by
    split
    · exact ⟨_, rfl⟩
    · exact ⟨_, rfl⟩
  obtain ⟨t, ht⟩ := hb3
  exact ⟨t, bind_ok_of (deref_ok hn) (bind_ok_of h1 (bind_ok_of hn1 (bind_ok_of h2
    (bind_ok_of hn2 ht))))⟩

theorem reset_head_prev_inv {s t : SimpleLRU} {h a : Nat}
    (hr : reset_head_prev s h a = .ok t) :
    prev_at s h = some none ∧ set_prev s h (some a) = .ok t := by
  unfold reset_head_prev at hr
  obtain ⟨hn, hhn, hr⟩ := bind_ok_inv hr
  split at hr
  · cases hr
  · rename_i hp
    refine ⟨?_, hr⟩
    rw [prev_at_eq (deref_inv hhn)]
    cases hq : hn.prev with
    | none => rfl
    | some x => simp [hq] at hp

theorem reset_head_prev_ok {s : SimpleLRU} {h : Nat} (a : Nat)
    (hp : prev_at s h = some none) : ∃ t, reset_head_prev s h a = .ok t := by
  unfold reset_head_prev
  cases hn : s.heap[h]? with
  | none => simp [prev_at, hn] at hp
  | some n =>
    have hnp : n.prev = none := by
      rw [prev_at_eq hn] at hp
      injection hp
    obtain ⟨t, ht⟩ := set_prev_ok (some a) (lt_of_getElem? hn)
    refine ⟨t, bind_ok_of (deref_ok hn) ?_⟩
    simp only [hnp, Option.isSome_none, Bool.false_eq_true, if_false]
    exact ht

/-- What `put_node_in_head` leaves alone, and what it achieves: afterwards
`_lru_head` points to `tmp_node`, and its `prev` link is null unless it was the
head before. -/
theorem put_node_in_head_frame {s t : SimpleLRU} {a : Nat}
    (h : put_node_in_head s a = .ok t) :
    same_data s t ∧ t._lru_head = some a ∧
    (s._lru_head ≠ some a → prev_at t a = some none) ∧
    (s._lru_head = some a → t = s) := by
  unfold put_node_in_head at h
  split at h
  · rename_i hh
    have := pure_ok_inv h
    subst this
    exact ⟨same_data_refl _, hh, fun hne => absurd hh hne, fun _ => rfl⟩
  · rename_i hh
    obtain ⟨s1, h1, h⟩ := bind_ok_inv h
    obtain ⟨s2, h2, h⟩ := bind_ok_inv h
    obtain ⟨s3, h3, h⟩ := bind_ok_inv h
    obtain ⟨s4, h4, h⟩ := bind_ok_inv h
    obtain ⟨s5, h5, h⟩ := bind_ok_inv h
    have e := pure_ok_inv h
    subst e
    obtain ⟨d1, hd1, -⟩ := release_node_frame h1
    obtain ⟨d2, hd2, -⟩ := set_prev_frame h2
    obtain ⟨d3, hd3, -⟩ := set_next_frame h3
    obtain ⟨d4, hd4, -⟩ := set_next_frame h4
    have hh4 : s4._lru_head = s._lru_head := hd4.trans (hd3.trans (hd2.trans hd1))
    have p4 : prev_at s4 a = some none := by
      rw [set_next_prev_at h4, set_next_prev_at h3]
      exact set_prev_prev_at_self h2
    have h5' : same_data s4 s5 ∧ prev_at s5 a = some none := by
      split at h5
      · rename_i x hx
        obtain ⟨-, hs⟩ := reset_head_prev_inv h5
        have hxa : x ≠ a := by
          intro e
          apply hh
          rw [← hh4, hx, e]
        exact ⟨(set_prev_frame hs).1, by rw [set_prev_prev_at_ne hs hxa]; exact p4⟩
      · have := pure_ok_inv h5
        subst this
        exact ⟨same_data_refl _, p4⟩
    refine ⟨?_, rfl, fun _ => ?_, fun e => absurd e hh⟩
    · have d : same_data s s5 :=
        same_data_trans (same_data_trans (same_data_trans (same_data_trans d1 d2) d3) d4) h5'.1
      exact ⟨d.1, d.2.1, d.2.2.1, d.2.2.2⟩
    · exact h5'.2

/-- Once `release_node` returns, the rest of `put_node_in_head` returns as well
when the head has a null `prev` link and is not the `next` of `tmp_node`. -/
theorem put_node_in_head_ok {s s1 : SimpleLRU} {a : Nat}
    (h1 : release_node s a = .ok s1) (ha : a < s.heap.length)
    (hh : ∀ h, s._lru_head = some h →
      prev_at s h = some none ∧ next_at s a ≠ some (some h)) :
    ∃ t, put_node_in_head s a = .ok t := by
  unfold put_node_in_head
  by_cases hne : s._lru_head = some a
  · rw [if_pos hne]
    exact ⟨s, rfl⟩
  · rw [if_neg hne]
    obtain ⟨d1, hd1, pf1⟩ := release_node_frame h1
    have l1 : a < s1.heap.length := d1.2.2.1 ▸ ha
    obtain ⟨s2, h2⟩ := set_prev_ok none l1
    obtain ⟨d2, hd2, -⟩ := set_prev_frame h2
    have l2 : a < s2.heap.length := d2.2.2.1 ▸ l1
    obtain ⟨s3, h3⟩ := set_next_ok none l2
    obtain ⟨d3, hd3, -⟩ := set_next_frame h3
    have l3 : a < s3.heap.length := d3.2.2.1 ▸ l2
    obtain ⟨s4, h4⟩ := set_next_ok s3._lru_head l3
    obtain ⟨d4, hd4, -⟩ := set_next_frame h4
    have hh4 : s4._lru_head = s._lru_head := hd4.trans (hd3.trans (hd2.trans hd1))
    have h5 : ∃ s5, (match s4._lru_head with
        | some h => reset_head_prev s4 h a
        | none => pure s4) = .ok s5 := by
      cases hx : s4._lru_head with
      | none => exact ⟨s4, rfl⟩
      | some x =>
        have hsx : s._lru_head = some x := by rw [← hh4, hx]
        have hxa : a ≠ x := fun e => hne (by rw [hsx, e])
        have px : prev_at s4 x = some none := by
          rw [set_next_prev_at h4, set_next_prev_at h3, set_prev_prev_at_ne h2 hxa,
            pf1 x (hh x hsx).2]
          exact (hh x hsx).1
        exact reset_head_prev_ok a px
    obtain ⟨s5, h5⟩ := h5
    exact ⟨_, bind_ok_of h1 (bind_ok_of h2 (bind_ok_of h3 (bind_ok_of h4 (bind_ok_of h5 rfl))))⟩

/-- A node with two null links is released without any change. -/
theorem release_node_unlinked {s : SimpleLRU} {a : Nat} {n : lru_node}
    (hn : s.heap[a]? = some n) (hp : n.prev = none) (hx : n.next = none) :
    release_node s a = .ok s := by
  simp [release_node, deref, hn, hp, hx, bind, Except.bind, pure, Except.pure]

theorem assert_head_no_prev_ok {s : SimpleLRU} {h : Nat} (hh : s._lru_head = some h)
    (hp : prev_at s h = some none) : assert_head_no_prev s = .ok () := by
  unfold assert_head_no_prev
  cases hn : s.heap[h]? with
  | none => simp [prev_at, hn] at hp
  | some n =>
    have hnp : n.prev = none := by
      rw [prev_at_eq hn] at hp
      injection hp
    simp [hh, deref, hn, hnp, bind, Except.bind, pure, Except.pure]

theorem assert_head_no_prev_inv {s : SimpleLRU} (h : assert_head_no_prev s = .ok ()) :
    ∃ a, s._lru_head = some a ∧ prev_at s a = some none := by
  unfold assert_head_no_prev at h
  split at h
  · cases h
  · rename_i a ha
    obtain ⟨n, hn, h⟩ := bind_ok_inv h
    refine ⟨a, ha, ?_⟩
    rw [prev_at_eq (deref_inv hn)]
    split at h
    · cases h
    · rename_i hp
      cases hq : n.prev with
      | none => rfl
      | some x => simp [hq] at hp

/-! ## The scan of the list -/

theorem key_at_eq {heap : List lru_node} {a : Nat} {n : lru_node} (h : heap[a]? = some n) :
    key_at heap a = some n.key := by
  simp [key_at, h]

/-- A node the scan stops at carries the key looked for. -/
theorem find_in_list_key {s : SimpleLRU} {k : String} :
    ∀ {fuel : Nat} {c : Option Nat} {a : Nat},
      find_in_list s k fuel c = .ok (some a) → key_at s.heap a = some k := by
  intro fuel
  induction fuel with
  | zero =>
    intro c a h
    cases c <;> simp [find_in_list] at h
  | succ fuel ih =>
    intro c a h
    cases c with
    | none => simp [find_in_list] at h
    | some b =>
      unfold find_in_list at h
      obtain ⟨n, hn, h⟩ := bind_ok_inv h
      split at h
      · rename_i hk
        have e := pure_ok_inv h
        injection e with e
        subst e
        rw [key_at_eq (deref_inv hn)]
        simpa using hk
      · exact ih h

/-- The scan stops at once at a node that carries the key. -/
theorem find_in_list_hit {s : SimpleLRU} {k : String} {a : Nat}
    (h : key_at s.heap a = some k) (fuel : Nat) :
    find_in_list s k (fuel + 1) (some a) = .ok (some a) := by
  unfold find_in_list
  cases hn : s.heap[a]? with
  | none => simp [key_at, hn] at h
  | some n =>
    rw [key_at_eq hn] at h
    injection h with h
    simp [deref, hn, h, bind, Except.bind, pure, Except.pure]

/-- On a finite chain, with fuel for every node of it, the scan returns the
first node of the chain that carries the key. -/
theorem find_in_list_chain {s : SimpleLRU} {k : String} :
    ∀ {l : List Nat} {c : Option Nat} {fuel : Nat},
      next_chain s.heap c l → l.length ≤ fuel →
      find_in_list s k fuel c = .ok (l.find? (fun a => key_at s.heap a == some k)) := by
  intro l
  induction l with
  | nil =>
    intro c fuel hc _
    simp only [next_chain] at hc
    subst hc
    cases fuel <;> simp [find_in_list]
  | cons a l ih =>
    intro c fuel hc hf
    obtain ⟨hca, n, hn, hrest⟩ := hc
    subst hca
    cases fuel with
    | zero => simp at hf
    | succ fuel =>
      have hf' : l.length ≤ fuel := by simpa using hf
      unfold find_in_list
      by_cases hk : n.key = k
      · simp [deref, hn, hk, key_at, bind, Except.bind, pure, Except.pure]
      · have hk' : ¬ (key_at s.heap a == some k) = true := by
          simp [key_at, hn, hk]
        rw [List.find?_cons_of_neg (p := fun a => key_at s.heap a == some k) l hk']
        simp only [deref, hn, bind, Except.bind]
        have : (n.key == k) = false := by simpa using hk
        simp only [this]
        exact ih hrest hf'

theorem find_in_list_none {s : SimpleLRU} {k : String} {l : List Nat} {c : Option Nat}
    {fuel : Nat} (hc : next_chain s.heap c l) (hf : l.length ≤ fuel)
    (hk : ∀ a ∈ l, key_at s.heap a ≠ some k) :
    find_in_list s k fuel c = .ok none := by
  rw [find_in_list_chain hc hf]
  congr 1
  rw [List.find?_eq_none]
  intro a ha
  simpa using hk a ha

theorem find_in_list_some {s : SimpleLRU} {k : String} {l : List Nat} {c : Option Nat}
    {fuel : Nat} (hc : next_chain s.heap c l) (hf : l.length ≤ fuel)
    (hk : ∃ a ∈ l, key_at s.heap a = some k) :
    ∃ a ∈ l, find_in_list s k fuel c = .ok (some a) ∧ key_at s.heap a = some k := by
  rw [find_in_list_chain hc hf]
  obtain ⟨b, hb, hbk⟩ := hk
  cases hfind : l.find? (fun a => key_at s.heap a == some k) with
  | none =>
    rw [List.find?_eq_none] at hfind
    have := hfind b hb
    simp [hbk] at this
  | some a =>
    refine ⟨a, List.mem_of_find?_eq_some hfind, rfl, ?_⟩
    have := List.find?_some hfind
    simpa using this

/-! ## Chains -/

theorem next_chain_det {heap : List lru_node} :
    ∀ {l l' : List Nat} {c : Option Nat},
      next_chain heap c l → next_chain heap c l' → l = l' := by
  intro l
  induction l with
  | nil =>
    intro l' c h h'
    simp only [next_chain] at h
    subst h
    cases l' with
    | nil => rfl
    | cons b l' => exact absurd h'.1 (by simp)
  | cons a l ih =>
    intro l' c h h'
    obtain ⟨hca, n, hn, hrest⟩ := h
    subst hca
    cases l' with
    | nil => simp [next_chain] at h'
    | cons b l' =>
      obtain ⟨hcb, m, hm, hrest'⟩ := h'
      injection hcb with hcb
      subst hcb
      rw [hn] at hm
      injection hm with hm
      subst hm
      rw [ih hrest hrest']

/-- Each node of a chain starts the chain made of the nodes behind it. -/
theorem next_chain_mem {heap : List lru_node} :
    ∀ {l : List Nat} {c : Option Nat} {a : Nat},
      next_chain heap c l → a ∈ l →
      ∃ n l', heap[a]? = some n ∧ next_chain heap n.next l' ∧ l'.length < l.length := by
  intro l
  induction l with
  | nil => intro c a _ ha; cases ha
  | cons b l ih =>
    intro c a h ha
    obtain ⟨-, n, hn, hrest⟩ := h
    rcases List.mem_cons.mp ha with e | ha'
    · subst e
      exact ⟨n, l, hn, hrest, by simp⟩
    · obtain ⟨m, l', hm, hl', hlt⟩ := ih hrest ha'
      exact ⟨m, l', hm, hl', by simp; omega⟩

/-- A finite chain is acyclic: no node of it has the first node as its
`next`. -/
theorem next_chain_no_back {s : SimpleLRU} {l : List Nat} {h a : Nat}
    (hc : next_chain s.heap (some h) l) (ha : a ∈ l) :
    next_at s a ≠ some (some h) := by
  intro e
  obtain ⟨n, l', hn, hl', hlt⟩ := next_chain_mem hc ha
  rw [next_at_eq hn] at e
  injection e with e
  rw [e] at hl'
  have := next_chain_det hc hl'
  rw [this] at hlt
  exact Nat.lt_irrefl _ hlt

theorem next_chain_lt {heap : List lru_node} {l : List Nat} {c : Option Nat} {a : Nat}
    (hc : next_chain heap c l) (ha : a ∈ l) : a < heap.length := by
  obtain ⟨n, _, hn, _, _⟩ := next_chain_mem hc ha
  exact lt_of_getElem? hn

/-! ## The cleaner -/

theorem index_find_eq_none {s : SimpleLRU} {k : String} :
    index_find s k = none ↔ ∀ e ∈ s._lru_index, e.1 ≠ k := by
  simp [index_find, List.find?_eq_none]

theorem index_find_erase_none {s : SimpleLRU} {k : String} (key : String)
    (h : index_find s k = none) : index_find (index_erase s key) k = none := by
  rw [index_find_eq_none] at h ⊢
  intro e he
  exact h e (List.mem_of_mem_eraseP he)

/-- The loop of `cache_cleaner` touches the index only, and a key the index
lacked is still lacking afterwards. -/
theorem cache_cleaner_loop_frame {num : Nat} :
    ∀ {fuel : Nat} {s t : SimpleLRU} {c : Option Nat} {cnt : Nat},
      cache_cleaner_loop num fuel s c cnt = .ok t →
      t.heap = s.heap ∧ t._lru_head = s._lru_head ∧ t._lru_tail = s._lru_tail ∧
      t._max_size = s._max_size ∧ ∀ k, index_find s k = none → index_find t k = none := by
  intro fuel
  induction fuel with
  | zero =>
    intro s t c cnt h
    cases c with
    | none =>
      simp only [cache_cleaner_loop] at h
      injection h with h
      subst h
      exact ⟨rfl, rfl, rfl, rfl, fun _ h => h⟩
    | some a =>
      simp only [cache_cleaner_loop] at h
      split at h
      · cases h
      · injection h with h
        subst h
        exact ⟨rfl, rfl, rfl, rfl, fun _ h => h⟩
  | succ fuel ih =>
    intro s t c cnt h
    cases c with
    | none =>
      simp only [cache_cleaner_loop] at h
      injection h with h
      subst h
      exact ⟨rfl, rfl, rfl, rfl, fun _ h => h⟩
    | some a =>
      simp only [cache_cleaner_loop] at h
      split at h
      · obtain ⟨n, hn, h⟩ := bind_ok_inv h
        split at h
        · obtain ⟨e1, e2, e3, e4, e5⟩ := ih h
          exact ⟨e1, e2, e3, e4, fun k hk => e5 k (index_find_erase_none _ hk)⟩
        · exact ih h
      · injection h with h
        subst h
        exact ⟨rfl, rfl, rfl, rfl, fun _ h => h⟩

theorem cache_cleaner_frame {fuel : Nat} {s t : SimpleLRU} {ks ns : Nat}
    (h : cache_cleaner fuel s ks ns = .ok t) :
    t.heap = s.heap ∧ t._lru_head = s._lru_head ∧ t._lru_tail = s._lru_tail ∧
    t._max_size = s._max_size ∧ ∀ k, index_find s k = none → index_find t k = none := by
  unfold cache_cleaner at h
  split at h
  · exact cache_cleaner_loop_frame h
  · injection h with h
    subst h
    exact ⟨rfl, rfl, rfl, rfl, fun _ h => h⟩

/-- Where the `prev` links from the start of the walk reach the null pointer,
the loop of `cache_cleaner` returns, given fuel for every node on the way. -/
theorem cache_cleaner_loop_ok {num : Nat} {heap : List lru_node} :
    ∀ {l : List Nat} {fuel : Nat} {s : SimpleLRU} {c : Option Nat} {cnt : Nat},
      prev_chain heap c l → s.heap = heap → l.length ≤ fuel →
      ∃ t, cache_cleaner_loop num fuel s c cnt = .ok t := by
  intro l
  induction l with
  | nil =>
    intro fuel s c cnt hc _ _
    simp only [prev_chain] at hc
    subst hc
    cases fuel <;> exact ⟨s, by simp [cache_cleaner_loop]⟩
  | cons a l ih =>
    intro fuel s c cnt hc hs hf
    obtain ⟨hca, n, hn, hrest⟩ := hc
    subst hca
    cases fuel with
    | zero => simp at hf
    | succ fuel =>
      have hf' : l.length ≤ fuel := by simpa using hf
      simp only [cache_cleaner_loop]
      split
      · have hd : deref s a = .ok n := deref_ok (hs ▸ hn)
        simp only [hd, bind, Except.bind]
        split
        · exact ih (s := index_erase s n.key) hrest hs hf'
        · exact ih hrest hs hf'
      · exact ⟨s, rfl⟩

theorem cache_cleaner_ok {fuel : Nat} {s : SimpleLRU} {l : List Nat} (ks ns : Nat)
    (hc : prev_chain s.heap s._lru_tail l) (hf : l.length ≤ fuel) :
    ∃ t, cache_cleaner fuel s ks ns = .ok t := by
  unfold cache_cleaner
  split
  · exact cache_cleaner_loop_ok hc rfl hf
  · exact ⟨s, rfl⟩

/-! ## Values, the index and new nodes -/

theorem node_data_eq {s : SimpleLRU} {b : Nat} {n : lru_node} (h : s.heap[b]? = some n) :
    node_data s b = some (n.key, n.value) := by
  simp [node_data, h]

theorem node_data_inv {s : SimpleLRU} {b : Nat} {k v : String}
    (h : node_data s b = some (k, v)) :
    ∃ n, s.heap[b]? = some n ∧ n.key = k ∧ n.value = v := by
  cases hn : s.heap[b]? with
  | none => simp [node_data, hn] at h
  | some n =>
    simp only [node_data, hn, Option.map_some', Option.some.injEq, Prod.mk.injEq] at h
    exact ⟨n, rfl, h.1, h.2⟩

theorem key_at_of_node_data {s : SimpleLRU} {b : Nat} {k v : String}
    (h : node_data s b = some (k, v)) : key_at s.heap b = some k := by
  obtain ⟨n, hn, hk, -⟩ := node_data_inv h
  rw [key_at_eq hn, hk]

theorem index_find_congr {s t : SimpleLRU} (h : t._lru_index = s._lru_index) (k : String) :
    index_find t k = index_find s k := by
  simp [index_find, h]

/-- The assignment `a->value := v` changes the value of the node at `a` and
nothing else. -/
theorem set_value_frame {s t : SimpleLRU} {a : Nat} {v : String}
    (h : set_value s a v = .ok t) :
    t._lru_index = s._lru_index ∧ t._lru_head = s._lru_head ∧
    t.heap.length = s.heap.length ∧
    (∀ b, prev_at t b = prev_at s b) ∧ (∀ b, next_at t b = next_at s b) ∧
    ∃ k, key_at s.heap a = some k ∧ node_data t a = some (k, v) := by
  obtain ⟨n, hn, rfl⟩ := update_inv h
  have hlt := lt_of_getElem? hn
  refine ⟨rfl, rfl, by simp, fun b => ?_, fun b => ?_, n.key, key_at_eq hn, ?_⟩
  · by_cases hb : a = b
    · subst hb
      simp [prev_at, List.getElem?_set_self hlt, hn]
    · simp [prev_at, List.getElem?_set_ne hb]
  · by_cases hb : a = b
    · subst hb
      simp [next_at, List.getElem?_set_self hlt, hn]
    · simp [next_at, List.getElem?_set_ne hb]
  · simp [node_data, List.getElem?_set_self hlt]

theorem set_value_ok {s : SimpleLRU} {a : Nat} (v : String) (h : a < s.heap.length) :
    ∃ t, set_value s a v = .ok t :=
  update_ok_of_lt _ h

/-- An index hit of `Get` hands back the value of the node found. -/
theorem Get_index_hit {s : SimpleLRU} {k v : String} {a : Nat} (fuel : Nat)
    (hi : index_find s k = some a) (hd : ∃ k', node_data s a = some (k', v)) :
    Get fuel s k = .ok (s, some v) := by
  obtain ⟨k', hd⟩ := hd
  obtain ⟨n, hn, -, hv⟩ := node_data_inv hd
  simp [Get, hi, deref, hn, hv, bind, Except.bind, pure, Except.pure]

/-- A list hit of `Get` at the head hands back the value of the head and
changes nothing, provided the head has no `prev` link. -/
theorem Get_head_hit {s : SimpleLRU} {k v : String} {a : Nat} (fuel : Nat)
    (hi : index_find s k = none) (hh : s._lru_head = some a)
    (hd : node_data s a = some (k, v)) (hp : prev_at s a = some none) :
    Get (fuel + 1) s k = .ok (s, some v) := by
  obtain ⟨n, hn, -, hv⟩ := node_data_inv hd
  have hfind := find_in_list_hit (key_at_of_node_data hd) fuel
  have hput : put_node_in_head s a = .ok s := by
    unfold put_node_in_head
    rw [if_pos hh]
    rfl
  have hass := assert_head_no_prev_ok hh hp
  simp [Get, hi, hh, hfind, deref, hn, hput, hass, hv, bind, Except.bind, pure, Except.pure]

theorem index_find_insert {s : SimpleLRU} {k : String} (a : Nat)
    (hi : index_find s k = none) :
    index_find (index_insert s k a) k = some a ∧
    (index_insert s k a).heap = s.heap ∧
    (index_insert s k a)._lru_head = s._lru_head := by
  have hnone : s._lru_index.find? (fun e => e.1 == k) = none := by
    simpa [index_find] using hi
  simp [index_insert, hi, index_find, List.find?_append, hnone]

/-- Once `link_tail_and_index` returns, the index maps the key of the head to
the head; nodes and `_lru_head` are as before. -/
theorem link_tail_facts (s : SimpleLRU) (node : Nat) :
    (if s._lru_tail.isNone then { s with _lru_tail := some node } else s)._lru_head
      = s._lru_head ∧
    (if s._lru_tail.isNone then { s with _lru_tail := some node } else s).heap = s.heap ∧
    (if s._lru_tail.isNone then { s with _lru_tail := some node } else s)._lru_index
      = s._lru_index := by
  split <;> exact ⟨rfl, rfl, rfl⟩

theorem link_tail_and_index_inv {s t : SimpleLRU} {node h : Nat} {k v : String}
    (hl : link_tail_and_index s node = .ok t) (hh : s._lru_head = some h)
    (hd : node_data s h = some (k, v)) (hi : index_find s k = none) :
    index_find t k = some h ∧ t.heap = s.heap ∧ t._lru_head = s._lru_head := by
  obtain ⟨n, hn, hk, -⟩ := node_data_inv hd
  unfold link_tail_and_index at hl
  dsimp only at hl
  obtain ⟨f1, f2, f3⟩ := link_tail_facts s node
  generalize (if s._lru_tail.isNone then { s with _lru_tail := some node } else s) = u
    at hl f1 f2 f3
  have hu : u.heap[h]? = some n := by rw [f2]; exact hn
  simp only [f1, hh, deref, hu, bind, Except.bind, pure, Except.pure] at hl
  injection hl with hl
  subst hl
  rw [hk]
  obtain ⟨r1, r2, r3⟩ := index_find_insert (s := u) h ((index_find_congr f3 k).trans hi)
  exact ⟨r1, r2.trans f2, r3.trans f1⟩

theorem link_tail_and_index_ok {s : SimpleLRU} {h : Nat} (node : Nat)
    (hh : s._lru_head = some h) (hl : h < s.heap.length) :
    ∃ t, link_tail_and_index s node = .ok t := by
  obtain ⟨n, hn⟩ := getElem?_of_lt hl
  unfold link_tail_and_index
  dsimp only
  obtain ⟨f1, f2, -⟩ := link_tail_facts s node
  generalize (if s._lru_tail.isNone then { s with _lru_tail := some node } else s) = u
    at f1 f2
  have hu : u.heap[h]? = some n := by rw [f2]; exact hn
  simp [f1, hh, deref, hu, bind, Except.bind, pure, Except.pure]

theorem new_node_facts (s : SimpleLRU) (k v : String) :
    (new_node s k v).2 = s.heap.length ∧
    (new_node s k v).1._lru_index = s._lru_index ∧
    (new_node s k v).1._lru_head = s._lru_head ∧
    (new_node s k v).1._lru_tail = s._lru_tail ∧
    (new_node s k v).1.heap.length = s.heap.length + 1 ∧
    (new_node s k v).1.heap[s.heap.length]? =
      some { key := k, value := v, prev := none, next := none } ∧
    ∀ (b : Nat) (n : lru_node), s.heap[b]? = some n →
      (new_node s k v).1.heap[b]? = some n := by
  refine ⟨rfl, rfl, rfl, rfl, by simp [new_node], by simp [new_node], ?_⟩
  intro b n hb
  simp only [new_node]
  rw [List.getElem?_append_left (lt_of_getElem? hb)]
  exact hb

/-- Once `insert_new` returns for a key the index lacks, the index maps the key
to the new node, which carries the key and the value. -/
theorem insert_new_inv {fuel : Nat} {s t : SimpleLRU} {k v : String} {ks : Nat}
    (h : insert_new fuel s k v ks = .ok t) (hi : index_find s k = none) :
    index_find t k = some s.heap.length ∧ node_data t s.heap.length = some (k, v) := by
  unfold insert_new at h
  obtain ⟨s1, h1, h⟩ := bind_ok_inv h
  obtain ⟨s2, h2, h⟩ := bind_ok_inv h
  obtain ⟨u, h3, h⟩ := bind_ok_inv h
  obtain ⟨e0, ei, -, -, -, en, -⟩ := new_node_facts s k v
  rw [e0] at h2 h
  obtain ⟨c1, -, -, -, c5⟩ := cache_cleaner_frame h1
  obtain ⟨d2, hh2, -, -⟩ := put_node_in_head_frame h2
  have hi1 : index_find s1 k = none := c5 k ((index_find_congr ei k).trans hi)
  have hi2 : index_find s2 k = none := (index_find_congr d2.2.1 k).trans hi1
  have hd2 : node_data s2 s.heap.length = some (k, v) := by
    rw [d2.2.2.2, node_data, c1, en]
    rfl
  obtain ⟨r1, r2, -⟩ := link_tail_and_index_inv h hh2 hd2 hi2
  refine ⟨r1, ?_⟩
  rw [node_data, r2]
  exact hd2

/-! ## Hits and insertions -/

theorem index_find_some {s : SimpleLRU} {k : String} {a : Nat}
    (h : index_find s k = some a) : (k, a) ∈ s._lru_index := by
  unfold index_find at h
  cases hf : s._lru_index.find? (fun e => e.1 == k) with
  | none => simp [hf] at h
  | some e =>
    rw [hf] at h
    simp only [Option.map_some', Option.some.injEq] at h
    have h1 := List.find?_some hf
    have h2 := List.mem_of_find?_eq_some hf
    have h3 : e.1 = k := by simpa using h1
    have : e = (k, a) := by
      rw [← h3, ← h]
    rw [← this]
    exact h2

/-- Writing the value of a chain node that carries the key and moving the node
to the head returns, passes the assertion, creates nothing, and leaves the node
at the head with the new value. -/
theorem hit_ok {s : SimpleLRU} {l : List Nat} {a : Nat} {k : String} (v : String)
    (hv : pointers_valid s) (hc : next_chain s.heap s._lru_head l) (hp : head_no_prev s)
    (ha : a ∈ l) (hk : key_at s.heap a = some k) :
    ∃ s2 s3, set_value s a v = .ok s2 ∧ put_node_in_head s2 a = .ok s3 ∧
      assert_head_no_prev s3 = .ok () ∧ s3.heap.length = s.heap.length ∧
      s3._lru_index = s._lru_index ∧ head_entry s3 = some (k, v) := by
  have hal := next_chain_lt hc ha
  obtain ⟨s2, h2⟩ := set_value_ok v hal
  obtain ⟨i2, hh2, l2, p2, n2, k', hk', d2⟩ := set_value_frame h2
  have hkk : k' = k := by
    rw [hk] at hk'
    injection hk' with e
    exact e.symm
  subst hkk
  have hal2 : a < s2.heap.length := l2 ▸ hal
  obtain ⟨s1, hr⟩ := release_node_ok (s := s2) (a := a)
    (fun x hx => by
      rw [p2, n2] at hx
      rw [l2]
      exact hv a x hx) hal2
  obtain ⟨s3, h3⟩ := put_node_in_head_ok hr hal2 (fun h hh => by
    rw [hh2] at hh
    refine ⟨by rw [p2]; exact hp h hh, ?_⟩
    rw [n2]
    rw [hh] at hc
    exact next_chain_no_back hc ha)
  obtain ⟨d3, hh3, pne, peq⟩ := put_node_in_head_frame h3
  have hpa : prev_at s3 a = some none := by
    by_cases hh : s2._lru_head = some a
    · rw [peq hh, p2]
      exact hp a (hh2 ▸ hh)
    · exact pne hh
  refine ⟨s2, s3, h2, h3, assert_head_no_prev_ok hh3 hpa, d3.2.2.1.trans l2,
    d3.2.1.trans i2, ?_⟩
  show s3._lru_head.bind (node_data s3) = some (k', v)
  rw [hh3]
  show node_data s3 a = some (k', v)
  rw [d3.2.2.2, d2]

theorem Get_none_inv {fuel : Nat} {s u : SimpleLRU} {k : String}
    (h : Get fuel s k = .ok (u, none)) :
    index_find s k = none ∧ find_in_list s k fuel s._lru_head = .ok none := by
  unfold Get at h
  split at h
  · obtain ⟨n, -, h⟩ := bind_ok_inv h
    have e := pure_ok_inv h
    injection e with _ e
    cases e
  · rename_i hi
    obtain ⟨r, hr, h⟩ := bind_ok_inv h
    split at h
    · obtain ⟨n, -, h⟩ := bind_ok_inv h
      obtain ⟨s2, -, h⟩ := bind_ok_inv h
      obtain ⟨x, -, h⟩ := bind_ok_inv h
      have e := pure_ok_inv h
      injection e with _ e
      cases e
    · exact ⟨hi, hr⟩

theorem prev_chain_mono {heap heap' : List lru_node}
    (hm : ∀ (b : Nat) (n : lru_node), heap[b]? = some n → heap'[b]? = some n) :
    ∀ {l : List Nat} {c : Option Nat}, prev_chain heap c l → prev_chain heap' c l := by
  intro l
  induction l with
  | nil => intro c h; exact h
  | cons a l ih =>
    intro c h
    obtain ⟨hc, n, hn, hrest⟩ := h
    exact ⟨hc, n, hm a n hn, ih hrest⟩

/-- Where the head has no `prev` link and the `prev` links from `_lru_tail`
reach the null pointer, `insert_new` returns, given fuel for the walk. -/
theorem insert_new_ok {fuel : Nat} {s : SimpleLRU} {l : List Nat} (k v : String) (ks : Nat)
    (hp : head_no_prev s) (hc : prev_chain s.heap s._lru_tail l) (hf : l.length ≤ fuel) :
    ∃ t, insert_new fuel s k v ks = .ok t := by
  unfold insert_new
  dsimp only
  obtain ⟨e0, -, eh, et, el, en, em⟩ := new_node_facts s k v
  rw [e0]
  have hc0 : prev_chain (new_node s k v).1.heap (new_node s k v).1._lru_tail l := by
    rw [et]
    exact prev_chain_mono em hc
  obtain ⟨s1, h1⟩ := cache_cleaner_ok (s := (new_node s k v).1) ks sizeof_node_ptr hc0 hf
  obtain ⟨c1, c2, -, -, -⟩ := cache_cleaner_frame h1
  have hn1 : s1.heap[s.heap.length]? =
      some { key := k, value := v, prev := none, next := none } := by
    rw [c1]
    exact en
  have hl1 : s.heap.length < s1.heap.length := by
    rw [c1, el]
    exact Nat.lt_succ_self _
  have hr := release_node_unlinked hn1 rfl rfl
  have hh1 : s1._lru_head = s._lru_head := c2.trans eh
  have hhp : ∀ h, s1._lru_head = some h → prev_at s1 h = some none := by
    intro h hh
    have := hp h (hh1 ▸ hh)
    cases hx : s.heap[h]? with
    | none => simp [prev_at, hx] at this
    | some n =>
      rw [prev_at_eq hx] at this
      have h0 := em h n hx
      rw [← c1] at h0
      rw [prev_at_eq h0]
      exact this
  obtain ⟨s2, h2⟩ := put_node_in_head_ok hr hl1 (fun h hh => by
    refine ⟨hhp h hh, ?_⟩
    rw [next_at_eq hn1]
    simp)
  obtain ⟨d2, hh2, pne, peq⟩ := put_node_in_head_frame h2
  have hpa : prev_at s2 s.heap.length = some none := by
    by_cases hh : s1._lru_head = some s.heap.length
    · rw [peq hh]
      exact hhp _ hh
    · exact pne hh
  have h3 := assert_head_no_prev_ok hh2 hpa
  obtain ⟨t, h4⟩ := link_tail_and_index_ok (s := s2) s.heap.length hh2 (d2.2.2.1 ▸ hl1)
  exact ⟨t, bind_ok_of h1 (bind_ok_of h2 (bind_ok_of h3 h4))⟩

/-! ## Concrete states -/

theorem state_ab_reached (fuel : Nat) :
    run (fuel + 2) (SimpleLRU.new 4096) [.Put "a" "1", .Put "b" "2"]
      = .ok (state_ab, [.bool true, .bool true]) := by
  rfl

theorem state_stale_head_reached (fuel : Nat) :
    run (fuel + 2) (SimpleLRU.new 4096) [.Put "a" "1", .Put "k" "2", .Delete "k"]
      = .ok (state_stale_head, [.bool true, .bool true, .bool true]) := by
  rfl

theorem state_self_prev_reached (fuel : Nat) :
    run (fuel + 3) (SimpleLRU.new 4096) ops_self_prev
      = .ok (state_self_prev, [.bool true, .bool true, .bool true, .bool true, .bool true,
          .bool true, .bool true]) := by
  rfl

theorem state_ab_next_chain : next_chain state_ab.heap state_ab._lru_head [1, 0] :=
  ⟨rfl, _, rfl, rfl, _, rfl, rfl⟩

theorem state_ab_prev_chain : prev_chain state_ab.heap state_ab._lru_tail [0, 1] :=
  ⟨rfl, _, rfl, rfl, _, rfl, rfl⟩

theorem state_ab_pointers_valid : pointers_valid state_ab := by
  intro a x h
  rcases a with _ | _ | a
  · simp [prev_at, next_at, state_ab] at h
    subst h
    decide
  · simp [prev_at, next_at, state_ab] at h
    subst h
    decide
  · simp [prev_at, next_at, state_ab] at h

theorem state_ab_head_no_prev : head_no_prev state_ab := by
  intro h hh
  injection hh with hh
  subst hh
  rfl

theorem state_ab_index_on_chain : index_on_chain state_ab [1, 0] := by
  intro k a h
  simp only [state_ab, List.mem_cons, Prod.mk.injEq, List.mem_singleton, List.not_mem_nil,
    or_false] at h
  rcases h with ⟨rfl, rfl⟩ | ⟨rfl, rfl⟩
  · exact ⟨by decide, rfl⟩
  · exact ⟨by decide, rfl⟩

/-! ## Small indexes -/

theorem cache_cleaner_loop_zero (fuel : Nat) (s : SimpleLRU) (c : Option Nat) (cnt : Nat) :
    cache_cleaner_loop 0 fuel s c cnt = .ok s := by
  cases fuel <;> cases c <;> simp [cache_cleaner_loop]

/-- With fewer than four index entries `cache_cleaner` erases nothing,
whatever the capacity. -/
theorem cache_cleaner_of_lt (fuel : Nat) (s : SimpleLRU) (ks ns : Nat)
    (h : s._lru_index.length < 4) : cache_cleaner fuel s ks ns = .ok s := by
  unfold cache_cleaner
  have h0 : s._lru_index.length / 4 = 0 := by omega
  rw [h0, cache_cleaner_loop_zero]
  simp

theorem two_puts_both_readable (fuel max_size : Nat) (v w : String) :
    (run (fuel + 2) (SimpleLRU.new max_size)
      [.Put "a" v, .Put "b" w, .Get "a", .Get "b"]).map Prod.snd
      = .ok [.bool true, .bool true, .value (some v), .value (some w)] := by
  simp [run, step, Put, Get, Delete, index_find, index_erase, SimpleLRU.new, find_in_list,
    insert_new, new_node, cache_cleaner_of_lt, put_node_in_head, release_node,
    reset_head_prev, link_tail_and_index, deref, set_prev, set_next, set_value, update,
    assert_head_no_prev, index_insert, bind, Except.bind, pure, Except.pure, Except.map]

theorem utf8ByteSize_go_replicate (n : Nat) :
    String.utf8ByteSize.go (List.replicate n 'x') = n := by
  induction n with
  | zero => rfl
  | succ n ih =>
    rw [List.replicate_succ, String.utf8ByteSize.go, ih]
    rfl

theorem big_value_bytes : big_value.utf8ByteSize = 5000 := by
  show String.utf8ByteSize.go (List.replicate 5000 'x') = 5000
  exact utf8ByteSize_go_replicate 5000

/-! ## Claims -/

/-- Wherever `Put(k, v)` returns, it returns `true`, and an immediately
following `Get(k)` returns `true` with the value `v` and leaves the state as
`Put` left it, whether `k` was in the index, only on the chain, or absent before
the `Put`.  Nothing is said here on whether `Put` returns. -/
theorem put_then_get (fuel : Nat) (s t : SimpleLRU) (k v : String) (r : Bool)
    (hput : Put fuel s k v = .ok (t, r)) :
    r = true ∧ ∀ g, Get (g + 1) t k = .ok (t, some v) := by
  unfold Put at hput
  split at hput
  · -- the key is in the index
    rename_i a hi
    obtain ⟨s2, h2, hput⟩ := bind_ok_inv hput
    obtain ⟨s3, h3, hput⟩ := bind_ok_inv hput
    have e := pure_ok_inv hput
    injection e with e1 e2
    subst e1
    obtain ⟨i2, -, -, -, -, k', -, d2⟩ := set_value_frame h2
    obtain ⟨d3, -, -, -⟩ := put_node_in_head_frame h3
    refine ⟨e2.symm, fun g => ?_⟩
    apply Get_index_hit (a := a)
    · rw [index_find_congr d3.2.1, index_find_congr i2, hi]
    · exact ⟨k', by rw [d3.2.2.2, d2]⟩
  · rename_i hi
    obtain ⟨found, hfind, hput⟩ := bind_ok_inv hput
    split at hput
    · -- the key is on the list only
      rename_i a
      obtain ⟨s2, h2, hput⟩ := bind_ok_inv hput
      obtain ⟨s3, h3, hput⟩ := bind_ok_inv hput
      obtain ⟨u, h4, hput⟩ := bind_ok_inv hput
      have e := pure_ok_inv hput
      injection e with e1 e2
      subst e1
      obtain ⟨i2, -, -, -, -, k', hk', d2⟩ := set_value_frame h2
      obtain ⟨d3, hh3, -, -⟩ := put_node_in_head_frame h3
      have hk : k' = k := by
        have := find_in_list_key hfind
        rw [hk'] at this
        injection this
      subst hk
      obtain ⟨b, hb, hp⟩ := assert_head_no_prev_inv h4
      rw [hh3] at hb
      injection hb with hb
      subst hb
      refine ⟨e2.symm, fun g => ?_⟩
      apply Get_head_hit g _ hh3 _ hp
      · rw [index_find_congr d3.2.1, index_find_congr i2, hi]
      · rw [d3.2.2.2, d2]
    · -- the key is new
      obtain ⟨s3, h3, hput⟩ := bind_ok_inv hput
      have e := pure_ok_inv hput
      injection e with e1 e2
      subst e1
      obtain ⟨r1, r2⟩ := insert_new_inv h3 hi
      exact ⟨e2.symm, fun g => Get_index_hit (g + 1) r1 ⟨k, r2⟩⟩

/-- The round trip at three states: the key is new, the key is in the index,
the key is on the chain only. -/
theorem put_then_get_at_three_states :
    (∃ t, Put 0 (SimpleLRU.new 4096) "k" "v" = .ok (t, true) ∧
      ∀ g, Get (g + 1) t "k" = .ok (t, some "v")) ∧
    (∃ t, Put 0 state_ab "a" "v" = .ok (t, true) ∧
      ∀ g, Get (g + 1) t "a" = .ok (t, some "v")) ∧
    (∃ t, Put 1 state_stale_head "k" "v" = .ok (t, true) ∧
      ∀ g, Get (g + 1) t "k" = .ok (t, some "v")) :=
  ⟨⟨_, rfl, (put_then_get 0 (SimpleLRU.new 4096) _ "k" "v" true rfl).2⟩,
   ⟨_, rfl, (put_then_get 0 state_ab _ "a" "v" true rfl).2⟩,
   ⟨_, rfl, (put_then_get 1 state_stale_head _ "k" "v" true rfl).2⟩⟩

/-- C1 fails on the code.  The state `state_self_prev` is reached from the
empty cache by public calls; its chain from `_lru_head` along `next` is the
single node of `b`, a finite acyclic list.  In it `Put` returns for none of the
keys `b` (on the chain), `a` (in the index) and `z` (absent), whatever the
value and the fuel, so no `Get` follows: for `b` the scan finds the node at the
head and `assert(!_lru_head->prev)` fails, for `a` and `z` the statement
`_lru_head->prev.reset(tmp_node)` runs `delete` on the `prev` link of the
head. -/
theorem C1_put_does_not_return :
    run 3 (SimpleLRU.new 4096) ops_self_prev
      = .ok (state_self_prev, [.bool true, .bool true, .bool true, .bool true, .bool true,
          .bool true, .bool true]) ∧
    next_chain state_self_prev.heap state_self_prev._lru_head [1] ∧
    (∀ fuel v, Put (fuel + 1) state_self_prev "b" v = .error .assertion_failed) ∧
    (∀ v, Put 0 state_self_prev "b" v = .error .out_of_fuel) ∧
    (∀ fuel v, Put fuel state_self_prev "a" v = .error .node_deleted) ∧
    (∀ fuel v, Put (fuel + 1) state_self_prev "z" v = .error .node_deleted) ∧
    (∀ v, Put 0 state_self_prev "z" v = .error .out_of_fuel) :=
  ⟨rfl, ⟨rfl, _, rfl, rfl⟩, fun _ _ => by rfl, fun _ => by rfl, fun _ _ => by rfl,
    fun fuel _ => by cases fuel <;> rfl, fun _ => by rfl⟩

/-- C2 fails on the code: after `Put(a)`, `Put(k)` the node of `k` is the head
of the chain; `Delete(k)` returns `true`, but then `Get(k)` still returns
`true` with the value put, and a second `Delete(k)` returns `true` again, for
every capacity. -/
theorem C2_delete_of_head_leaves_key (fuel max_size : Nat) :
    (run (fuel + 2) (SimpleLRU.new max_size)
      [.Put "a" "1", .Put "k" "2", .Delete "k", .Get "k", .Delete "k"]).map Prod.snd
      = .ok [.bool true, .bool true, .bool true, .value (some "2"), .bool true] := by
  simp [run, step, Put, Get, Delete, index_find, index_erase, SimpleLRU.new, find_in_list,
    insert_new, new_node, cache_cleaner_of_lt, put_node_in_head, release_node,
    reset_head_prev, link_tail_and_index, deref, set_prev, set_next, set_value, update,
    assert_head_no_prev, index_insert, bind, Except.bind, pure, Except.pure, Except.map]

/-- C3 fails on the code: after `Put(a)`, `Put(b)` the call `Get(a)` finds `a`
in the index and returns `true` with its value, but the node at `_lru_head` is
still the one of `b`, for every capacity. -/
theorem C3_get_index_hit_keeps_head (fuel max_size : Nat) :
    (run (fuel + 2) (SimpleLRU.new max_size)
      [.Put "a" "1", .Put "b" "2", .Get "a"]).map (fun r => (r.2, head_key r.1))
      = .ok ([.bool true, .bool true, .value (some "1")], some "b") := by
  simp [run, step, Put, Get, Delete, index_find, index_erase, SimpleLRU.new, find_in_list,
    insert_new, new_node, cache_cleaner_of_lt, put_node_in_head, release_node,
    reset_head_prev, link_tail_and_index, deref, set_prev, set_next, set_value, update,
    assert_head_no_prev, index_insert, bind, Except.bind, pure, Except.pure, Except.map,
    head_key, key_at]

/-- C4 fails on the code.  The state `state_self_prev` is reached from the
empty cache by public calls; its chain from `_lru_head` along `next` is the
single node of `b`, a finite acyclic list; the key `b` is on the chain.  Yet
neither `Put("b", "v")` nor `Set("b", "v")` returns, whatever the fuel: the scan
finds the node at the head and the code stops at its own
`assert(!_lru_head->prev)`. -/
theorem C4_hit_stops_at_assertion :
    run 3 (SimpleLRU.new 4096) ops_self_prev
      = .ok (state_self_prev, [.bool true, .bool true, .bool true, .bool true, .bool true,
          .bool true, .bool true]) ∧
    next_chain state_self_prev.heap state_self_prev._lru_head [1] ∧
    key_at state_self_prev.heap 1 = some "b" ∧
    (∀ fuel, Put (fuel + 1) state_self_prev "b" "v" = .error .assertion_failed) ∧
    (∀ fuel, Set (fuel + 1) state_self_prev "b" "v" = .error .assertion_failed) ∧
    Put 0 state_self_prev "b" "v" = .error .out_of_fuel ∧
    Set 0 state_self_prev "b" "v" = .error .out_of_fuel :=
  ⟨rfl, ⟨rfl, _, rfl, rfl⟩, rfl, fun _ => by rfl, fun _ => by rfl, rfl, rfl⟩

/-- `Put` and `Set` on a hit.  In a state in which every link is null or the
address of a node, the chain from `_lru_head` along `next` is the
finite list `l`, the head has no `prev` link, and every index entry refers to a
chain node carrying its key: for a key that is in the index or on the chain,
`Put` and `Set` both return `true`, create neither a node nor an index entry,
and leave at `_lru_head` the entry with that key and the new value. -/
theorem put_set_hit_promote (fuel : Nat) (s : SimpleLRU) (l : List Nat) (k v : String)
    (hv : pointers_valid s) (hc : next_chain s.heap s._lru_head l) (hp : head_no_prev s)
    (hix : index_on_chain s l) (hf : l.length ≤ fuel)
    (hk : (index_find s k).isSome ∨ ∃ a ∈ l, key_at s.heap a = some k) :
    ∃ t, Put fuel s k v = .ok (t, true) ∧ Set fuel s k v = .ok (t, true) ∧
      t.heap.length = s.heap.length ∧ t._lru_index = s._lru_index ∧
      head_entry t = some (k, v) := by
  cases hi : index_find s k with
  | some a =>
    obtain ⟨ha, hka⟩ := hix k a (index_find_some hi)
    obtain ⟨s2, s3, h2, h3, -, hl, hx, he⟩ := hit_ok v hv hc hp ha hka
    refine ⟨s3, ?_, ?_, hl, hx, he⟩
    · simp [Put, hi, h2, h3, bind, Except.bind, pure, Except.pure]
    · simp [Set, hi, h2, h3, bind, Except.bind, pure, Except.pure]
  | none =>
    rw [hi] at hk
    rcases hk with hk | hk
    · cases hk
    · obtain ⟨a, ha, hfind, hka⟩ := find_in_list_some hc hf hk
      obtain ⟨s2, s3, h2, h3, h4, hl, hx, he⟩ := hit_ok v hv hc hp ha hka
      refine ⟨s3, ?_, ?_, hl, hx, he⟩
      · simp [Put, hi, hfind, h2, h3, h4, bind, Except.bind, pure, Except.pure]
      · simp [Set, hi, hfind, h2, h3, h4, bind, Except.bind, pure, Except.pure]

/-- `Put` and `Set` on a hit at the state after `Put(a)`, `Put(b)`, for the key
`a`, which is in the index and at the tail of the chain. -/
theorem put_set_hit_promote_at_state_ab :
    ∃ t, Put 2 state_ab "a" "v" = .ok (t, true) ∧ Set 2 state_ab "a" "v" = .ok (t, true) ∧
      t.heap.length = state_ab.heap.length ∧ t._lru_index = state_ab._lru_index ∧
      head_entry t = some ("a", "v") :=
  put_set_hit_promote 2 state_ab [1, 0] "a" "v" state_ab_pointers_valid
    state_ab_next_chain state_ab_head_no_prev state_ab_index_on_chain (by decide)
    (Or.inl rfl)

/-- C5 fails on the code.  The state `state_self_prev` is reached from the empty
cache by public calls; its chain from `_lru_head` along `next` is the single
node of `b`, a finite acyclic list; `Get` reports the key `z` absent.  Yet
`PutIfAbsent("z", "1")` does not return, whatever the fuel: the head has a
`prev` link, which `_lru_head->prev.reset(tmp_node)` runs `delete` on. -/
theorem C5_put_if_absent_deletes_node :
    run 3 (SimpleLRU.new 4096) ops_self_prev
      = .ok (state_self_prev, [.bool true, .bool true, .bool true, .bool true, .bool true,
          .bool true, .bool true]) ∧
    next_chain state_self_prev.heap state_self_prev._lru_head [1] ∧
    (∀ fuel, Get (fuel + 1) state_self_prev "z" = .ok (state_self_prev, none)) ∧
    (∀ fuel, PutIfAbsent (fuel + 1) state_self_prev "z" "1" = .error .node_deleted) ∧
    PutIfAbsent 0 state_self_prev "z" "1" = .error .out_of_fuel :=
  ⟨rfl, ⟨rfl, _, rfl, rfl⟩, fun fuel => by cases fuel <;> rfl,
    fun fuel => by cases fuel <;> rfl, rfl⟩

/-- `PutIfAbsent` twice.  In a state whose head has no `prev`
link and whose `prev` links from `_lru_tail` reach the null pointer along the
finite list `l`, for a key that `Get` reports absent (so the scan of the chain
from `_lru_head` ends), `PutIfAbsent(k, v1)` returns `true`, a following
`PutIfAbsent(k, v2)` returns `false` and changes nothing, and `Get(k)` then
returns `true` with `v1`. -/
theorem put_if_absent_twice (fuel : Nat) (s : SimpleLRU) (l : List Nat)
    (k v1 v2 : String)
    (hget : ∃ u, Get fuel s k = .ok (u, none)) (hp : head_no_prev s)
    (hc : prev_chain s.heap s._lru_tail l) (hf : l.length ≤ fuel) :
    ∃ t, PutIfAbsent fuel s k v1 = .ok (t, true) ∧
      PutIfAbsent fuel t k v2 = .ok (t, false) ∧
      Get fuel t k = .ok (t, some v1) := by
  obtain ⟨u, hget⟩ := hget
  obtain ⟨hi, hfind⟩ := Get_none_inv hget
  obtain ⟨t, ht⟩ := insert_new_ok k v1 sizeof_string hp hc hf
  obtain ⟨r1, r2⟩ := insert_new_inv ht hi
  refine ⟨t, ?_, ?_, Get_index_hit fuel r1 ⟨k, r2⟩⟩
  · simp [PutIfAbsent, hi, hfind, ht, bind, Except.bind, pure, Except.pure]
  · simp [PutIfAbsent, r1, pure, Except.pure]

/-- `PutIfAbsent` twice at the state after `Put(a)`, `Put(b)`, for the key
`c`. -/
theorem put_if_absent_twice_at_state_ab :
    ∃ t, PutIfAbsent 2 state_ab "c" "1" = .ok (t, true) ∧
      PutIfAbsent 2 t "c" "2" = .ok (t, false) ∧
      Get 2 t "c" = .ok (t, some "1") :=
  put_if_absent_twice 2 state_ab [0, 1] "c" "1" "2" ⟨_, rfl⟩ state_ab_head_no_prev
    state_ab_prev_chain (by decide)

/-- C6, `Set` on a miss.  In a state whose chain from `_lru_head` along `next`
is the finite list `l`, for a key that is neither in the index nor carried by a
node of the chain, `Set` returns `false` and leaves the state unchanged, and
`Get` still reports the key absent. -/
theorem C6_set_miss_is_noop (fuel : Nat) (s : SimpleLRU) (l : List Nat) (k v : String)
    (hc : next_chain s.heap s._lru_head l) (hf : l.length ≤ fuel)
    (hi : index_find s k = none) (hk : ∀ a ∈ l, key_at s.heap a ≠ some k) :
    Set fuel s k v = .ok (s, false) ∧ Get fuel s k = .ok (s, none) := by
  have hfind := find_in_list_none hc hf hk
  constructor
  · simp [Set, hi, hfind, bind, Except.bind, pure, Except.pure]
  · simp [Get, hi, hfind, bind, Except.bind, pure, Except.pure]

/-- C6, at the state after `Put(a)`, `Put(b)` and the key `zz`. -/
theorem C6_set_miss_is_noop_witness :
    Set 2 state_ab "zz" "v" = .ok (state_ab, false) ∧
    Get 2 state_ab "zz" = .ok (state_ab, none) :=
  C6_set_miss_is_noop 2 state_ab [1, 0] "zz" "v" state_ab_next_chain (by decide) rfl
    (by decide)

/-- C7 fails on the code: with capacity 4096, after `Put` of two keys with a
value of 5000 bytes each, `Get` still returns both entries, 10002 bytes of keys
and values, more than the capacity plus the 5001 bytes of the entry inserted
last. -/
theorem C7_capacity_is_exceeded (fuel : Nat) :
    (run (fuel + 2) (SimpleLRU.new 4096)
      [.Put "a" big_value, .Put "b" big_value, .Get "a", .Get "b"]).map Prod.snd
      = .ok [.bool true, .bool true, .value (some big_value), .value (some big_value)] ∧
    4096 + entry_bytes "b" big_value
      < entry_bytes "a" big_value + entry_bytes "b" big_value := by
  refine ⟨two_puts_both_readable fuel 4096 big_value big_value, ?_⟩
  have ha : ("a" : String).utf8ByteSize = 1 := by decide
  have hb : ("b" : String).utf8ByteSize = 1 := by decide
  simp only [entry_bytes, big_value_bytes, ha, hb]
  decide

/-- C8 as stated fails: there is no capacity, and no fuel, with which `Get(a)`
returns `false` after `Put` of `a`, `b`, `c`, `d` in that order on the empty
cache.  The fourth `Put` finds three keys in the index, and the quota of
`cache_cleaner` is `3 / 4 = 0`, so `Get(a)` finds `a` in the index and returns
`true` with the value put. -/
theorem C8_no_capacity_evicts_first_key :
    ¬ ∃ max_size fuel, ∃ s bs,
      run fuel (SimpleLRU.new max_size)
        [.Put "a" "1", .Put "b" "2", .Put "c" "3", .Put "d" "4", .Get "a"]
        = .ok (s, bs ++ [.value none]) := by
  rintro ⟨max_size, fuel, s, bs, h⟩
  have key : ∀ f, (run (f + 4) (SimpleLRU.new max_size)
      [.Put "a" "1", .Put "b" "2", .Put "c" "3", .Put "d" "4", .Get "a"]).map Prod.snd
      = .ok [.bool true, .bool true, .bool true, .bool true, .value (some "1")] := by
    intro f
    simp [run, step, Put, Get, Delete, index_find, index_erase, SimpleLRU.new, find_in_list,
      insert_new, new_node, cache_cleaner_of_lt, put_node_in_head, release_node,
      reset_head_prev, link_tail_and_index, deref, set_prev, set_next, set_value, update,
      assert_head_no_prev, index_insert, bind, Except.bind, pure, Except.pure, Except.map]
  have hl : ∀ bs : List Result, bs ++ [Result.value none]
      ≠ [.bool true, .bool true, .bool true, .bool true, .value (some "1")] := by
    intro bs e
    have e' := congrArg List.getLast? e
    simp at e'
  rcases fuel with _ | _ | _ | _ | f
  · simp [run, step, Put, Get, Delete, index_find, index_erase, SimpleLRU.new, find_in_list,
      insert_new, new_node, cache_cleaner_of_lt, put_node_in_head, release_node,
      reset_head_prev, link_tail_and_index, deref, set_prev, set_next, set_value, update,
      assert_head_no_prev, index_insert, bind, Except.bind, pure, Except.pure, Except.map] at h
  · simp [run, step, Put, Get, Delete, index_find, index_erase, SimpleLRU.new, find_in_list,
      insert_new, new_node, cache_cleaner_of_lt, put_node_in_head, release_node,
      reset_head_prev, link_tail_and_index, deref, set_prev, set_next, set_value, update,
      assert_head_no_prev, index_insert, bind, Except.bind, pure, Except.pure, Except.map] at h
  · simp [run, step, Put, Get, Delete, index_find, index_erase, SimpleLRU.new, find_in_list,
      insert_new, new_node, cache_cleaner_of_lt, put_node_in_head, release_node,
      reset_head_prev, link_tail_and_index, deref, set_prev, set_next, set_value, update,
      assert_head_no_prev, index_insert, bind, Except.bind, pure, Except.pure, Except.map] at h
  · simp [run, step, Put, Get, Delete, index_find, index_erase, SimpleLRU.new, find_in_list,
      insert_new, new_node, cache_cleaner_of_lt, put_node_in_head, release_node,
      reset_head_prev, link_tail_and_index, deref, set_prev, set_next, set_value, update,
      assert_head_no_prev, index_insert, bind, Except.bind, pure, Except.pure, Except.map] at h
    exact hl bs h.2.symm
  · have k := key f
    rw [h] at k
    simp only [Except.map] at k
    injection k with k
    exact hl bs k

/-- C9 fails on the code: with capacity 0, `Put` of `a`, `b`, `c`, `d` builds
four entries, index and chain in sync; `Put(e)` then triggers the eviction,
which erases the key `a` of the least recently used entry from the index, but
the node of `a` stays at the end of the chain, and `Get(a)` afterwards returns
`true` with the value put. -/
theorem C9_evicted_key_still_readable (fuel : Nat) :
    (run (fuel + 6) (SimpleLRU.new 0)
      [.Put "a" "1", .Put "b" "2", .Put "c" "3", .Put "d" "4"]).map
        (fun r => (r.1._lru_index.map Prod.fst, chain_keys r.1 6 r.1._lru_head))
      = .ok (["a", "b", "c", "d"], ["d", "c", "b", "a"]) ∧
    (run (fuel + 6) (SimpleLRU.new 0)
      [.Put "a" "1", .Put "b" "2", .Put "c" "3", .Put "d" "4", .Put "e" "5"]).map
        (fun r => (r.1._lru_index.map Prod.fst, chain_keys r.1 6 r.1._lru_head))
      = .ok (["b", "c", "d", "e"], ["e", "d", "c", "b", "a"]) ∧
    (run (fuel + 6) (SimpleLRU.new 0)
      [.Put "a" "1", .Put "b" "2", .Put "c" "3", .Put "d" "4", .Put "e" "5",
       .Get "a"]).map Prod.snd
      = .ok [.bool true, .bool true, .bool true, .bool true, .bool true,
          .value (some "1")] := by
  refine ⟨?_, ?_, ?_⟩ <;> rfl

/-- C10 fails on the code: with capacity 152 and the four entries `a`, `b`,
`c`, `d`, `Put(e)` passes the sizes 8 and 8 to `cache_cleaner`, which erases
nothing, while `PutIfAbsent(e)` passes 32 and 8, and `cache_cleaner` erases `a`
from the index: the resulting index key sets differ. -/
theorem C10_put_and_put_if_absent_differ (fuel : Nat) :
    (run (fuel + 6) (SimpleLRU.new 152)
      [.Put "a" "1", .Put "b" "2", .Put "c" "3", .Put "d" "4", .Put "e" "5"]).map
        (fun r => (r.2, r.1._lru_index.map Prod.fst))
      = .ok ([.bool true, .bool true, .bool true, .bool true, .bool true],
          ["a", "b", "c", "d", "e"]) ∧
    (run (fuel + 6) (SimpleLRU.new 152)
      [.Put "a" "1", .Put "b" "2", .Put "c" "3", .Put "d" "4", .PutIfAbsent "e" "5"]).map
        (fun r => (r.2, r.1._lru_index.map Prod.fst))
      = .ok ([.bool true, .bool true, .bool true, .bool true, .bool true],
          ["b", "c", "d", "e"]) := by
  constructor <;> rfl

/-! ## The cyclic state -/

theorem state_cycle_reached (fuel : Nat) :
    run (fuel + 3) (SimpleLRU.new 4096)
      [.Put "a" "1", .Put "b" "2", .Put "c" "3", .Delete "c", .Put "b" "x"]
      = .ok (state_cycle, [.bool true, .bool true, .bool true, .bool true, .bool true]) := by
  rfl

/-- In `state_cycle` the scan for a key other than `b` and `c` never ends,
whether it is at the node of `b` or at the node of `c`. -/
theorem state_cycle_scan_diverges (k : String) (hb : k ≠ "b") (hc : k ≠ "c") :
    ∀ fuel, find_in_list state_cycle k fuel (some 1) = .error .out_of_fuel ∧
      find_in_list state_cycle k fuel (some 2) = .error .out_of_fuel := by
  have hb' : ("b" == k) = false := by simpa using fun e => hb e.symm
  have hc' : ("c" == k) = false := by simpa using fun e => hc e.symm
  intro fuel
  induction fuel with
  | zero => exact ⟨rfl, rfl⟩
  | succ fuel ih =>
    constructor
    · simp only [find_in_list, deref, state_cycle, bind, Except.bind]
      simp only [List.getElem?_cons_succ, List.getElem?_cons_zero, hb']
      exact ih.2
    · simp only [find_in_list, deref, state_cycle, bind, Except.bind]
      simp only [List.getElem?_cons_succ, List.getElem?_cons_zero, hc']
      exact ih.1

theorem state_cycle_no_chain (l : List Nat) :
    ¬ next_chain state_cycle.heap state_cycle._lru_head l := by
  intro h
  have h1 := h
  cases l with
  | nil => cases h
  | cons a l =>
    obtain ⟨ha, n, hn, h⟩ := h
    injection ha with ha
    subst ha
    injection hn with hn
    subst hn
    cases l with
    | nil => cases h
    | cons b l =>
      obtain ⟨hb, m, hm, h⟩ := h
      injection hb with hb
      subst hb
      injection hm with hm
      subst hm
      have := next_chain_det h1 h
      have hl := congrArg List.length this
      simp only [List.length_cons] at hl
      omega

/-! ## Assignments to links, in full -/

theorem set_next_effect {s t : SimpleLRU} {a : Nat} {v : Option Nat}
    (h : set_next s a v = .ok t) :
    (∀ x, next_at t x = if x = a then some v else next_at s x) ∧
    (∀ x, prev_at t x = prev_at s x) := by
  refine ⟨fun x => ?_, fun x => set_next_prev_at h x⟩
  by_cases hx : x = a
  · rw [if_pos hx, hx]
    exact set_next_next_at_self h
  · rw [if_neg hx]
    exact set_next_next_at_ne h (fun e => hx e.symm)

theorem set_prev_effect {s t : SimpleLRU} {a : Nat} {v : Option Nat}
    (h : set_prev s a v = .ok t) :
    (∀ x, prev_at t x = if x = a then some v else prev_at s x) ∧
    (∀ x, next_at t x = next_at s x) := by
  refine ⟨fun x => ?_, fun x => set_prev_next_at h x⟩
  by_cases hx : x = a
  · rw [if_pos hx, hx]
    exact set_prev_prev_at_self h
  · rw [if_neg hx]
    exact set_prev_prev_at_ne h (fun e => hx e.symm)

theorem node_of_links {s : SimpleLRU} {a : Nat} {pp qq : Option Nat}
    (hp : prev_at s a = some pp) (hq : next_at s a = some qq) :
    ∃ n, s.heap[a]? = some n ∧ n.prev = pp ∧ n.next = qq := by
  cases hn : s.heap[a]? with
  | none => simp [prev_at, hn] at hp
  | some n =>
    rw [prev_at_eq hn] at hp
    rw [next_at_eq hn] at hq
    injection hp with hp
    injection hq with hq
    exact ⟨n, rfl, hp, hq⟩

theorem lt_of_prev_at {s : SimpleLRU} {a : Nat} {pp : Option Nat}
    (hp : prev_at s a = some pp) : a < s.heap.length := by
  cases hn : s.heap[a]? with
  | none => simp [prev_at, hn] at hp
  | some n => exact lt_of_getElem? hn

/-- The first block of `release_node` on a node whose `prev` link `pp` is null
or the address of another node: the `next` link of that node becomes the
`next` link `qq` of `tmp_node`. -/
theorem release_node_block1_effect {s : SimpleLRU} {a : Nat} {pp qq : Option Nat}
    (hq : next_at s a = some qq)
    (hp : ∀ p, pp = some p → p ≠ a ∧ p < s.heap.length) :
    ∃ t, (match pp with
      | some p => do
        let s ← set_next s p none
        let n ← deref s a
        set_next s p n.next
      | none => pure s) = .ok t ∧
      same_data s t ∧ t._lru_head = s._lru_head ∧ t._lru_tail = s._lru_tail ∧
      (∀ x, next_at t x = if some x = pp then some qq else next_at s x) ∧
      (∀ x, prev_at t x = prev_at s x) := by
  cases pp with
  | none =>
    exact ⟨s, rfl, same_data_refl _, rfl, rfl, fun x => by simp, fun _ => rfl⟩
  | some p =>
    obtain ⟨hpa, hpl⟩ := hp p rfl
    obtain ⟨s1, h1⟩ := set_next_ok none hpl
    obtain ⟨d1, hh1, ht1⟩ := set_next_frame h1
    obtain ⟨n1, p1⟩ := set_next_effect h1
    have hq1 : next_at s1 a = some qq := by
      rw [n1 a, if_neg (fun e => hpa e.symm)]
      exact hq
    cases hn : s1.heap[a]? with
    | none => simp [next_at, hn] at hq1
    | some n =>
      have hnq : n.next = qq := by
        rw [next_at_eq hn] at hq1
        injection hq1
      obtain ⟨s2, h2⟩ := set_next_ok (s := s1) n.next (d1.2.2.1 ▸ hpl)
      obtain ⟨d2, hh2, ht2⟩ := set_next_frame h2
      obtain ⟨n2, p2⟩ := set_next_effect h2
      refine ⟨s2, bind_ok_of h1 (bind_ok_of (deref_ok hn) h2), same_data_trans d1 d2,
        hh2.trans hh1, ht2.trans ht1, fun x => ?_, fun x => (p2 x).trans (p1 x)⟩
      rw [n2 x, n1 x, hnq]
      by_cases hx : x = p
      · simp [hx]
      · have : ¬ some x = some p := fun e => hx (Option.some.inj e)
        simp [hx, this]

/-- The second block of `release_node` on a node whose `next` link `qq` is null
or the address of another node: the `prev` link of that node becomes the
`prev` link `pp` of `tmp_node`. -/
theorem release_node_block2_effect {s : SimpleLRU} {a : Nat} {pp qq : Option Nat}
    (hp : prev_at s a = some pp)
    (hq : ∀ q, qq = some q → q ≠ a ∧ q < s.heap.length) :
    ∃ t, (match qq with
      | some q => do
        let s ← set_prev s q none
        let n ← deref s a
        set_prev s q n.prev
      | none => pure s) = .ok t ∧
      same_data s t ∧ t._lru_head = s._lru_head ∧ t._lru_tail = s._lru_tail ∧
      (∀ x, prev_at t x = if some x = qq then some pp else prev_at s x) ∧
      (∀ x, next_at t x = next_at s x) := by
  cases qq with
  | none =>
    exact ⟨s, rfl, same_data_refl _, rfl, rfl, fun x => by simp, fun _ => rfl⟩
  | some q =>
    obtain ⟨hqa, hql⟩ := hq q rfl
    obtain ⟨s1, h1⟩ := set_prev_ok none hql
    obtain ⟨d1, hh1, ht1⟩ := set_prev_frame h1
    obtain ⟨p1, n1⟩ := set_prev_effect h1
    have hp1 : prev_at s1 a = some pp := by
      rw [p1 a, if_neg (fun e => hqa e.symm)]
      exact hp
    cases hn : s1.heap[a]? with
    | none => simp [prev_at, hn] at hp1
    | some n =>
      have hnp : n.prev = pp := by
        rw [prev_at_eq hn] at hp1
        injection hp1
      obtain ⟨s2, h2⟩ := set_prev_ok (s := s1) n.prev (d1.2.2.1 ▸ hql)
      obtain ⟨d2, hh2, ht2⟩ := set_prev_frame h2
      obtain ⟨p2, n2⟩ := set_prev_effect h2
      refine ⟨s2, bind_ok_of h1 (bind_ok_of (deref_ok hn) h2), same_data_trans d1 d2,
        hh2.trans hh1, ht2.trans ht1, fun x => ?_, fun x => (n2 x).trans (n1 x)⟩
      rw [p2 x, p1 x, hnp]
      by_cases hx : x = q
      · simp [hx]
      · have : ¬ some x = some q := fun e => hx (Option.some.inj e)
        simp [hx, this]

/-- What `release_node` does to a node whose two links are null or addresses
of other nodes: its predecessor and its successor are linked to each other,
and `_lru_tail` moves to the predecessor when there is one and no successor. -/
theorem release_node_effect {s : SimpleLRU} {a : Nat} {pp qq : Option Nat}
    (hpp : prev_at s a = some pp) (hqq : next_at s a = some qq)
    (hp : ∀ p, pp = some p → p ≠ a ∧ p < s.heap.length)
    (hq : ∀ q, qq = some q → q ≠ a ∧ q < s.heap.length) :
    ∃ t, release_node s a = .ok t ∧ same_data s t ∧ t._lru_head = s._lru_head ∧
      t._lru_tail = (if pp.isSome && qq.isNone then pp else s._lru_tail) ∧
      (∀ x, next_at t x = if some x = pp then some qq else next_at s x) ∧
      (∀ x, prev_at t x = if some x = qq then some pp else prev_at s x) := by
  obtain ⟨n, hn, hnp, hnq⟩ := node_of_links hpp hqq
  obtain ⟨s1, h1, d1, hh1, ht1, nx1, pv1⟩ := release_node_block1_effect (s := s) hqq hp
  have hl1 : s1.heap.length = s.heap.length := d1.2.2.1
  have hpp1 : prev_at s1 a = some pp := (pv1 a).trans hpp
  have hqq1 : next_at s1 a = some qq := by
    rw [nx1 a, if_neg]
    · exact hqq
    · intro e
      exact (hp a e.symm).1 rfl
  obtain ⟨m, hm, hmp, hmq⟩ := node_of_links hpp1 hqq1
  obtain ⟨s2, h2, d2, hh2, ht2, pv2, nx2⟩ :=
    release_node_block2_effect (s := s1) hpp1 (fun q e => by rw [hl1]; exact hq q e)
  have hpp2 : prev_at s2 a = some pp := by
    rw [pv2 a, if_neg]
    · exact hpp1
    · intro e
      exact (hq a e.symm).1 rfl
  have hqq2 : next_at s2 a = some qq := (nx2 a).trans hqq1
  obtain ⟨r, hr, hrp, hrq⟩ := node_of_links hpp2 hqq2
  unfold release_node
  refine ⟨if pp.isSome && qq.isNone then { s2 with _lru_tail := pp } else s2, ?_, ?_, ?_, ?_,
    ?_, ?_⟩
  · refine bind_ok_of (deref_ok hn) ?_
    rw [hnp]
    refine bind_ok_of h1 (bind_ok_of (deref_ok hm) ?_)
    rw [hmq]
    refine bind_ok_of h2 (bind_ok_of (deref_ok hr) ?_)
    rw [hrp, hrq]
    split <;> rfl
  · have d := same_data_trans d1 d2
    split
    · exact ⟨d.1, d.2.1, d.2.2.1, d.2.2.2⟩
    · exact d
  · split
    · exact hh2.trans hh1
    · exact hh2.trans hh1
  · split
    · rfl
    · exact ht2.trans ht1
  · intro x
    have : next_at (if pp.isSome && qq.isNone then { s2 with _lru_tail := pp } else s2) x
        = next_at s2 x := by split <;> rfl
    rw [this, nx2 x, nx1 x]
  · intro x
    have : prev_at (if pp.isSome && qq.isNone then { s2 with _lru_tail := pp } else s2) x
        = prev_at s2 x := by split <;> rfl
    rw [this, pv2 x, pv1 x]

/-- What `put_node_in_head` does to a node other than the head whose two links
are null or addresses of other nodes, when the head (if any) has no `prev`
link and is not the successor of the node: the node is released, becomes the
head, and the old head becomes its successor. -/
theorem put_node_in_head_effect {s : SimpleLRU} {a : Nat} {pp qq hd : Option Nat}
    (hpp : prev_at s a = some pp) (hqq : next_at s a = some qq)
    (hp : ∀ p, pp = some p → p ≠ a ∧ p < s.heap.length)
    (hq : ∀ q, qq = some q → q ≠ a ∧ q < s.heap.length ∧ some q ≠ hd)
    (hh : s._lru_head = hd) (hne : hd ≠ some a)
    (hhd : ∀ h, hd = some h → prev_at s h = some none) :
    ∃ t, put_node_in_head s a = .ok t ∧ same_data s t ∧ t._lru_head = some a ∧
      t._lru_tail = (if pp.isSome && qq.isNone then pp else s._lru_tail) ∧
      (∀ x, next_at t x =
        if x = a then some hd else if some x = pp then some qq else next_at s x) ∧
      (∀ x, prev_at t x =
        if some x = hd then some (some a) else if x = a then some none
        else if some x = qq then some pp else prev_at s x) := by
  have ha : a < s.heap.length := lt_of_prev_at hpp
  obtain ⟨s1, h1, d1, hh1, ht1, nx1, pv1⟩ :=
    release_node_effect hpp hqq hp (fun q e => ⟨(hq q e).1, (hq q e).2.1⟩)
  have l1 : a < s1.heap.length := d1.2.2.1 ▸ ha
  obtain ⟨s2, h2⟩ := set_prev_ok none l1
  obtain ⟨d2, hh2, ht2⟩ := set_prev_frame h2
  obtain ⟨pv2, nx2⟩ := set_prev_effect h2
  have l2 : a < s2.heap.length := d2.2.2.1 ▸ l1
  obtain ⟨s3, h3⟩ := set_next_ok none l2
  obtain ⟨d3, hh3, ht3⟩ := set_next_frame h3
  obtain ⟨nx3, pv3⟩ := set_next_effect h3
  have l3 : a < s3.heap.length := d3.2.2.1 ▸ l2
  obtain ⟨s4, h4⟩ := set_next_ok s3._lru_head l3
  obtain ⟨d4, hh4, ht4⟩ := set_next_frame h4
  obtain ⟨nx4, pv4⟩ := set_next_effect h4
  have e3 : s3._lru_head = hd := hh3.trans (hh2.trans (hh1.trans hh))
  have e4 : s4._lru_head = hd := hh4.trans e3
  have d14 : same_data s s4 :=
    same_data_trans (same_data_trans (same_data_trans d1 d2) d3) d4
  have t14 : s4._lru_tail = (if pp.isSome && qq.isNone then pp else s._lru_tail) :=
    ht4.trans (ht3.trans (ht2.trans ht1))
  have n14 : ∀ x, next_at s4 x =
      if x = a then some hd else if some x = pp then some qq else next_at s x := by
    intro x
    rw [nx4 x, nx3 x, nx2 x, nx1 x, e3]
    by_cases hx : x = a <;> simp [hx]
  have p14 : ∀ x, prev_at s4 x =
      if x = a then some none else if some x = qq then some pp else prev_at s x := by
    intro x
    rw [pv4 x, pv3 x, pv2 x, pv1 x]
  have hput : ∀ s5, (match s4._lru_head with
      | some h => reset_head_prev s4 h a
      | none => pure s4) = .ok s5 →
      put_node_in_head s a = .ok { s5 with _lru_head := some a } := by
    intro s5 h5
    unfold put_node_in_head
    rw [if_neg (by rw [hh]; exact hne)]
    exact bind_ok_of h1 (bind_ok_of h2 (bind_ok_of h3 (bind_ok_of h4 (bind_ok_of h5 rfl))))
  cases hd with
  | none =>
    refine ⟨{ s4 with _lru_head := some a }, hput s4 (by rw [e4]; rfl), ?_, rfl, t14, ?_, ?_⟩
    · exact ⟨d14.1, d14.2.1, d14.2.2.1, d14.2.2.2⟩
    · intro x
      exact n14 x
    · intro x
      have : ¬ some x = (none : Option Nat) := by simp
      rw [if_neg this]
      exact p14 x
  | some h =>
    have hha : h ≠ a := fun e => hne (by rw [e])
    have hp4 : prev_at s4 h = some none := by
      rw [p14 h, if_neg hha, if_neg]
      · exact hhd h rfl
      · intro e
        exact (hq h e.symm).2.2 rfl
    obtain ⟨s5, h5⟩ := reset_head_prev_ok a hp4
    obtain ⟨-, hs5⟩ := reset_head_prev_inv h5
    obtain ⟨d5, -, ht5⟩ := set_prev_frame hs5
    obtain ⟨pv5, nx5⟩ := set_prev_effect hs5
    have d15 := same_data_trans d14 d5
    refine ⟨{ s5 with _lru_head := some a }, hput s5 (by rw [e4]; exact h5), ?_, rfl,
      ht5.trans t14, ?_, ?_⟩
    · exact ⟨d15.1, d15.2.1, d15.2.2.1, d15.2.2.2⟩
    · intro x
      exact (nx5 x).trans (n14 x)
    · intro x
      show prev_at s5 x = _
      rw [pv5 x, p14 x]
      by_cases hx : x = h
      · simp [hx]
      · have : ¬ some x = some h := fun e => hx (Option.some.inj e)
        simp [hx, this]

/-! ## Doubly linked segments -/

theorem getLast?_cons_of_ne_nil {a : Nat} {l : List Nat} (h : l ≠ []) :
    (a :: l).getLast? = l.getLast? := by
  cases l with
  | nil => exact absurd rfl h
  | cons b r => exact List.getLast?_cons_cons

theorem mem_of_getLast? {l : List Nat} {x : Nat} (h : l.getLast? = some x) : x ∈ l :=
  List.mem_of_getLast?_eq_some h

theorem mem_of_head? {l : List Nat} {x : Nat} (h : l.head? = some x) : x ∈ l := by
  cases l with
  | nil => cases h
  | cons a r =>
    injection h with h
    subst h
    exact List.mem_cons_self _ _

/-- The last node of a segment has the link behind the segment as its
`next`. -/
theorem dseg_last {s : SimpleLRU} :
    ∀ {l : List Nat} {p nx : Option Nat} {x : Nat},
      dseg s p l nx → l.getLast? = some x → next_at s x = some nx := by
  intro l
  induction l with
  | nil => intro p nx x _ h; cases h
  | cons a l ih =>
    intro p nx x h hx
    obtain ⟨-, hn, hr⟩ := h
    cases l with
    | nil =>
      injection hx with hx
      subst hx
      exact hn
    | cons b r =>
      rw [List.getLast?_cons_cons] at hx
      exact ih hr hx

theorem dseg_lt {s : SimpleLRU} :
    ∀ {l : List Nat} {p nx : Option Nat} {x : Nat},
      dseg s p l nx → x ∈ l → x < s.heap.length := by
  intro l
  induction l with
  | nil => intro p nx x _ h; cases h
  | cons a l ih =>
    intro p nx x h hx
    obtain ⟨hp, -, hr⟩ := h
    rcases List.mem_cons.mp hx with e | hx
    · rw [e]
      exact lt_of_prev_at hp
    · exact ih hr hx

/-- A segment survives a change of links that keeps, inside the segment, every
`prev` link but the first and every `next` link but the last. -/
theorem dseg_relink {s t : SimpleLRU} :
    ∀ {l : List Nat} {p q nx ny : Option Nat},
      dseg s p l nx → l.Nodup →
      (∀ x ∈ l, some x ≠ l.head? → prev_at t x = prev_at s x) →
      (∀ x, l.head? = some x → prev_at t x = some q) →
      (∀ x ∈ l, some x ≠ l.getLast? → next_at t x = next_at s x) →
      (∀ x, l.getLast? = some x → next_at t x = some ny) →
      dseg t q l ny := by
  intro l
  induction l with
  | nil => intros; trivial
  | cons a l ih =>
    intro p q nx ny h hnd hP hP0 hN hN0
    obtain ⟨hp, hn, hr⟩ := h
    have hal : a ∉ l := (List.nodup_cons.mp hnd).1
    have hndl : l.Nodup := (List.nodup_cons.mp hnd).2
    refine ⟨hP0 a rfl, ?_, ?_⟩
    · cases l with
      | nil => exact hN0 a rfl
      | cons b r =>
        have hne : some a ≠ (a :: b :: r).getLast? := by
          intro e
          rw [List.getLast?_cons_cons] at e
          exact hal (mem_of_getLast? e.symm)
        rw [hN a (List.mem_cons_self _ _) hne]
        exact hn
    · apply ih hr hndl
      · intro x hx _
        apply hP x (List.mem_cons_of_mem _ hx)
        intro e
        injection e with e
        exact hal (e ▸ hx)
      · intro x hx
        have hxl := mem_of_head? hx
        have hxa : some x ≠ (a :: l).head? := by
          intro e
          injection e with e
          exact hal (e ▸ hxl)
        rw [hP x (List.mem_cons_of_mem _ hxl) hxa]
        cases l with
        | nil => cases hx
        | cons b r =>
          injection hx with hx
          subst hx
          exact hr.1
      · intro x hx hne
        apply hN x (List.mem_cons_of_mem _ hx)
        rw [getLast?_cons_of_ne_nil (List.ne_nil_of_mem hx)]
        exact hne
      · intro x hx
        apply hN0
        rw [getLast?_cons_of_ne_nil (List.ne_nil_of_mem (mem_of_getLast? hx))]
        exact hx

/-- A segment survives a change that keeps the links of all its nodes. -/
theorem dseg_congr {s t : SimpleLRU} {l : List Nat} {p nx : Option Nat}
    (h : dseg s p l nx) (hP : ∀ x ∈ l, prev_at t x = prev_at s x)
    (hN : ∀ x ∈ l, next_at t x = next_at s x) : dseg t p l nx := by
  induction l generalizing p with
  | nil => trivial
  | cons a l ih =>
    obtain ⟨hp, hn, hr⟩ := h
    refine ⟨(hP a (List.mem_cons_self _ _)).trans hp, (hN a (List.mem_cons_self _ _)).trans hn,
      ih hr (fun x hx => hP x (List.mem_cons_of_mem _ hx))
        (fun x hx => hN x (List.mem_cons_of_mem _ hx))⟩

/-- A segment splits at any place into two segments, each bordering on the
other. -/
theorem dseg_append {s : SimpleLRU} :
    ∀ {l₁ l₂ : List Nat} {p nx : Option Nat},
      dseg s p (l₁ ++ l₂) nx ↔
        dseg s p l₁ (l₂.head?.or nx) ∧ dseg s (l₁.getLast?.or p) l₂ nx := by
  intro l₁
  induction l₁ with
  | nil =>
    intro l₂ p nx
    simp [dseg]
  | cons a l ih =>
    intro l₂ p nx
    show (prev_at s a = some p ∧ next_at s a = some ((l ++ l₂).head?.or nx) ∧
        dseg s (some a) (l ++ l₂) nx) ↔
      (prev_at s a = some p ∧ next_at s a = some (l.head?.or (l₂.head?.or nx)) ∧
        dseg s (some a) l (l₂.head?.or nx)) ∧ dseg s ((a :: l).getLast?.or p) l₂ nx
    rw [ih]
    have e1 : (l ++ l₂).head?.or nx = l.head?.or (l₂.head?.or nx) := by
      cases l <;> simp
    have e2 : (a :: l).getLast?.or p = l.getLast?.or (some a) := by
      cases l with
      | nil => simp
      | cons b r =>
        rw [List.getLast?_cons_cons]
        cases h : (b :: r).getLast? with
        | none => simp at h
        | some x => simp
    rw [e1, e2]
    constructor
    · rintro ⟨h1, h2, h3, h4⟩
      exact ⟨⟨h1, h2, h3⟩, h4⟩
    · rintro ⟨⟨h1, h2, h3⟩, h4⟩
      exact ⟨h1, h2, h3, h4⟩

/-- Along a segment that ends with a null `next` link, the `next` links form a
chain. -/
theorem dseg_next_chain {s : SimpleLRU} :
    ∀ {l : List Nat} {p : Option Nat},
      dseg s p l none → next_chain s.heap l.head? l := by
  intro l
  induction l with
  | nil => intro p _; rfl
  | cons a l ih =>
    intro p h
    obtain ⟨hp, hn, hr⟩ := h
    obtain ⟨n, hn', -, hnx⟩ := node_of_links hp hn
    refine ⟨rfl, n, hn', ?_⟩
    rw [hnx]
    have : l.head?.or none = l.head? := by cases l <;> rfl
    rw [this]
    exact ih hr

/-- Along a segment that starts with a null `prev` link, the `prev` links form
a chain from the last node back to the first. -/
theorem dseg_prev_chain {s : SimpleLRU} :
    ∀ {l : List Nat} {nx : Option Nat},
      dseg s none l nx → prev_chain s.heap l.getLast? l.reverse := by
  intro l
  induction l using List.reverseRecOn with
  | nil => intro nx _; rfl
  | append_singleton l a ih =>
    intro nx h
    rw [dseg_append] at h
    obtain ⟨h1, h2⟩ := h
    obtain ⟨hp, hn, -⟩ := h2
    obtain ⟨n, hn', hnp, -⟩ := node_of_links hp hn
    rw [List.getLast?_concat, List.reverse_append]
    refine ⟨rfl, n, hn', ?_⟩
    rw [hnp]
    have : l.getLast?.or none = l.getLast? := by cases l.getLast? <;> rfl
    rw [this]
    exact ih h1

/-! ## Moving a chain node to the head -/

theorem or_none_eq (o : Option Nat) : o.or none = o := by
  cases o <;> rfl

theorem put_node_in_head_of_head {s : SimpleLRU} {a : Nat} (h : s._lru_head = some a) :
    put_node_in_head s a = .ok s := by
  unfold put_node_in_head
  rw [if_pos h]
  rfl

/-- On a doubly linked list, `put_node_in_head` of a node of the list returns
and leaves a doubly linked list of the same nodes, with that node first and the
others in their former order. -/
theorem dlist_promote {s : SimpleLRU} {l : List Nat} {a : Nat}
    (hd : dlist s l) (ha : a ∈ l) :
    ∃ t l', put_node_in_head s a = .ok t ∧ same_data s t ∧ dlist t l' ∧
      l'.Perm l ∧ l'.head? = some a ∧ l' = a :: l.erase a := by
  obtain ⟨hnd, hhead, htail, hseg⟩ := hd
  by_cases hne : s._lru_head = some a
  · refine ⟨s, l, put_node_in_head_of_head hne, same_data_refl _, ⟨hnd, hhead, htail, hseg⟩,
      List.Perm.refl _, hhead ▸ hne, ?_⟩
    cases l with
    | nil => cases ha
    | cons b r =>
      rw [hhead] at hne
      injection hne with hne
      subst hne
      simp
  · obtain ⟨l1, l2, rfl⟩ := List.append_of_mem ha
    cases l1 with
    | nil => exact absurd hhead hne
    | cons h r =>
      -- the pieces of the list
      have hnd' := List.nodup_append.mp hnd
      obtain ⟨hnd1, hnd2, hdisj⟩ := hnd'
      have hal2 : a ∉ l2 := (List.nodup_cons.mp hnd2).1
      have hndl2 : l2.Nodup := (List.nodup_cons.mp hnd2).2
      have hal1 : a ∉ h :: r := fun e => hdisj e (List.mem_cons_self _ _)
      have hd12 : ∀ x, x ∈ h :: r → x ∈ l2 → False :=
        fun x h1 h2 => hdisj h1 (List.mem_cons_of_mem _ h2)
      have h1a : ∀ x, x ∈ h :: r → ¬ x = a := fun x hx e => hal1 (e ▸ hx)
      have h2a : ∀ x, x ∈ l2 → ¬ x = a := fun x hx e => hal2 (e ▸ hx)
      obtain ⟨p, hp⟩ : ∃ p, (h :: r).getLast? = some p := by
        cases e : (h :: r).getLast? with
        | none => simp at e
        | some p => exact ⟨p, rfl⟩
      have hpl1 : p ∈ h :: r := mem_of_getLast? hp
      rw [dseg_append] at hseg
      obtain ⟨hs1, hs2⟩ := hseg
      rw [hp] at hs2
      have hs1' : dseg s none (h :: r) (some a) := hs1
      obtain ⟨hpa, hna, hs3⟩ := hs2
      have hpa' : prev_at s a = some (some p) := hpa
      have hna' : next_at s a = some l2.head? := by
        rw [hna, or_none_eq]
      -- the call
      obtain ⟨t, ht, hdata, hth, htt, hnx, hpv⟩ :=
        @put_node_in_head_effect s a (some p) l2.head? (some h) hpa' hna'
          (fun x e => by
            injection e with e
            subst e
            exact ⟨fun e => hal1 (e ▸ hpl1), dseg_lt hs1' hpl1⟩)
          (fun q e => by
            have hq2 := mem_of_head? e
            refine ⟨fun e' => hal2 (e' ▸ hq2), dseg_lt hs3 hq2, ?_⟩
            intro e'
            injection e' with e'
            exact hd12 q (e' ▸ List.mem_cons_self _ _) hq2)
          hhead
          (fun e => by
            injection e with e
            exact hal1 (e ▸ List.mem_cons_self _ _))
          (fun x e => by
            injection e with e
            subst e
            exact hs1'.1)
      have hperm : (a :: (h :: r ++ l2)).Perm (h :: r ++ a :: l2) := List.perm_middle.symm
      refine ⟨t, a :: (h :: r ++ l2), ht, hdata, ⟨?_, hth, ?_, ?_⟩, hperm, rfl, ?_⟩
      · exact hperm.nodup_iff.mpr hnd
      · -- the tail
        rw [htt]
        show _ = (a :: h :: (r ++ l2)).getLast?
        rw [List.getLast?_cons_cons]
        show _ = (h :: r ++ l2).getLast?
        rw [List.getLast?_append, hp]
        cases l2 with
        | nil => rfl
        | cons q l3 =>
          have e1 : (h :: r ++ a :: q :: l3).getLast? = (q :: l3).getLast? := by
            rw [List.getLast?_append, List.getLast?_cons_cons]
            cases e : (q :: l3).getLast? with
            | none => simp at e
            | some z => rfl
          have e2 : ((q :: l3).getLast?.or (some p)) = (q :: l3).getLast? := by
            cases e : (q :: l3).getLast? with
            | none => simp at e
            | some z => rfl
          rw [e2]
          simp only [List.head?_cons, Option.isNone_some, Bool.and_false, Bool.false_eq_true,
            if_false]
          rw [htail, e1]
      · -- the links
        refine ⟨?_, ?_, ?_⟩
        · rw [hpv a, if_neg, if_pos rfl]
          intro e
          injection e with e
          exact hal1 (e ▸ List.mem_cons_self _ _)
        · rw [hnx a, if_pos rfl]
          rfl
        · show dseg t (some a) (h :: r ++ l2) none
          rw [dseg_append]
          constructor
          · apply dseg_relink hs1' hnd1
            · intro x hx hxh
              have hxh' : ¬ some x = some h := hxh
              rw [hpv x, if_neg hxh', if_neg (h1a x hx), if_neg]
              intro e
              exact hd12 x hx (mem_of_head? e.symm)
            · intro x hx
              have e : x = h := by
                injection hx with hx
                exact hx.symm
              rw [e, hpv h, if_pos rfl]
            · intro x hx hxp
              rw [hnx x, if_neg (h1a x hx), if_neg]
              rw [hp] at hxp
              exact hxp
            · intro x hx
              have e : x = p := by
                rw [hp] at hx
                injection hx with hx
                exact hx.symm
              rw [e, hnx p, if_neg (h1a p hpl1), if_pos rfl, or_none_eq]
          · rw [hp]
            show dseg t (some p) l2 none
            apply dseg_relink hs3 hndl2
            · intro x hx hxq
              rw [hpv x, if_neg, if_neg (h2a x hx), if_neg hxq]
              intro e
              injection e with e
              exact hd12 x (e ▸ List.mem_cons_self _ _) hx
            · intro x hx
              have hx2 := mem_of_head? hx
              rw [hpv x, if_neg, if_neg (h2a x hx2), if_pos hx.symm]
              intro e
              injection e with e
              exact hd12 x (e ▸ List.mem_cons_self _ _) hx2
            · intro x hx _
              rw [hnx x, if_neg (h2a x hx), if_neg]
              intro e
              injection e with e
              exact hd12 x (e ▸ hpl1) hx
            · intro x hx
              have hx2 := mem_of_getLast? hx
              rw [hnx x, if_neg (h2a x hx2), if_neg]
              · exact dseg_last hs3 hx
              · intro e
                injection e with e
                exact hd12 x (e ▸ hpl1) hx2
      · -- the list is the old one with the node moved to the front
        have : (h :: r ++ a :: l2).erase a = h :: r ++ l2 := by
          rw [List.erase_append_right _ hal1, List.erase_cons_head]
        rw [this]

/-! ## Well-formed states -/

theorem key_at_eq_node_data (s : SimpleLRU) (b : Nat) :
    key_at s.heap b = (node_data s b).map Prod.fst := by
  cases h : s.heap[b]? <;> simp [key_at, node_data, h]

theorem key_at_of_same_data {s t : SimpleLRU} (h : same_data s t) (b : Nat) :
    key_at t.heap b = key_at s.heap b := by
  rw [key_at_eq_node_data, key_at_eq_node_data, h.2.2.2 b]

theorem well_formed_lt {s : SimpleLRU} {l : List Nat} {a : Nat}
    (hw : well_formed s l) (ha : a ∈ l) : a < s.heap.length :=
  dseg_lt hw.1.2.2.2 ha

theorem well_formed_next_chain {s : SimpleLRU} {l : List Nat} (hw : well_formed s l) :
    next_chain s.heap s._lru_head l := by
  rw [hw.1.2.1]
  exact dseg_next_chain hw.1.2.2.2

theorem well_formed_prev_chain {s : SimpleLRU} {l : List Nat} (hw : well_formed s l) :
    prev_chain s.heap s._lru_tail l.reverse := by
  rw [hw.1.2.2.1]
  exact dseg_prev_chain hw.1.2.2.2

theorem well_formed_head_no_prev {s : SimpleLRU} {l : List Nat} (hw : well_formed s l) :
    head_no_prev s := by
  intro h hh
  obtain ⟨-, hhead, -, hseg⟩ := hw.1
  cases l with
  | nil =>
    rw [hhead] at hh
    cases hh
  | cons a r =>
    rw [hhead] at hh
    injection hh with hh
    subst hh
    exact hseg.1

/-- Two nodes of a well-formed chain that carry the same key are the same
node. -/
theorem well_formed_key_inj {s : SimpleLRU} {l : List Nat} {a b : Nat}
    (hw : well_formed s l) (ha : a ∈ l) (hb : b ∈ l)
    (h : key_at s.heap a = key_at s.heap b) : a = b :=
  List.inj_on_of_nodup_map hw.2.1 ha hb h

/-- A state that differs from a well-formed one in links only is well formed
as soon as its chain is a doubly linked list of the same nodes. -/
theorem well_formed_of_perm {s t : SimpleLRU} {l l' : List Nat}
    (hw : well_formed s l) (hd : same_data s t) (hl : dlist t l') (hp : l'.Perm l) :
    well_formed t l' := by
  obtain ⟨-, hk, hi, hn⟩ := hw
  refine ⟨hl, ?_, ?_, ?_⟩
  · have e : l'.map (key_at t.heap) = l'.map (key_at s.heap) :=
      List.map_congr_left (fun b _ => key_at_of_same_data hd b)
    rw [e]
    exact ((hp.map _).nodup_iff).mpr hk
  · intro k a hka
    rw [hd.2.1] at hka
    obtain ⟨h1, h2⟩ := hi k a hka
    exact ⟨hp.mem_iff.mpr h1, (key_at_of_same_data hd a).trans h2⟩
  · rw [hd.2.1]
    exact hn

/-- A state that differs from one holding a key/value store in links only
holds it as well, on any chain of the same nodes. -/
theorem holds_of_perm {s t : SimpleLRU} {l l' : List Nat} {m : String → Option String}
    (hR : holds s l m) (hd : same_data s t) (hp : l'.Perm l) : holds t l' m := by
  intro k v
  rw [← hR k v]
  constructor
  · rintro ⟨a, ha, hda⟩
    exact ⟨a, hp.mem_iff.mp ha, (hd.2.2.2 a) ▸ hda⟩
  · rintro ⟨a, ha, hda⟩
    exact ⟨a, hp.mem_iff.mpr ha, (hd.2.2.2 a).symm ▸ hda⟩

/-- On a well-formed state `put_node_in_head` of a chain node returns, keeps
the state well formed and every key and value in place, and leaves the node at
the head, without a `prev` link. -/
theorem well_formed_promote {s : SimpleLRU} {l : List Nat} {a : Nat}
    {m : String → Option String}
    (hw : well_formed s l) (hR : holds s l m) (ha : a ∈ l) :
    ∃ t, put_node_in_head s a = .ok t ∧ assert_head_no_prev t = .ok () ∧
      well_formed t (a :: l.erase a) ∧ holds t (a :: l.erase a) m ∧
      t._lru_head = some a ∧ same_data s t := by
  obtain ⟨t, l', ht, hd, hl, hp, -, rfl⟩ := dlist_promote hw.1 ha
  have hw' := well_formed_of_perm hw hd hl hp
  have hh : t._lru_head = some a := hl.2.1
  exact ⟨t, ht, assert_head_no_prev_ok hh (well_formed_head_no_prev hw' a hh), hw',
    holds_of_perm hR hd hp, hh, hd⟩

/-- The assignment `a->value := v`, in full. -/
theorem set_value_effect {s t : SimpleLRU} {a : Nat} {v : String}
    (h : set_value s a v = .ok t) :
    t._max_size = s._max_size ∧ t._lru_index = s._lru_index ∧
    t._lru_head = s._lru_head ∧ t._lru_tail = s._lru_tail ∧
    t.heap.length = s.heap.length ∧
    (∀ b, prev_at t b = prev_at s b) ∧ (∀ b, next_at t b = next_at s b) ∧
    (∀ b, key_at t.heap b = key_at s.heap b) ∧
    (∀ b, b ≠ a → node_data t b = node_data s b) ∧
    (∀ k w, node_data s a = some (k, w) → node_data t a = some (k, v)) := by
  obtain ⟨n, hn, rfl⟩ := update_inv h
  have hlt := lt_of_getElem? hn
  refine ⟨rfl, rfl, rfl, rfl, by simp, fun b => ?_, fun b => ?_, fun b => ?_, fun b hb => ?_,
    fun k w hkw => ?_⟩
  · by_cases hb : a = b
    · subst hb
      simp [prev_at, List.getElem?_set_self hlt, hn]
    · simp [prev_at, List.getElem?_set_ne hb]
  · by_cases hb : a = b
    · subst hb
      simp [next_at, List.getElem?_set_self hlt, hn]
    · simp [next_at, List.getElem?_set_ne hb]
  · by_cases hb : a = b
    · subst hb
      simp [key_at, List.getElem?_set_self hlt, hn]
    · simp [key_at, List.getElem?_set_ne hb]
  · simp [node_data, List.getElem?_set_ne (fun e => hb e.symm)]
  · simp only [node_data, hn, Option.map_some', Option.some.injEq, Prod.mk.injEq] at hkw
    simp [node_data, List.getElem?_set_self hlt, hkw.1]

/-- Writing the value of a chain node keeps a well-formed state well formed,
and the chain then holds the store with the value written under the key of the
node. -/
theorem well_formed_set_value {s t : SimpleLRU} {l : List Nat} {a : Nat} {k w v : String}
    {m : String → Option String}
    (hw : well_formed s l) (hR : holds s l m) (ha : a ∈ l)
    (hk : node_data s a = some (k, w)) (h : set_value s a v = .ok t) :
    well_formed t l ∧ holds t l (write m k v) ∧ node_data t a = some (k, v) := by
  obtain ⟨e1, e2, e3, e4, e5, pv, nx, ky, nd, na⟩ := set_value_effect h
  obtain ⟨⟨hnd, hh, ht, hs⟩, hk', hi, hn⟩ := hw
  have hw0 : well_formed s l := ⟨⟨hnd, hh, ht, hs⟩, hk', hi, hn⟩
  refine ⟨⟨⟨hnd, e3.trans hh, e4.trans ht, dseg_congr hs (fun x _ => pv x) (fun x _ => nx x)⟩,
    ?_, ?_, ?_⟩, ?_, na k w hk⟩
  · have e : l.map (key_at t.heap) = l.map (key_at s.heap) :=
      List.map_congr_left (fun b _ => ky b)
    rw [e]
    exact hk'
  · intro k' a' hka
    rw [e2] at hka
    obtain ⟨h1, h2⟩ := hi k' a' hka
    exact ⟨h1, (ky a').trans h2⟩
  · rw [e2]
    exact hn
  · intro k' v'
    have hka : key_at s.heap a = some k := key_at_of_node_data hk
    constructor
    · rintro ⟨b, hb, hdb⟩
      by_cases hba : b = a
      · subst hba
        rw [na k w hk] at hdb
        injection hdb with hdb
        injection hdb with h1 h2
        subst h1 h2
        simp [write]
      · rw [nd b hba] at hdb
        have hkb : key_at s.heap b = some k' := key_at_of_node_data hdb
        have hne : k' ≠ k := by
          intro e
          apply hba
          apply well_formed_key_inj hw0 hb ha
          rw [hkb, hka, e]
        simp only [write, if_neg hne]
        exact (hR k' v').mp ⟨b, hb, hdb⟩
    · intro hm
      by_cases hkk : k' = k
      · subst hkk
        simp only [write, if_true, Option.some.injEq] at hm
        subst hm
        exact ⟨a, ha, na k' w hk⟩
      · simp only [write, if_neg hkk] at hm
        obtain ⟨b, hb, hdb⟩ := (hR k' v').mpr hm
        have hba : b ≠ a := by
          intro e
          subst e
          rw [hk] at hdb
          injection hdb with hdb
          injection hdb with h1 _
          exact hkk h1.symm
        exact ⟨b, hb, (nd b hba).trans hdb⟩

/-! ## Insertion into a well-formed state -/

/-- The loop of `cache_cleaner` only erases index entries. -/
theorem cache_cleaner_loop_sublist {num : Nat} :
    ∀ {fuel : Nat} {s t : SimpleLRU} {c : Option Nat} {cnt : Nat},
      cache_cleaner_loop num fuel s c cnt = .ok t →
      t._lru_index.Sublist s._lru_index := by
  intro fuel
  induction fuel with
  | zero =>
    intro s t c cnt h
    cases c with
    | none =>
      simp only [cache_cleaner_loop] at h
      injection h with h
      subst h
      exact List.Sublist.refl _
    | some a =>
      simp only [cache_cleaner_loop] at h
      split at h
      · cases h
      · injection h with h
        subst h
        exact List.Sublist.refl _
  | succ fuel ih =>
    intro s t c cnt h
    cases c with
    | none =>
      simp only [cache_cleaner_loop] at h
      injection h with h
      subst h
      exact List.Sublist.refl _
    | some a =>
      simp only [cache_cleaner_loop] at h
      split at h
      · obtain ⟨n, hn, h⟩ := bind_ok_inv h
        split at h
        · exact (ih h).trans (List.eraseP_sublist _)
        · exact ih h
      · injection h with h
        subst h
        exact List.Sublist.refl _

theorem cache_cleaner_sublist {fuel : Nat} {s t : SimpleLRU} {ks ns : Nat}
    (h : cache_cleaner fuel s ks ns = .ok t) : t._lru_index.Sublist s._lru_index := by
  unfold cache_cleaner at h
  split at h
  · exact cache_cleaner_loop_sublist h
  · injection h with h
    subst h
    exact List.Sublist.refl _

/-- The statements `if (!_lru_tail) _lru_tail = node` and
`_lru_index.insert(...)`, in full, for a head whose key the index lacks. -/
theorem link_tail_and_index_effect {s : SimpleLRU} {node h : Nat} {k v : String}
    (hh : s._lru_head = some h) (hd : node_data s h = some (k, v))
    (hi : index_find s k = none) :
    ∃ t, link_tail_and_index s node = .ok t ∧ t.heap = s.heap ∧
      t._lru_head = s._lru_head ∧ t._max_size = s._max_size ∧
      t._lru_tail = (if s._lru_tail.isNone then some node else s._lru_tail) ∧
      t._lru_index = s._lru_index ++ [(k, h)] := by
  obtain ⟨n, hn, hk, -⟩ := node_data_inv hd
  subst hk
  have hi0 : s._lru_index.find? (fun e => e.1 == n.key) = none := by
    simpa [index_find] using hi
  cases ht : s._lru_tail with
  | none =>
    refine ⟨{ s with _lru_tail := some node, _lru_index := s._lru_index ++ [(n.key, h)] }, ?_,
      rfl, rfl, rfl, rfl, rfl⟩
    simp [link_tail_and_index, ht, hh, deref, hn, index_insert, index_find, hi0, bind,
      Except.bind, pure, Except.pure]
  | some x =>
    refine ⟨{ s with _lru_index := s._lru_index ++ [(n.key, h)] }, ?_,
      rfl, rfl, rfl, by simp [ht], rfl⟩
    simp [link_tail_and_index, ht, hh, deref, hn, index_insert, index_find, hi0, bind,
      Except.bind, pure, Except.pure]

theorem well_formed_not_mem_length {s : SimpleLRU} {l : List Nat} (hw : well_formed s l) :
    s.heap.length ∉ l :=
  fun h => Nat.lt_irrefl _ (well_formed_lt hw h)

/-- On a well-formed state, with fuel for every node of the chain,
`insert_new` of a key that is neither in the index nor on the chain returns; the
new node is the head of a well-formed chain, which holds the store with the
value written under the key. -/
theorem well_formed_insert_new {fuel : Nat} {s : SimpleLRU} {l : List Nat}
    {m : String → Option String} (k v : String) (ks : Nat)
    (hw : well_formed s l) (hR : holds s l m) (hf : l.length ≤ fuel)
    (hi : index_find s k = none) (hk : ∀ a ∈ l, key_at s.heap a ≠ some k) :
    ∃ t, insert_new fuel s k v ks = .ok t ∧ well_formed t (s.heap.length :: l) ∧
      holds t (s.heap.length :: l) (write m k v) := by
  obtain ⟨e0, ei, eh, et, el, en, em⟩ := new_node_facts s k v
  have hnl := well_formed_not_mem_length hw
  have hne : ∀ x ∈ l, x ≠ s.heap.length := fun x hx e => hnl (e ▸ hx)
  obtain ⟨⟨hnd, hhead, htail, hseg⟩, hkeys, hidx, hin⟩ := hw
  have hw0 : well_formed s l := ⟨⟨hnd, hhead, htail, hseg⟩, hkeys, hidx, hin⟩
  -- the cleaner
  have hc0 : prev_chain (new_node s k v).1.heap (new_node s k v).1._lru_tail l.reverse := by
    rw [et]
    exact prev_chain_mono em (well_formed_prev_chain hw0)
  obtain ⟨s1, h1⟩ := cache_cleaner_ok (s := (new_node s k v).1) ks sizeof_node_ptr hc0
    (by simpa using hf)
  obtain ⟨c1, c2, c3, c4, c5⟩ := cache_cleaner_frame h1
  have hsub := cache_cleaner_sublist h1
  rw [ei] at hsub
  -- nodes of the state after the cleaner
  have hold : ∀ x ∈ l, s1.heap[x]? = s.heap[x]? := by
    intro x hx
    obtain ⟨n, hn⟩ := getElem?_of_lt (well_formed_lt hw0 hx)
    rw [c1, em x n hn, hn]
  have hnew : s1.heap[s.heap.length]? =
      some { key := k, value := v, prev := none, next := none } := by
    rw [c1]
    exact en
  have hlen1 : s1.heap.length = s.heap.length + 1 := by rw [c1, el]
  have hp1 : ∀ x ∈ l, prev_at s1 x = prev_at s x := fun x hx => by
    simp only [prev_at, hold x hx]
  have hn1 : ∀ x ∈ l, next_at s1 x = next_at s x := fun x hx => by
    simp only [next_at, hold x hx]
  have hd1 : ∀ x ∈ l, node_data s1 x = node_data s x := fun x hx => by
    simp only [node_data, hold x hx]
  have hk1 : ∀ x ∈ l, key_at s1.heap x = key_at s.heap x := fun x hx => by
    simp only [key_at, hold x hx]
  have hh1 : s1._lru_head = l.head? := by rw [c2, eh, hhead]
  have ht1 : s1._lru_tail = l.getLast? := by rw [c3, et, htail]
  -- the new node becomes the head
  obtain ⟨s2, h2, d2, hh2, ht2, nx2, pv2⟩ :=
    @put_node_in_head_effect s1 s.heap.length none none l.head?
      (by rw [prev_at_eq hnew]) (by rw [next_at_eq hnew])
      (fun p hp => by cases hp) (fun q hq => by cases hq) hh1
      (fun e => hnl (mem_of_head? e))
      (fun h hh => by
        have hm := mem_of_head? hh
        rw [hp1 h hm]
        exact well_formed_head_no_prev hw0 h (hhead.trans hh))
  have hne' : ∀ x ∈ l, ¬ x = s.heap.length := hne
  have nx2l : ∀ x ∈ l, next_at s2 x = next_at s x := fun x hx => by
    rw [nx2 x, if_neg (hne' x hx), if_neg (by simp), hn1 x hx]
  have pv2l : ∀ x ∈ l, some x ≠ l.head? → prev_at s2 x = prev_at s x := fun x hx hxh => by
    rw [pv2 x, if_neg hxh, if_neg (hne' x hx), if_neg (by simp), hp1 x hx]
  have hseg2 : dseg s2 none (s.heap.length :: l) none := by
    refine ⟨?_, ?_, ?_⟩
    · rw [pv2, if_neg (fun e => hnl (mem_of_head? e.symm)), if_pos rfl]
    · rw [nx2, if_pos rfl, or_none_eq]
    · refine dseg_relink hseg hnd pv2l (fun x hx => ?_) (fun x hx _ => nx2l x hx)
        (fun x hx => ?_)
      · rw [pv2, if_pos hx.symm]
      · rw [nx2l x (mem_of_getLast? hx)]
        exact dseg_last hseg hx
  have hd2 : node_data s2 s.heap.length = some (k, v) := by
    rw [d2.2.2.2, node_data_eq hnew]
  have hi2 : index_find s2 k = none :=
    (index_find_congr d2.2.1 k).trans (c5 k ((index_find_congr ei k).trans hi))
  obtain ⟨t, h4, f1, f2, -, f4, f5⟩ :=
    @link_tail_and_index_effect s2 s.heap.length s.heap.length k v hh2 hd2 hi2
  have h3 : assert_head_no_prev s2 = .ok () := assert_head_no_prev_ok hh2 hseg2.1
  have hrun : insert_new fuel s k v ks = .ok t := by
    unfold insert_new
    dsimp only
    rw [e0]
    exact bind_ok_of h1 (bind_ok_of h2 (bind_ok_of h3 h4))
  have hdt : ∀ x, node_data t x = node_data s2 x := fun x => by
    simp only [node_data, f1]
  have hkt : ∀ x, key_at t.heap x = key_at s2.heap x := fun x => by rw [f1]
  have hdl : ∀ x ∈ l, node_data t x = node_data s x := fun x hx => by
    rw [hdt, d2.2.2.2, hd1 x hx]
  have hkl : ∀ x ∈ l, key_at t.heap x = key_at s.heap x := fun x hx => by
    rw [key_at_eq_node_data, hdl x hx, ← key_at_eq_node_data]
  have hdn : node_data t s.heap.length = some (k, v) := by rw [hdt, hd2]
  have hidx2 : s2._lru_index.Sublist s._lru_index := by
    rw [d2.2.1]
    exact hsub
  refine ⟨t, hrun, ⟨⟨List.nodup_cons.mpr ⟨hnl, hnd⟩, ?_, ?_, ?_⟩, ?_, ?_, ?_⟩, ?_⟩
  · rw [f2, hh2]
    rfl
  · rw [f4, ht2]
    simp only [Option.isSome_none, Option.isNone_none, Bool.false_and, Bool.false_eq_true,
      if_false, ht1]
    cases l with
    | nil => rfl
    | cons b r =>
      rw [getLast?_cons_of_ne_nil (List.cons_ne_nil b r)]
      cases hg : (b :: r).getLast? with
      | none => simp at hg
      | some y => rfl
  · exact dseg_congr hseg2 (fun x _ => by simp only [prev_at, f1])
      (fun x _ => by simp only [next_at, f1])
  · rw [List.map_cons, List.nodup_cons]
    refine ⟨?_, ?_⟩
    · rw [key_at_of_node_data hdn]
      intro hmem
      obtain ⟨x, hx, hxk⟩ := List.mem_map.mp hmem
      rw [hkl x hx] at hxk
      exact hk x hx hxk
    · rw [List.map_congr_left hkl]
      exact hkeys
  · intro k' a hka
    rw [f5, List.mem_append] at hka
    rcases hka with hka | hka
    · obtain ⟨q1, q2⟩ := hidx k' a (hidx2.subset hka)
      exact ⟨List.mem_cons_of_mem _ q1, (hkl a q1).trans q2⟩
    · simp only [List.mem_singleton, Prod.mk.injEq] at hka
      obtain ⟨rfl, rfl⟩ := hka
      exact ⟨List.mem_cons_self _ _, key_at_of_node_data hdn⟩
  · rw [f5, List.map_append, List.nodup_append]
    refine ⟨hin.sublist (hidx2.map _), by simp, ?_⟩
    intro x hx1 hx2
    simp only [List.map_cons, List.map_nil, List.mem_singleton] at hx2
    subst hx2
    obtain ⟨e, he, hek⟩ := List.mem_map.mp hx1
    exact index_find_eq_none.mp hi2 e he hek
  · intro k' v'
    constructor
    · rintro ⟨a, ha, hda⟩
      rcases List.mem_cons.mp ha with e | ha'
      · subst e
        rw [hdn] at hda
        injection hda with hda
        injection hda with q1 q2
        subst q1 q2
        simp [write]
      · rw [hdl a ha'] at hda
        have hne2 : k' ≠ k := fun e => hk a ha' (e ▸ key_at_of_node_data hda)
        simp only [write, if_neg hne2]
        exact (hR k' v').mp ⟨a, ha', hda⟩
    · intro hm
      by_cases hkk : k' = k
      · subst hkk
        simp only [write, if_true, Option.some.injEq] at hm
        subst hm
        exact ⟨s.heap.length, List.mem_cons_self _ _, hdn⟩
      · simp only [write, if_neg hkk] at hm
        obtain ⟨b, hb, hdb⟩ := (hR k' v').mpr hm
        exact ⟨b, List.mem_cons_of_mem _ hb, (hdl b hb).trans hdb⟩

/-! ## Calls on a well-formed state -/

theorem node_data_of_key_at {s : SimpleLRU} {a : Nat} {k : String}
    (h : key_at s.heap a = some k) : ∃ v, node_data s a = some (k, v) := by
  cases hn : s.heap[a]? with
  | none => simp [key_at, hn] at h
  | some n =>
    rw [key_at_eq hn] at h
    injection h with h
    exact ⟨n.value, by rw [node_data_eq hn, h]⟩

/-- An index hit on a well-formed state is a chain node that carries the key,
and the store has the value of that node under the key. -/
theorem well_formed_index_hit {s : SimpleLRU} {l : List Nat} {m : String → Option String}
    {k : String} {a : Nat} (hw : well_formed s l) (hR : holds s l m)
    (hi : index_find s k = some a) :
    a ∈ l ∧ ∃ v, node_data s a = some (k, v) ∧ m k = some v := by
  obtain ⟨ha, hka⟩ := hw.2.2.1 k a (index_find_some hi)
  obtain ⟨v, hv⟩ := node_data_of_key_at hka
  exact ⟨ha, v, hv, (hR k v).mp ⟨a, ha, hv⟩⟩

/-- The scan of a well-formed chain, with fuel for every node of it, stops at
the node that carries the key when the store has the key, and reaches the null
link when it has not. -/
theorem well_formed_scan {s : SimpleLRU} {l : List Nat} {m : String → Option String}
    (k : String) {fuel : Nat} (hw : well_formed s l) (hR : holds s l m)
    (hf : l.length ≤ fuel) :
    (∃ a ∈ l, find_in_list s k fuel s._lru_head = .ok (some a) ∧
      ∃ v, node_data s a = some (k, v) ∧ m k = some v) ∨
    (find_in_list s k fuel s._lru_head = .ok none ∧
      (∀ a ∈ l, key_at s.heap a ≠ some k) ∧ m k = none) := by
  have hc := well_formed_next_chain hw
  by_cases hk : ∃ a ∈ l, key_at s.heap a = some k
  · obtain ⟨a, ha, hfind, hka⟩ := find_in_list_some hc hf hk
    obtain ⟨v, hv⟩ := node_data_of_key_at hka
    exact Or.inl ⟨a, ha, hfind, v, hv, (hR k v).mp ⟨a, ha, hv⟩⟩
  · have hk' : ∀ a ∈ l, key_at s.heap a ≠ some k := fun a ha e => hk ⟨a, ha, e⟩
    refine Or.inr ⟨find_in_list_none hc hf hk', hk', ?_⟩
    cases hm : m k with
    | none => rfl
    | some v =>
      obtain ⟨a, ha, hda⟩ := (hR k v).mpr hm
      exact absurd (key_at_of_node_data hda) (hk' a ha)

theorem length_cons_erase {l : List Nat} {a : Nat} (ha : a ∈ l) :
    (a :: l.erase a).length = l.length :=
  (List.perm_cons_erase ha).length_eq.symm

/-- Writing the value of a chain node and moving the node to the head, on a
well-formed state: both calls return, the assertion holds, the state stays well
formed and holds the store with the value written under the key of the node. -/
theorem well_formed_hit_write {s : SimpleLRU} {l : List Nat} {m : String → Option String}
    {a : Nat} {k w : String} (v : String) (hw : well_formed s l) (hR : holds s l m)
    (ha : a ∈ l) (hk : node_data s a = some (k, w)) :
    ∃ s2 t, set_value s a v = .ok s2 ∧ put_node_in_head s2 a = .ok t ∧
      assert_head_no_prev t = .ok () ∧ well_formed t (a :: l.erase a) ∧
      holds t (a :: l.erase a) (write m k v) := by
  obtain ⟨s2, h2⟩ := set_value_ok v (well_formed_lt hw ha)
  obtain ⟨hw2, hR2, -⟩ := well_formed_set_value hw hR ha hk h2
  obtain ⟨t, h3, h4, hw3, hR3, -, -⟩ := well_formed_promote hw2 hR2 ha
  exact ⟨s2, t, h2, h3, h4, hw3, hR3⟩

/-- On a well-formed state that holds the store `m`, with fuel for every node
of the chain, `Get` returns what the store has under the key, and leaves a
well-formed state that holds the same store. -/
theorem Get_refines {fuel : Nat} {s : SimpleLRU} {l : List Nat} {m : String → Option String}
    (k : String) (hw : well_formed s l) (hR : holds s l m) (hf : l.length ≤ fuel) :
    ∃ t l', Get fuel s k = .ok (t, m k) ∧ well_formed t l' ∧ holds t l' m ∧
      l'.length = l.length := by
  cases hi : index_find s k with
  | some a =>
    obtain ⟨-, v, hv, hm⟩ := well_formed_index_hit hw hR hi
    refine ⟨s, l, ?_, hw, hR, rfl⟩
    rw [hm]
    exact Get_index_hit fuel hi ⟨k, hv⟩
  | none =>
    rcases well_formed_scan k hw hR hf with ⟨a, ha, hfind, v, hv, hm⟩ | ⟨hfind, -, hm⟩
    · obtain ⟨t, h3, h4, hw3, hR3, -, -⟩ := well_formed_promote hw hR ha
      obtain ⟨n, hn, -, hnv⟩ := node_data_inv hv
      refine ⟨t, a :: l.erase a, ?_, hw3, hR3, length_cons_erase ha⟩
      rw [hm]
      simp [Get, hi, hfind, deref, hn, h3, h4, hnv, bind, Except.bind, pure, Except.pure]
    · refine ⟨s, l, ?_, hw, hR, rfl⟩
      rw [hm]
      simp [Get, hi, hfind, bind, Except.bind, pure, Except.pure]

/-- One call other than `Delete` on a well-formed state that holds the store
`m`, with fuel for every node of the chain: the call returns what the store
model returns, and leaves a well-formed state that holds the store the model
leaves; the chain grows by one node at most. -/
theorem step_refines {fuel : Nat} {s : SimpleLRU} {l : List Nat} {m : String → Option String}
    (o : Op) (hw : well_formed s l) (hR : holds s l m) (hf : l.length ≤ fuel)
    (ho : o.no_delete = true) :
    ∃ t l', step fuel s o = .ok (t, spec_result m o) ∧ well_formed t l' ∧
      holds t l' (spec_store m o) ∧ l'.length ≤ l.length + 1 := by
  cases o with
  | Put k v =>
    cases hi : index_find s k with
    | some a =>
      obtain ⟨ha, w, hv, hm⟩ := well_formed_index_hit hw hR hi
      obtain ⟨s2, t, h2, h3, -, hw3, hR3⟩ := well_formed_hit_write v hw hR ha hv
      refine ⟨t, a :: l.erase a, ?_, hw3, hR3, by rw [length_cons_erase ha]; omega⟩
      simp [step, Put, hi, h2, h3, spec_result, Except.map, bind, Except.bind, pure,
        Except.pure]
    | none =>
      rcases well_formed_scan k hw hR hf with ⟨a, ha, hfind, w, hv, hm⟩ | ⟨hfind, hk, hm⟩
      · obtain ⟨s2, t, h2, h3, h4, hw3, hR3⟩ := well_formed_hit_write v hw hR ha hv
        refine ⟨t, a :: l.erase a, ?_, hw3, hR3, by rw [length_cons_erase ha]; omega⟩
        simp [step, Put, hi, hfind, h2, h3, h4, spec_result, Except.map, bind, Except.bind,
          pure, Except.pure]
      · obtain ⟨t, h5, hw5, hR5⟩ := well_formed_insert_new k v 8 hw hR hf hi hk
        refine ⟨t, s.heap.length :: l, ?_, hw5, hR5, by simp⟩
        simp [step, Put, hi, hfind, h5, spec_result, Except.map, bind, Except.bind, pure,
          Except.pure]
  | PutIfAbsent k v =>
    cases hi : index_find s k with
    | some a =>
      obtain ⟨ha, w, hv, hm⟩ := well_formed_index_hit hw hR hi
      refine ⟨s, l, ?_, hw, ?_, by omega⟩
      · simp [step, PutIfAbsent, hi, spec_result, hm, Except.map, pure, Except.pure]
      · simpa [spec_store, hm] using hR
    | none =>
      rcases well_formed_scan k hw hR hf with ⟨a, ha, hfind, w, hv, hm⟩ | ⟨hfind, hk, hm⟩
      · obtain ⟨t, h3, h4, hw3, hR3, -, -⟩ := well_formed_promote hw hR ha
        refine ⟨t, a :: l.erase a, ?_, hw3, ?_, by rw [length_cons_erase ha]; omega⟩
        · simp [step, PutIfAbsent, hi, hfind, h3, h4, spec_result, hm, Except.map, bind,
            Except.bind, pure, Except.pure]
        · simpa [spec_store, hm] using hR3
      · obtain ⟨t, h5, hw5, hR5⟩ := well_formed_insert_new k v sizeof_string hw hR hf hi hk
        refine ⟨t, s.heap.length :: l, ?_, hw5, ?_, by simp⟩
        · simp [step, PutIfAbsent, hi, hfind, h5, spec_result, hm, Except.map, bind,
            Except.bind, pure, Except.pure]
        · simpa [spec_store, hm] using hR5
  | Set k v =>
    cases hi : index_find s k with
    | some a =>
      obtain ⟨ha, w, hv, hm⟩ := well_formed_index_hit hw hR hi
      obtain ⟨s2, t, h2, h3, -, hw3, hR3⟩ := well_formed_hit_write v hw hR ha hv
      refine ⟨t, a :: l.erase a, ?_, hw3, ?_, by rw [length_cons_erase ha]; omega⟩
      · simp [step, Set, hi, h2, h3, spec_result, hm, Except.map, bind, Except.bind, pure,
          Except.pure]
      · simpa [spec_store, hm] using hR3
    | none =>
      rcases well_formed_scan k hw hR hf with ⟨a, ha, hfind, w, hv, hm⟩ | ⟨hfind, hk, hm⟩
      · obtain ⟨s2, t, h2, h3, h4, hw3, hR3⟩ := well_formed_hit_write v hw hR ha hv
        refine ⟨t, a :: l.erase a, ?_, hw3, ?_, by rw [length_cons_erase ha]; omega⟩
        · simp [step, Set, hi, hfind, h2, h3, h4, spec_result, hm, Except.map, bind,
            Except.bind, pure, Except.pure]
        · simpa [spec_store, hm] using hR3
      · refine ⟨s, l, ?_, hw, ?_, by omega⟩
        · simp [step, Set, hi, hfind, spec_result, hm, Except.map, bind, Except.bind, pure,
            Except.pure]
        · simpa [spec_store, hm] using hR
  | Delete k => cases ho
  | Get k =>
    obtain ⟨t, l', hg, hw', hR', hl⟩ := Get_refines k hw hR hf
    refine ⟨t, l', ?_, hw', hR', by omega⟩
    simp [step, hg, spec_result, Except.map]

theorem well_formed_new (max_size : Nat) : well_formed (SimpleLRU.new max_size) [] := by
  refine ⟨⟨List.nodup_nil, rfl, rfl, trivial⟩, List.nodup_nil, ?_, List.nodup_nil⟩
  intro k a h
  cases h

theorem holds_new (max_size : Nat) : holds (SimpleLRU.new max_size) [] (fun _ => none) := by
  intro k v
  simp

/-- A sequence of calls without `Delete` on a well-formed state that holds the
store `m`, with fuel for every node the chain has or may gain: the calls return
what the store model returns, and leave a well-formed state that holds the
store the model leaves. -/
theorem run_refines {fuel : Nat} :
    ∀ (ops : List Op) {s : SimpleLRU} {l : List Nat} {m : String → Option String},
      well_formed s l → holds s l m → (∀ o ∈ ops, o.no_delete = true) →
      l.length + ops.length ≤ fuel →
      ∃ t l', run fuel s ops = .ok (t, (spec_run m ops).2) ∧ well_formed t l' ∧
        holds t l' (spec_run m ops).1 ∧ l'.length ≤ l.length + ops.length := by
  intro ops
  induction ops with
  | nil =>
    intro s l m hw hR _ _
    exact ⟨s, l, rfl, hw, hR, by simp⟩
  | cons o os ih =>
    intro s l m hw hR hnd hf
    simp only [List.length_cons] at hf
    have hf1 : l.length ≤ fuel := by omega
    obtain ⟨s1, l1, h1, hw1, hR1, hl1⟩ :=
      step_refines o hw hR hf1 (hnd o (List.mem_cons_self _ _))
    obtain ⟨t, l', h2, hw2, hR2, hl2⟩ :=
      ih hw1 hR1 (fun o' ho' => hnd o' (List.mem_cons_of_mem _ ho')) (by omega)
    refine ⟨t, l', ?_, hw2, hR2, by simp only [List.length_cons]; omega⟩
    simp [run, h1, h2, spec_run, bind, Except.bind, pure, Except.pure]

/-- In the store model a key that is there stays there through calls other than
`Delete`, and `Put` and `PutIfAbsent` put their key there. -/
theorem spec_run_isSome (k : String) :
    ∀ (ops : List Op) (m : String → Option String),
      (∀ o ∈ ops, o.no_delete = true) →
      ((m k).isSome ∨ ∃ v, Op.Put k v ∈ ops ∨ Op.PutIfAbsent k v ∈ ops) →
      ((spec_run m ops).1 k).isSome := by
  intro ops
  induction ops with
  | nil =>
    intro m _ h
    rcases h with h | ⟨v, h | h⟩
    · exact h
    · cases h
    · cases h
  | cons o os ih =>
    intro m hnd h
    have hnd' : ∀ o' ∈ os, o'.no_delete = true :=
      fun o' ho' => hnd o' (List.mem_cons_of_mem _ ho')
    have hkeep : (m k).isSome → (spec_store m o k).isSome := by
      intro hm
      cases o with
      | Put k' v' =>
        by_cases e : k = k' <;> simp [spec_store, write, e, hm]
      | PutIfAbsent k' v' =>
        by_cases e : k = k'
        · subst e
          simp [spec_store, hm]
        · by_cases h' : (m k').isSome <;> simp [spec_store, write, e, hm, h']
      | Set k' v' =>
        by_cases e : k = k'
        · subst e
          simp [spec_store, write, hm]
        · by_cases h' : (m k').isSome <;> simp [spec_store, write, e, hm, h']
      | Delete k' => exact absurd (hnd _ (List.mem_cons_self _ _)) (by simp [Op.no_delete])
      | Get k' => exact hm
    show ((spec_run (spec_store m o) os).1 k).isSome
    apply ih _ hnd'
    rcases h with h | ⟨v, h | h⟩
    · exact Or.inl (hkeep h)
    · rcases List.mem_cons.mp h with e | h'
      · subst e
        exact Or.inl (by simp [spec_store, write])
      · exact Or.inr ⟨v, Or.inl h'⟩
    · rcases List.mem_cons.mp h with e | h'
      · subst e
        by_cases hm : (m k).isSome
        · exact Or.inl (hkeep hm)
        · exact Or.inl (by simp [spec_store, write, hm])
      · exact Or.inr ⟨v, Or.inr h'⟩

/-! ## The cleaner on a well-formed state -/

theorem find?_eraseP_ne {k key : String} (hne : k ≠ key) :
    ∀ (idx : List (String × Nat)),
      (idx.eraseP (fun e => e.1 == key)).find? (fun e => e.1 == k)
        = idx.find? (fun e => e.1 == k) := by
  intro idx
  induction idx with
  | nil => rfl
  | cons e r ih =>
    by_cases h1 : e.1 = key
    · have hk : ¬ ((e.1 == k) = true) := by
        intro h
        have h' : e.1 = k := by simpa using h
        exact hne (h' ▸ h1)
      have hp : (e.1 == key) = true := by simpa using h1
      rw [List.eraseP_cons_of_pos (p := fun (e : String × Nat) => e.1 == key) hp,
        List.find?_cons_of_neg (p := fun (e : String × Nat) => e.1 == k) r hk]
    · have hp : ¬ ((e.1 == key) = true) := by simpa using h1
      rw [List.eraseP_cons_of_neg (p := fun (e : String × Nat) => e.1 == key) hp]
      by_cases h2 : (e.1 == k) = true
      · rw [List.find?_cons_of_pos (p := fun (e : String × Nat) => e.1 == k) _ h2,
          List.find?_cons_of_pos (p := fun (e : String × Nat) => e.1 == k) _ h2]
      · rw [List.find?_cons_of_neg (p := fun (e : String × Nat) => e.1 == k) _ h2,
          List.find?_cons_of_neg (p := fun (e : String × Nat) => e.1 == k) _ h2, ih]

theorem index_find_erase_ne {s : SimpleLRU} {k key : String} (hne : k ≠ key) :
    index_find (index_erase s key) k = index_find s k := by
  simp only [index_find, index_erase]
  rw [find?_eraseP_ne hne]

/-- In an index without two entries for one key, erasing the entry of a key
leaves the entries of the other keys. -/
theorem eraseP_eq_filter (key : String) :
    ∀ (idx : List (String × Nat)), (idx.map Prod.fst).Nodup →
      idx.eraseP (fun e => e.1 == key) = idx.filter (fun e => !(e.1 == key)) := by
  intro idx
  induction idx with
  | nil => intro _; rfl
  | cons e r ih =>
    intro hn
    rw [List.map_cons, List.nodup_cons] at hn
    by_cases h1 : e.1 = key
    · have hr : ∀ x ∈ r, (!(x.1 == key)) = true := by
        intro x hx
        have : x.1 ≠ key := by
          intro hxk
          apply hn.1
          rw [h1, ← hxk]
          exact List.mem_map_of_mem _ hx
        simpa using this
      simp only [List.eraseP_cons, h1, beq_self_eq_true, if_true, cond_true]
      rw [List.filter_cons_of_neg (by simp [h1]), List.filter_eq_self.mpr hr]
    · have hb : (e.1 == key) = false := by simpa using h1
      simp only [List.eraseP_cons, hb, cond_false]
      rw [List.filter_cons_of_pos (by simp [hb]), ih hn.2]

theorem walk_victims_nil (u : SimpleLRU) (q : Nat) : walk_victims u [] q = [] := by
  simp [walk_victims]

theorem walk_victims_zero (u : SimpleLRU) (ws : List String) : walk_victims u ws 0 = [] := by
  simp [walk_victims]

theorem filter_not_mem_nil (idx : List (String × Nat)) :
    idx.filter (fun e => decide (e.1 ∉ ([] : List String))) = idx := by
  simp

/-- The loop of `cache_cleaner`, in full: along a walk over nodes with distinct
keys, on an index without two entries for one key, it erases the entries of
the first `num_to_del - cnt` indexed keys of the walk and nothing else. -/
theorem cache_cleaner_loop_spec {num : Nat} {heap : List lru_node} :
    ∀ {w : List Nat} {fuel : Nat} {u : SimpleLRU} {c : Option Nat} {cnt : Nat},
      prev_chain heap c w → u.heap = heap → w.length ≤ fuel →
      (w.filterMap (key_at heap)).Nodup → (u._lru_index.map Prod.fst).Nodup →
      ∃ t, cache_cleaner_loop num fuel u c cnt = .ok t ∧
        t.heap = u.heap ∧ t._lru_head = u._lru_head ∧ t._lru_tail = u._lru_tail ∧
        t._max_size = u._max_size ∧
        t._lru_index = u._lru_index.filter (fun e =>
          decide (e.1 ∉ walk_victims u (w.filterMap (key_at heap)) (num - cnt))) ∧
        t._lru_index.length
          + (walk_victims u (w.filterMap (key_at heap)) (num - cnt)).length
          = u._lru_index.length := by
  intro w
  induction w with
  | nil =>
    intro fuel u c cnt hc _ _ _ _
    simp only [prev_chain] at hc
    subst hc
    refine ⟨u, by cases fuel <;> simp [cache_cleaner_loop], rfl, rfl, rfl, rfl, ?_, ?_⟩
    · simp [walk_victims]
    · simp [walk_victims]
  | cons a w ih =>
    intro fuel u c cnt hc hu hf hws hidx
    obtain ⟨hca, n, hn, hrest⟩ := hc
    subst hca
    have hka : key_at heap a = some n.key := key_at_eq hn
    have hws' : (a :: w).filterMap (key_at heap) = n.key :: w.filterMap (key_at heap) := by
      rw [List.filterMap_cons_some hka]
    rw [hws'] at hws ⊢
    rw [List.nodup_cons] at hws
    cases fuel with
    | zero => simp at hf
    | succ fuel =>
      have hf' : w.length ≤ fuel := by simpa using hf
      simp only [cache_cleaner_loop]
      by_cases hlt : cnt < num
      · rw [if_pos hlt]
        have hd : deref u a = .ok n := deref_ok (hu ▸ hn)
        simp only [hd, bind, Except.bind]
        by_cases hin : (index_find u n.key).isSome = true
        · rw [if_pos hin]
          have herase : (index_erase u n.key)._lru_index
              = u._lru_index.filter (fun e => !(e.1 == n.key)) :=
            eraseP_eq_filter n.key u._lru_index hidx
          have hidx' : ((index_erase u n.key)._lru_index.map Prod.fst).Nodup := by
            rw [herase]
            exact hidx.sublist ((List.filter_sublist _).map _)
          obtain ⟨t, ht, e1, e2, e3, e4, e5, e6⟩ :=
            @ih fuel (index_erase u n.key) n.prev (cnt + 1) hrest hu hf' hws.2 hidx'
          have hfil : (w.filterMap (key_at heap)).filter
                (fun k => (index_find (index_erase u n.key) k).isSome)
              = (w.filterMap (key_at heap)).filter (fun k => (index_find u k).isSome) := by
            apply List.filter_congr
            intro k hk
            have hne : k ≠ n.key := fun e => hws.1 (e ▸ hk)
            rw [index_find_erase_ne hne]
          have hV : walk_victims u (n.key :: w.filterMap (key_at heap)) (num - cnt)
              = n.key :: walk_victims (index_erase u n.key) (w.filterMap (key_at heap))
                  (num - (cnt + 1)) := by
            have hq : num - cnt = (num - (cnt + 1)) + 1 := by omega
            simp only [walk_victims]
            rw [List.filter_cons_of_pos (p := fun k => (index_find u k).isSome) hin, hq,
              List.take_succ_cons, hfil]
          obtain ⟨x, hx⟩ := Option.isSome_iff_exists.mp hin
          have hmem := index_find_some hx
          have hlen : (index_erase u n.key)._lru_index.length = u._lru_index.length - 1 :=
            List.length_eraseP_of_mem hmem (by simp)
          have hpos : 0 < u._lru_index.length := List.length_pos_of_mem hmem
          refine ⟨t, ht, e1, e2, e3, e4, ?_, ?_⟩
          · rw [e5, herase, hV, List.filter_filter]
            apply List.filter_congr
            intro e _
            by_cases h1 : e.1 = n.key <;> simp [h1]
          · rw [hV, List.length_cons]
            omega
        · rw [if_neg hin]
          have hV : walk_victims u (n.key :: w.filterMap (key_at heap)) (num - cnt)
              = walk_victims u (w.filterMap (key_at heap)) (num - cnt) := by
            simp only [walk_victims]
            rw [List.filter_cons_of_neg (p := fun k => (index_find u k).isSome) hin]
          rw [hV]
          exact ih hrest hu hf' hws.2 hidx
      · rw [if_neg hlt]
        have hq : num - cnt = 0 := by omega
        rw [hq, walk_victims_zero]
        exact ⟨u, rfl, rfl, rfl, rfl, rfl, by simp, by simp⟩

theorem map_some_filterMap {α β : Type} (g : α → Option β) :
    ∀ (l : List α), (∀ x ∈ l, (g x).isSome = true) →
      (l.filterMap g).map some = l.map g := by
  intro l
  induction l with
  | nil => intro _; rfl
  | cons a r ih =>
    intro h
    obtain ⟨b, hb⟩ := Option.isSome_iff_exists.mp (h a (List.mem_cons_self _ _))
    rw [List.filterMap_cons_some hb, List.map_cons, List.map_cons,
      ih (fun x hx => h x (List.mem_cons_of_mem _ hx)), hb]

theorem well_formed_key_isSome {s : SimpleLRU} {l : List Nat} (hw : well_formed s l) :
    ∀ x ∈ l, (key_at s.heap x).isSome = true := by
  intro x hx
  obtain ⟨n, hn⟩ := getElem?_of_lt (well_formed_lt hw hx)
  rw [key_at_eq hn]
  rfl

/-- The keys met walking from the tail of a well-formed chain are pairwise
distinct. -/
theorem keys_from_tail_nodup {s : SimpleLRU} {l : List Nat} (hw : well_formed s l) :
    (keys_from_tail s l).Nodup := by
  apply List.Nodup.of_map some
  unfold keys_from_tail
  rw [map_some_filterMap _ _ (fun x hx => well_formed_key_isSome hw x (List.mem_reverse.mp hx)),
    List.map_reverse]
  exact List.nodup_reverse.mpr hw.2.1

theorem mem_keys_from_tail {s : SimpleLRU} {l : List Nat} {k : String} :
    k ∈ keys_from_tail s l ↔ ∃ a ∈ l, key_at s.heap a = some k := by
  simp [keys_from_tail]

theorem index_find_isSome_iff {s : SimpleLRU} {k : String} :
    (index_find s k).isSome = true ↔ k ∈ s._lru_index.map Prod.fst := by
  constructor
  · intro h
    obtain ⟨a, ha⟩ := Option.isSome_iff_exists.mp h
    exact List.mem_map.mpr ⟨(k, a), index_find_some ha, rfl⟩
  · intro h
    obtain ⟨e, he, hek⟩ := List.mem_map.mp h
    cases hf : index_find s k with
    | none => exact absurd hek (index_find_eq_none.mp hf e he)
    | some a => rfl

/-- On a well-formed state the indexed keys met walking from the tail are the
keys of the index, each once. -/
theorem indexed_keys_perm {s : SimpleLRU} {l : List Nat} (hw : well_formed s l) :
    ((keys_from_tail s l).filter (fun k => (index_find s k).isSome)).Perm
      (s._lru_index.map Prod.fst) := by
  rw [List.perm_ext_iff_of_nodup ((keys_from_tail_nodup hw).filter _) hw.2.2.2]
  intro k
  rw [List.mem_filter, index_find_isSome_iff, mem_keys_from_tail]
  constructor
  · exact fun h => h.2
  · intro h
    obtain ⟨e, he, hek⟩ := List.mem_map.mp h
    have hmem : (k, e.2) ∈ s._lru_index := by
      rw [← hek]
      exact he
    obtain ⟨q1, q2⟩ := hw.2.2.1 k e.2 hmem
    exact ⟨⟨e.2, q1, q2⟩, h⟩

theorem spec_victims_length {s : SimpleLRU} {l : List Nat} (hw : well_formed s l) :
    (spec_victims s l).length = s._lru_index.length / 4 := by
  unfold spec_victims
  rw [List.length_take, (indexed_keys_perm hw).length_eq, List.length_map]
  exact Nat.min_eq_left (Nat.div_le_self _ _)

theorem state_abcd_reached (fuel : Nat) :
    run (fuel + 4) (SimpleLRU.new 100)
        [.Put "a" "1", .Put "b" "2", .Put "c" "3", .Put "d" "4"]
      = .ok (state_abcd, [.bool true, .bool true, .bool true, .bool true]) := by
  rfl

theorem state_abcd_well_formed : well_formed state_abcd [3, 2, 1, 0] := by
  refine ⟨⟨by decide, rfl, rfl, ⟨rfl, rfl, rfl, rfl, rfl, rfl, rfl, rfl, trivial⟩⟩,
    by decide, ?_, by decide⟩
  intro k a h
  simp only [state_abcd, List.mem_cons, Prod.mk.injEq, List.mem_singleton, List.not_mem_nil,
    or_false] at h
  rcases h with ⟨rfl, rfl⟩ | ⟨rfl, rfl⟩ | ⟨rfl, rfl⟩ | ⟨rfl, rfl⟩ <;> exact ⟨by decide, rfl⟩

/-! ## The cleaner inside an insertion -/

/-- The statement `new lru_node(key, value)` keeps a well-formed state well
formed: the new node is not linked. -/
theorem well_formed_new_node {s : SimpleLRU} {l : List Nat} (k v : String)
    (hw : well_formed s l) : well_formed (new_node s k v).1 l := by
  obtain ⟨-, -, -, -, -, -, em⟩ := new_node_facts s k v
  have hold : ∀ x ∈ l, (new_node s k v).1.heap[x]? = s.heap[x]? := by
    intro x hx
    obtain ⟨n, hn⟩ := getElem?_of_lt (well_formed_lt hw hx)
    rw [em x n hn, hn]
  have hk : ∀ x ∈ l, key_at (new_node s k v).1.heap x = key_at s.heap x := fun x hx => by
    simp only [key_at, hold x hx]
  obtain ⟨⟨hnd, hh, ht, hs⟩, hkeys, hidx, hin⟩ := hw
  refine ⟨⟨hnd, hh, ht, dseg_congr hs (fun x hx => ?_) (fun x hx => ?_)⟩, ?_, ?_, hin⟩
  · simp only [prev_at, hold x hx]
  · simp only [next_at, hold x hx]
  · rw [List.map_congr_left hk]
    exact hkeys
  · intro k' a hka
    obtain ⟨q1, q2⟩ := hidx k' a hka
    exact ⟨q1, (hk a q1).trans q2⟩

theorem spec_victims_new_node {s : SimpleLRU} {l : List Nat} (k v : String)
    (hw : well_formed s l) : spec_victims (new_node s k v).1 l = spec_victims s l := by
  obtain ⟨-, -, -, -, -, -, em⟩ := new_node_facts s k v
  have hk : ∀ x ∈ l.reverse, key_at (new_node s k v).1.heap x = key_at s.heap x := by
    intro x hx
    obtain ⟨n, hn⟩ := getElem?_of_lt (well_formed_lt hw (List.mem_reverse.mp hx))
    simp only [key_at, em x n hn, hn]
  have hkeys : keys_from_tail (new_node s k v).1 l = keys_from_tail s l := by
    unfold keys_from_tail
    exact List.filterMap_congr hk
  unfold spec_victims
  rw [hkeys]
  rfl

theorem spec_index_after_cleaner_new_node {s : SimpleLRU} {l : List Nat} (k v : String)
    (sizes : Nat) (hw : well_formed s l) :
    spec_index_after_cleaner (new_node s k v).1 l sizes = spec_index_after_cleaner s l sizes := by
  unfold spec_index_after_cleaner
  rw [spec_victims_new_node k v hw]
  rfl

/-- On a well-formed state, with fuel for every node of the chain,
`cache_cleaner` returns and leaves the index its specification gives, for the
sizes passed; nodes, `_lru_head` and `_lru_tail` are as before. -/
theorem cache_cleaner_on_well_formed {fuel : Nat} {s : SimpleLRU} {l : List Nat}
    (ks ns : Nat) (hw : well_formed s l) (hf : l.length ≤ fuel) :
    ∃ t, cache_cleaner fuel s ks ns = .ok t ∧ t.heap = s.heap ∧
      t._lru_head = s._lru_head ∧ t._lru_tail = s._lru_tail ∧
      t._lru_index = spec_index_after_cleaner s l (ks + ns) := by
  have hsize : cache_size s + ks + ns = 48 + 16 * s._lru_index.length + (ks + ns) := by
    simp only [cache_size, sizeof_lru_index, sizeof_key_type, sizeof_mapped_type]
    omega
  by_cases ht : s._max_size ≤ 48 + 16 * s._lru_index.length + (ks + ns)
  · have hc := well_formed_prev_chain hw
    have hkn : (l.reverse.filterMap (key_at s.heap)).Nodup := keys_from_tail_nodup hw
    obtain ⟨t, h, e1, e2, e3, -, e5, -⟩ :=
      @cache_cleaner_loop_spec (s._lru_index.length / 4) s.heap l.reverse fuel s s._lru_tail 0
        hc rfl (by simpa using hf) hkn hw.2.2.2
    have hV : walk_victims s (l.reverse.filterMap (key_at s.heap))
        (s._lru_index.length / 4 - 0) = spec_victims s l := rfl
    rw [hV] at e5
    refine ⟨t, ?_, e1, e2, e3, ?_⟩
    · unfold cache_cleaner cache_might_overflow
      rw [hsize, if_pos (by simpa using ht)]
      exact h
    · unfold spec_index_after_cleaner
      rw [if_pos ht]
      exact e5
  · refine ⟨s, ?_, rfl, rfl, rfl, ?_⟩
    · unfold cache_cleaner cache_might_overflow
      rw [hsize, if_neg (by simpa using ht)]
    · unfold spec_index_after_cleaner
      rw [if_neg ht]

/-- Once `insert_new` returns for a key the index lacks, the index is the one
`cache_cleaner` left, called on the state with the new node and with the sizes
`key_size` and `sizeof(node)`, followed by the entry of the new node. -/
theorem insert_new_index {fuel : Nat} {s t : SimpleLRU} {k v : String} {ks : Nat}
    (h : insert_new fuel s k v ks = .ok t) (hi : index_find s k = none) :
    ∃ s1, cache_cleaner fuel (new_node s k v).1 ks sizeof_node_ptr = .ok s1 ∧
      t._lru_index = s1._lru_index ++ [(k, s.heap.length)] := by
  unfold insert_new at h
  obtain ⟨s1, h1, h⟩ := bind_ok_inv h
  obtain ⟨s2, h2, h⟩ := bind_ok_inv h
  obtain ⟨u, h3, h⟩ := bind_ok_inv h
  obtain ⟨e0, ei, -, -, -, en, -⟩ := new_node_facts s k v
  rw [e0] at h2 h
  obtain ⟨c1, -, -, -, c5⟩ := cache_cleaner_frame h1
  obtain ⟨d2, hh2, -, -⟩ := put_node_in_head_frame h2
  have hi1 : index_find s1 k = none := c5 k ((index_find_congr ei k).trans hi)
  have hi2 : index_find s2 k = none := (index_find_congr d2.2.1 k).trans hi1
  have hd2 : node_data s2 s.heap.length = some (k, v) := by
    rw [d2.2.2.2, node_data, c1, en]
    rfl
  obtain ⟨t', h4, -, -, -, -, f5⟩ :=
    @link_tail_and_index_effect s2 s.heap.length s.heap.length k v hh2 hd2 hi2
  rw [h] at h4
  injection h4 with h4
  subst h4
  exact ⟨s1, h1, by rw [f5, d2.2.1]⟩

/-- On a well-formed state, with fuel for every node of the chain,
`insert_new` of a key the index lacks returns, and the index it leaves is the
one the specification of `cache_cleaner` gives for the sizes `key_size` and
`sizeof(node)`, followed by the entry of the new node. -/
theorem insert_new_on_well_formed {fuel : Nat} {s : SimpleLRU} {l : List Nat}
    (k v : String) (ks : Nat) (hw : well_formed s l) (hf : l.length ≤ fuel)
    (hi : index_find s k = none) :
    ∃ t, insert_new fuel s k v ks = .ok t ∧
      t._lru_index = spec_index_after_cleaner s l (ks + sizeof_node_ptr)
        ++ [(k, s.heap.length)] := by
  obtain ⟨t, ht⟩ := insert_new_ok k v ks (well_formed_head_no_prev hw)
    (well_formed_prev_chain hw) (by simpa using hf)
  obtain ⟨s1, h1, hidx⟩ := insert_new_index ht hi
  obtain ⟨t', h1', -, -, -, e5⟩ :=
    @cache_cleaner_on_well_formed fuel (new_node s k v).1 l ks sizeof_node_ptr
      (well_formed_new_node k v hw) hf
  rw [h1] at h1'
  injection h1' with h1'
  subst h1'
  refine ⟨t, ht, ?_⟩
  rw [hidx, e5, spec_index_after_cleaner_new_node k v _ hw]

/-- On a well-formed state, with fuel for every node of the chain, `Put` of a
key that is neither in the index nor on the chain returns `true`, and the index
it leaves is the one the specification of `cache_cleaner` gives for the sizes
8 and 8, followed by the entry of the new node. -/
theorem Put_miss_index {fuel : Nat} {s : SimpleLRU} {l : List Nat} (k v : String)
    (hw : well_formed s l) (hf : l.length ≤ fuel)
    (hi : index_find s k = none) (hk : ∀ a ∈ l, key_at s.heap a ≠ some k) :
    ∃ t, Put fuel s k v = .ok (t, true) ∧
      t._lru_index = spec_index_after_cleaner s l 16 ++ [(k, s.heap.length)] := by
  have hfind := find_in_list_none (well_formed_next_chain hw) hf hk
  obtain ⟨t, ht, hidx⟩ := insert_new_on_well_formed k v 8 hw hf hi
  refine ⟨t, ?_, hidx⟩
  simp [Put, hi, hfind, ht, bind, Except.bind, pure, Except.pure]

/-- On a well-formed state, with fuel for every node of the chain,
`PutIfAbsent` of a key that is neither in the index nor on the chain returns
`true`, and the index it leaves is the one the specification of `cache_cleaner`
gives for the sizes 32 and 8, followed by the entry of the new node. -/
theorem PutIfAbsent_miss_index {fuel : Nat} {s : SimpleLRU} {l : List Nat} (k v : String)
    (hw : well_formed s l) (hf : l.length ≤ fuel)
    (hi : index_find s k = none) (hk : ∀ a ∈ l, key_at s.heap a ≠ some k) :
    ∃ t, PutIfAbsent fuel s k v = .ok (t, true) ∧
      t._lru_index = spec_index_after_cleaner s l 40 ++ [(k, s.heap.length)] := by
  have hfind := find_in_list_none (well_formed_next_chain hw) hf hk
  obtain ⟨t, ht, hidx⟩ := insert_new_on_well_formed k v sizeof_string hw hf hi
  refine ⟨t, ?_, hidx⟩
  simp [PutIfAbsent, hi, hfind, ht, bind, Except.bind, pure, Except.pure]

/-- Well-formedness does not depend on the capacity. -/
theorem well_formed_max_size {s : SimpleLRU} {l : List Nat} (m : Nat)
    (hw : well_formed s l) : well_formed { s with _max_size := m } l :=
  ⟨⟨hw.1.1, hw.1.2.1, hw.1.2.2.1, dseg_congr hw.1.2.2.2 (fun _ _ => rfl) (fun _ _ => rfl)⟩,
    hw.2.1, hw.2.2.1, hw.2.2.2⟩

/-! ## Claims C11 to C20 -/

/-- C11 fails on the code: after `Put(a)`, `Put(b)` the call
`PutIfAbsent(a, x)` finds `a` in the index and returns `false` at once; the
value of `a` is unchanged, but the node at `_lru_head` is still the one of `b`,
for every capacity. -/
theorem C11_put_if_absent_index_hit_keeps_head (fuel max_size : Nat) :
    (run (fuel + 2) (SimpleLRU.new max_size)
      [.Put "a" "1", .Put "b" "2", .PutIfAbsent "a" "x", .Get "a"]).map
        (fun r => (r.2, head_key r.1))
      = .ok ([.bool true, .bool true, .bool false, .value (some "1")], some "b") := by
  simp [run, step, Put, Get, PutIfAbsent, index_find, index_erase, SimpleLRU.new,
    find_in_list, insert_new, new_node, cache_cleaner_of_lt, put_node_in_head, release_node,
    reset_head_prev, link_tail_and_index, deref, set_prev, set_next, set_value, update,
    assert_head_no_prev, index_insert, bind, Except.bind, pure, Except.pure, Except.map,
    head_key, key_at]

/-- C12 fails on the code: the state `state_cycle` is reached from the empty
cache by `Put(a)`, `Put(b)`, `Put(c)`, `Delete(c)`, `Put(b, x)`; in it none of
the five operations returns on a key that was never inserted, whatever the
fuel: the scan from `_lru_head` along `next` goes round the nodes of `b` and
`c` and never meets a null link. -/
theorem C12_scan_never_ends :
    run 3 (SimpleLRU.new 4096)
      [.Put "a" "1", .Put "b" "2", .Put "c" "3", .Delete "c", .Put "b" "x"]
      = .ok (state_cycle, [.bool true, .bool true, .bool true, .bool true, .bool true]) ∧
    ∀ fuel v,
      Get fuel state_cycle "zz" = .error .out_of_fuel ∧
      Put fuel state_cycle "zz" v = .error .out_of_fuel ∧
      PutIfAbsent fuel state_cycle "zz" v = .error .out_of_fuel ∧
      Set fuel state_cycle "zz" v = .error .out_of_fuel ∧
      Delete fuel state_cycle "zz" = .error .out_of_fuel := by
  refine ⟨rfl, fun fuel v => ?_⟩
  have h := (state_cycle_scan_diverges "zz" (by decide) (by decide) fuel).1
  have hi : index_find state_cycle "zz" = none := rfl
  have hh : state_cycle._lru_head = some 1 := rfl
  refine ⟨?_, ?_, ?_, ?_, ?_⟩
  · simp only [Get, hi, hh, h, bind, Except.bind]
  · simp only [Put, hi, hh, h, bind, Except.bind]
  · simp only [PutIfAbsent, hi, hh, h, bind, Except.bind]
  · simp only [Set, hi, hh, h, bind, Except.bind]
  · simp only [Delete, hi, hh, h, bind, Except.bind]

/-- C13 fails on the code.  After `Put(a)`, `Put(b)`, `Delete(b)` the index
holds the key `a` while the chain from `_lru_head` carries `b` and `a`, for
every capacity; and with capacity 0, after `Put` of `a`, `b`, `c`, `d`, `e` the
index holds `b`, `c`, `d`, `e` while the chain carries all five keys. -/
theorem C13_index_and_chain_keys_differ (fuel max_size : Nat) :
    (run (fuel + 2) (SimpleLRU.new max_size)
      [.Put "a" "1", .Put "b" "2", .Delete "b"]).map
        (fun r => (r.1._lru_index.map Prod.fst, chain_keys r.1 3 r.1._lru_head))
      = .ok (["a"], ["b", "a"]) ∧
    (run (fuel + 6) (SimpleLRU.new 0)
      [.Put "a" "1", .Put "b" "2", .Put "c" "3", .Put "d" "4", .Put "e" "5"]).map
        (fun r => (r.1._lru_index.map Prod.fst, chain_keys r.1 6 r.1._lru_head))
      = .ok (["b", "c", "d", "e"], ["e", "d", "c", "b", "a"]) := by
  constructor
  · simp [run, step, Put, Get, Delete, index_find, index_erase, SimpleLRU.new,
      find_in_list, insert_new, new_node, cache_cleaner_of_lt, put_node_in_head,
      release_node, reset_head_prev, link_tail_and_index, deref, set_prev, set_next,
      set_value, update, assert_head_no_prev, index_insert, bind, Except.bind, pure,
      Except.pure, Except.map, chain_keys]
  · rfl

/-- C14 fails on the code: the state `state_cycle` is reached from the empty
cache by `Put(a)`, `Put(b)`, `Put(c)`, `Delete(c)`, `Put(b, x)`; in it no finite
list of nodes is the chain from `_lru_head` along `next`: the walk visits the
nodes of `b` and `c` in turn for ever and never comes to `_lru_tail`, the node
of `a`; and the node of `b` is the `next` of the node of `c` while its own
`prev` link is null. -/
theorem C14_chain_has_a_cycle :
    run 3 (SimpleLRU.new 4096)
      [.Put "a" "1", .Put "b" "2", .Put "c" "3", .Delete "c", .Put "b" "x"]
      = .ok (state_cycle, [.bool true, .bool true, .bool true, .bool true, .bool true]) ∧
    (∀ l, ¬ next_chain state_cycle.heap state_cycle._lru_head l) ∧
    chain_keys state_cycle 6 state_cycle._lru_head = ["b", "c", "b", "c", "b", "c"] ∧
    state_cycle._lru_tail = some 0 ∧
    next_at state_cycle 2 = some (some 1) ∧ prev_at state_cycle 1 = some none :=
  ⟨rfl, state_cycle_no_chain, rfl, rfl, rfl, rfl⟩

/-- C17 fails on the code: after `Put(a)`, `Put(b)`, `Put(c)`, `Delete(c)`,
`Put(b, x)`, `Delete(c)`, `Delete(b)` the call `Get(b)` finds the node of `b`
by the scan, at the head, and stops at `assert(!_lru_head->prev)`: the `prev`
link of the head is the address of the head itself. -/
theorem C17_assertion_fails (fuel : Nat) :
    run (fuel + 3) (SimpleLRU.new 4096) (ops_self_prev ++ [.Get "b"])
      = .error .assertion_failed ∧
    prev_at state_self_prev 1 = some (some 1) ∧
    state_self_prev._lru_head = some 1 := by
  refine ⟨?_, rfl, rfl⟩
  rfl

/-- C20 fails on the code: with capacity 0, after `Put` of `a`, `b`, `c`, `d`,
`e` and `Delete` of `b`, `c`, `d`, a `Get(a)` returns `true` with the value
put; after `Delete(e)` instead, which empties the index and so resets
`_lru_head` and `_lru_tail`, the `Get(a)` returns `false`. -/
theorem C20_delete_hides_another_key (fuel : Nat) :
    (run (fuel + 6) (SimpleLRU.new 0)
      [.Put "a" "1", .Put "b" "2", .Put "c" "3", .Put "d" "4", .Put "e" "5",
       .Delete "b", .Delete "c", .Delete "d", .Get "a"]).map Prod.snd
      = .ok [.bool true, .bool true, .bool true, .bool true, .bool true,
          .bool true, .bool true, .bool true, .value (some "1")] ∧
    (run (fuel + 6) (SimpleLRU.new 0)
      [.Put "a" "1", .Put "b" "2", .Put "c" "3", .Put "d" "4", .Put "e" "5",
       .Delete "b", .Delete "c", .Delete "d", .Delete "e", .Get "a"]).map Prod.snd
      = .ok [.bool true, .bool true, .bool true, .bool true, .bool true,
          .bool true, .bool true, .bool true, .bool true, .value none] := by
  constructor <;> rfl

/-- C15, eviction quota and order.  In a well-formed state (`well_formed s l`:
the chain is the doubly linked list `l` from `_lru_head` to `_lru_tail`, node
keys on it are pairwise distinct, every index entry maps a key to the chain
node carrying it, no key has two entries), with fuel for every node of the
chain, when the test of source line 37 fires `cache_cleaner` returns; it leaves
nodes, `_lru_head` and `_lru_tail` alone; the index it leaves is the index
without the entries of the keys `spec_victims s l`, which are the first
`n / 4` indexed keys met walking `prev` links from `_lru_tail`; these are
exactly `n / 4` keys, so `n - n / 4` entries are left; and with `n < 4` the
state is unchanged. -/
theorem C15_eviction_quota_and_order (fuel : Nat) (s : SimpleLRU) (l : List Nat)
    (ks ns : Nat) (hw : well_formed s l) (hf : l.length ≤ fuel)
    (ht : cache_might_overflow s ks ns = true) :
    ∃ t, cache_cleaner fuel s ks ns = .ok t ∧
      t.heap = s.heap ∧ t._lru_head = s._lru_head ∧ t._lru_tail = s._lru_tail ∧
      t._lru_index = s._lru_index.filter (fun e => decide (e.1 ∉ spec_victims s l)) ∧
      (spec_victims s l).length = s._lru_index.length / 4 ∧
      (∀ k ∈ spec_victims s l, (index_find s k).isSome = true) ∧
      t._lru_index.length = s._lru_index.length - s._lru_index.length / 4 ∧
      (s._lru_index.length < 4 → t = s) := by
  have hc := well_formed_prev_chain hw
  have hkn : (l.reverse.filterMap (key_at s.heap)).Nodup := keys_from_tail_nodup hw
  obtain ⟨t, h, e1, e2, e3, -, e5, e6⟩ :=
    @cache_cleaner_loop_spec (s._lru_index.length / 4) s.heap l.reverse fuel s s._lru_tail 0
      hc rfl (by simpa using hf) hkn hw.2.2.2
  have hrun : cache_cleaner fuel s ks ns = .ok t := by
    unfold cache_cleaner
    rw [if_pos ht]
    exact h
  have hV : walk_victims s (l.reverse.filterMap (key_at s.heap)) (s._lru_index.length / 4 - 0)
      = spec_victims s l := rfl
  rw [hV] at e5 e6
  have hlen := spec_victims_length hw
  refine ⟨t, hrun, e1, e2, e3, e5, hlen, ?_, by omega, ?_⟩
  · intro k hk
    have := List.mem_of_mem_take hk
    exact (List.mem_filter.mp this).2
  · intro hn
    have h0 := cache_cleaner_of_lt fuel s ks ns hn
    rw [hrun] at h0
    injection h0

/-- C15 at the state after `Put` of `a`, `b`, `c`, `d` on a cache of capacity
100, for the sizes `Put` passes: the one key erased from the index is `a`, the
key at `_lru_tail`. -/
theorem C15_eviction_quota_and_order_witness :
    spec_victims state_abcd [3, 2, 1, 0] = ["a"] ∧
    cache_cleaner 4 state_abcd 8 sizeof_node_ptr
      = .ok { state_abcd with _lru_index := [("b", 1), ("c", 2), ("d", 3)] } ∧
    ∃ t, cache_cleaner 4 state_abcd 8 sizeof_node_ptr = .ok t ∧
      t.heap = state_abcd.heap ∧ t._lru_head = state_abcd._lru_head ∧
      t._lru_tail = state_abcd._lru_tail ∧
      t._lru_index = state_abcd._lru_index.filter
        (fun e => decide (e.1 ∉ spec_victims state_abcd [3, 2, 1, 0])) ∧
      (spec_victims state_abcd [3, 2, 1, 0]).length = state_abcd._lru_index.length / 4 ∧
      (∀ k ∈ spec_victims state_abcd [3, 2, 1, 0], (index_find state_abcd k).isSome = true) ∧
      t._lru_index.length = state_abcd._lru_index.length - state_abcd._lru_index.length / 4 ∧
      (state_abcd._lru_index.length < 4 → t = state_abcd) :=
  ⟨by decide, rfl,
    C15_eviction_quota_and_order 4 state_abcd [3, 2, 1, 0] 8 sizeof_node_ptr
      state_abcd_well_formed (by decide) (by decide)⟩

/-- C18, chain well-formedness without `Delete`.  For every `max_size` and
every sequence of `Put`, `PutIfAbsent`, `Set` and `Get` calls on the empty
cache, with fuel of one per call, the calls return and leave a state that is
well formed on a list `l` of node addresses: `l` has no address twice,
`_lru_head` is its first and `_lru_tail` its last address, each node of `l` has
its predecessor in `l` as `prev` and its successor as `next` (null at the
ends), node keys on `l` are pairwise distinct, every index entry maps a key to
a node of `l` carrying that key, and no key has two entries.  So `next` links
from `_lru_head` run through `l` to the null pointer, `prev` links from
`_lru_tail` run through `l` backwards, and the head has no `prev` link. -/
theorem C18_well_formed_without_delete (fuel max_size : Nat) (ops : List Op)
    (hnd : ∀ o ∈ ops, o.no_delete = true) (hf : ops.length ≤ fuel) :
    ∃ s rs l, run fuel (SimpleLRU.new max_size) ops = .ok (s, rs) ∧
      well_formed s l ∧ next_chain s.heap s._lru_head l ∧
      prev_chain s.heap s._lru_tail l.reverse ∧ head_no_prev s := by
  obtain ⟨t, l', h, hw, -, -⟩ :=
    run_refines ops (well_formed_new max_size) (holds_new max_size) hnd
      (by simpa using hf)
  exact ⟨t, _, l', h, hw, well_formed_next_chain hw, well_formed_prev_chain hw,
    well_formed_head_no_prev hw⟩

/-- C18 on a cache of capacity 0, where every insertion runs the cleaner, for
five insertions followed by calls that hit evicted and indexed keys. -/
theorem C18_well_formed_without_delete_witness :
    ∃ s rs l, run 9 (SimpleLRU.new 0)
        [.Put "a" "1", .Put "b" "2", .Put "c" "3", .Put "d" "4", .Put "e" "5",
         .Get "a", .Set "b" "x", .PutIfAbsent "c" "y", .Put "f" "6"] = .ok (s, rs) ∧
      well_formed s l ∧ next_chain s.heap s._lru_head l ∧
      prev_chain s.heap s._lru_tail l.reverse ∧ head_no_prev s :=
  C18_well_formed_without_delete 9 0 _ (by decide) (by decide)

/-- C19, eviction never makes a key unreadable.  For every `max_size` and every
sequence of `Put`, `PutIfAbsent`, `Set` and `Get` calls on the empty cache,
with fuel of one per call, the calls return exactly what the store model
`spec_run` returns, a map from keys to values that never forgets a key: each
`Get(k)` of the sequence returns the value last written under `k` by `Put`, by
`Set` on a present key or by `PutIfAbsent` on an absent one.  A `Get(k)` after
the sequence returns what the model has under `k`, and that is a value as soon
as the sequence has a `Put` or `PutIfAbsent` of `k`. -/
theorem C19_eviction_keeps_keys_readable (fuel max_size : Nat) (ops : List Op) (k : String)
    (hnd : ∀ o ∈ ops, o.no_delete = true) (hf : ops.length ≤ fuel) :
    ∃ s, run fuel (SimpleLRU.new max_size) ops
        = .ok (s, (spec_run (fun _ => none) ops).2) ∧
      (∃ t, Get fuel s k = .ok (t, (spec_run (fun _ => none) ops).1 k)) ∧
      ((∃ v, Op.Put k v ∈ ops ∨ Op.PutIfAbsent k v ∈ ops) →
        ∃ t v, Get fuel s k = .ok (t, some v) ∧
          (spec_run (fun _ => none) ops).1 k = some v) := by
  obtain ⟨s, l, h, hw, hR, hl⟩ :=
    run_refines ops (well_formed_new max_size) (holds_new max_size) hnd
      (by simpa using hf)
  have hlf : l.length ≤ fuel := by
    simp only [List.length_nil, Nat.zero_add] at hl
    omega
  obtain ⟨t, -, hg, -, -, -⟩ := Get_refines k hw hR hlf
  refine ⟨s, h, ⟨t, hg⟩, ?_⟩
  intro hins
  have hs := spec_run_isSome k ops (fun _ => none) hnd (Or.inr hins)
  obtain ⟨v, hv⟩ := Option.isSome_iff_exists.mp hs
  exact ⟨t, v, hv ▸ hg, hv⟩

/-- C19 on a cache of capacity 0, where every insertion runs the cleaner: the
fifth `Put` erases `a` from the index, and `Set(a)` and `Get(a)` still find
it. -/
theorem C19_eviction_keeps_keys_readable_witness :
    ∃ s, run 8 (SimpleLRU.new 0)
        [.Put "a" "1", .Put "b" "2", .Put "c" "3", .Put "d" "4", .Put "e" "5",
         .Get "a", .Set "a" "9", .Get "a"]
        = .ok (s, [.bool true, .bool true, .bool true, .bool true, .bool true,
            .value (some "1"), .bool true, .value (some "9")]) ∧
      (∃ t, Get 8 s "a" = .ok (t, some "9")) ∧
      ((∃ v, Op.Put "a" v ∈ [Op.Put "a" "1", .Put "b" "2", .Put "c" "3", .Put "d" "4",
            .Put "e" "5", .Get "a", .Set "a" "9", .Get "a"] ∨
          Op.PutIfAbsent "a" v ∈ [Op.Put "a" "1", .Put "b" "2", .Put "c" "3", .Put "d" "4",
            .Put "e" "5", .Get "a", .Set "a" "9", .Get "a"]) →
        ∃ t v, Get 8 s "a" = .ok (t, some v) ∧ some "9" = some v) :=
  C19_eviction_keeps_keys_readable 8 0
    [.Put "a" "1", .Put "b" "2", .Put "c" "3", .Put "d" "4", .Put "e" "5",
     .Get "a", .Set "a" "9", .Get "a"] "a" (by decide) (by decide)

/-! ## Claims C8 and C16 -/

/-- C8 as amended, the scenario under the quota of the code.  For every
capacity, from the empty cache, after `Put(a)`, `Put(b)`, `Put(c)`, `Put(d)` in
that order `Get(a)`, `Get(b)`, `Get(c)` and `Get(d)` all return `true` with the
value put: the fourth `Put` finds three keys in the index and the quota is
`3 / 4 = 0`.  After then `Get(b)` and `Put(e)`, `Get(c)` and `Get(b)` both
return `true`.  With capacity 0, where the test of `cache_cleaner` fires on
every insertion, the one key `Put(e)` erases from the index is `a`, the key at
`_lru_tail`, and the keys `b`, `c`, `d` stay in the index. -/
theorem C8_scenario_under_quota (fuel max_size : Nat) :
    (run (fuel + 12) (SimpleLRU.new max_size)
      [.Put "a" "1", .Put "b" "2", .Put "c" "3", .Put "d" "4",
       .Get "a", .Get "b", .Get "c", .Get "d",
       .Get "b", .Put "e" "5", .Get "c", .Get "b"]).map Prod.snd
      = .ok [.bool true, .bool true, .bool true, .bool true,
          .value (some "1"), .value (some "2"), .value (some "3"), .value (some "4"),
          .value (some "2"), .bool true, .value (some "3"), .value (some "2")] ∧
    (run (fuel + 6) (SimpleLRU.new 0)
      [.Put "a" "1", .Put "b" "2", .Put "c" "3", .Put "d" "4"]).map
        (fun r => r.1._lru_index.map Prod.fst)
      = .ok ["a", "b", "c", "d"] ∧
    (run (fuel + 6) (SimpleLRU.new 0)
      [.Put "a" "1", .Put "b" "2", .Put "c" "3", .Put "d" "4", .Get "b", .Put "e" "5"]).map
        (fun r => r.1._lru_index.map Prod.fst)
      = .ok ["b", "c", "d", "e"] := by
  refine ⟨?_, rfl, rfl⟩
  obtain ⟨t, l, h, -⟩ :=
    @run_refines (fuel + 12)
      [.Put "a" "1", .Put "b" "2", .Put "c" "3", .Put "d" "4",
       .Get "a", .Get "b", .Get "c", .Get "d",
       .Get "b", .Put "e" "5", .Get "c", .Get "b"] (SimpleLRU.new max_size) []
      (fun _ => none) (well_formed_new max_size) (holds_new max_size) (by decide)
      (by simp)
  rw [h]
  rfl

/-- C16, the eviction trigger.  With `n` the number of index entries, the
eviction branch of `cache_cleaner` is taken exactly when
`48 + 16 * n + key_size + node_size >= _max_size`, for every state; so
`cache_cleaner` is the eviction loop in that case and does nothing otherwise.
On a well-formed state with chain `l`, with fuel for every node of the chain,
for any two key/value pairs whose keys are neither in the index nor on the
chain: `Put` of either pair returns `true` and leaves the index
`spec_index_after_cleaner s l 16` followed by the new entry, that is the index
after the decision `48 + 16 * n + 8 + 8 >= _max_size`; `PutIfAbsent` of either
pair returns `true` and leaves `spec_index_after_cleaner s l 40` followed by the
new entry, the decision being `48 + 16 * n + 32 + 8 >= _max_size`.  The byte
lengths of the keys and values do not enter: both pairs see the same
decision and the same keys erased. -/
theorem C16_trigger_counts_bookkeeping_only (fuel : Nat) (s : SimpleLRU) (l : List Nat)
    (key_size node_size : Nat) (k1 v1 k2 v2 : String) :
    (cache_might_overflow s key_size node_size = true ↔
      s._max_size ≤ 48 + 16 * s._lru_index.length + key_size + node_size) ∧
    cache_cleaner fuel s key_size node_size =
      (if s._max_size ≤ 48 + 16 * s._lru_index.length + key_size + node_size then
        cache_cleaner_loop (s._lru_index.length / 4) fuel s s._lru_tail 0
      else .ok s) ∧
    (well_formed s l → l.length ≤ fuel →
      index_find s k1 = none → (∀ a ∈ l, key_at s.heap a ≠ some k1) →
      index_find s k2 = none → (∀ a ∈ l, key_at s.heap a ≠ some k2) →
      (∃ t1 t2, Put fuel s k1 v1 = .ok (t1, true) ∧ Put fuel s k2 v2 = .ok (t2, true) ∧
        t1._lru_index = spec_index_after_cleaner s l 16 ++ [(k1, s.heap.length)] ∧
        t2._lru_index = spec_index_after_cleaner s l 16 ++ [(k2, s.heap.length)]) ∧
      (∃ t1 t2, PutIfAbsent fuel s k1 v1 = .ok (t1, true) ∧
        PutIfAbsent fuel s k2 v2 = .ok (t2, true) ∧
        t1._lru_index = spec_index_after_cleaner s l 40 ++ [(k1, s.heap.length)] ∧
        t2._lru_index = spec_index_after_cleaner s l 40 ++ [(k2, s.heap.length)])) := by
  have h : cache_size s = 48 + 16 * s._lru_index.length := by
    simp only [cache_size, sizeof_lru_index, sizeof_key_type, sizeof_mapped_type]
    omega
  refine ⟨?_, ?_, ?_⟩
  · simp [cache_might_overflow, h]
  · simp only [cache_cleaner, cache_might_overflow, h, decide_eq_true_eq]
  · intro hw hf hi1 hk1 hi2 hk2
    obtain ⟨t1, p1, q1⟩ := Put_miss_index k1 v1 hw hf hi1 hk1
    obtain ⟨t2, p2, q2⟩ := Put_miss_index k2 v2 hw hf hi2 hk2
    obtain ⟨u1, r1, w1⟩ := PutIfAbsent_miss_index k1 v1 hw hf hi1 hk1
    obtain ⟨u2, r2, w2⟩ := PutIfAbsent_miss_index k2 v2 hw hf hi2 hk2
    exact ⟨⟨t1, t2, p1, p2, q1, q2⟩, ⟨u1, u2, r1, r2, w1, w2⟩⟩

/-- C16 at the state after `Put` of `a`, `b`, `c`, `d`, with capacity 130, for
a pair of 2 bytes and a pair of 5009 bytes: `Put` of either erases nothing,
since `48 + 16 * 4 + 16 = 128 < 130`, and `PutIfAbsent` of either erases the key
`a`, since `48 + 16 * 4 + 40 = 152 >= 130`. -/
theorem C16_trigger_counts_bookkeeping_only_witness :
    spec_index_after_cleaner { state_abcd with _max_size := 130 } [3, 2, 1, 0] 16
      = [("a", 0), ("b", 1), ("c", 2), ("d", 3)] ∧
    spec_index_after_cleaner { state_abcd with _max_size := 130 } [3, 2, 1, 0] 40
      = [("b", 1), ("c", 2), ("d", 3)] ∧
    (∃ t1 t2, Put 4 { state_abcd with _max_size := 130 } "e" "5" = .ok (t1, true) ∧
      Put 4 { state_abcd with _max_size := 130 } "long-key-" big_value = .ok (t2, true) ∧
      t1._lru_index
        = spec_index_after_cleaner { state_abcd with _max_size := 130 } [3, 2, 1, 0] 16
          ++ [("e", 4)] ∧
      t2._lru_index
        = spec_index_after_cleaner { state_abcd with _max_size := 130 } [3, 2, 1, 0] 16
          ++ [("long-key-", 4)]) ∧
    (∃ t1 t2, PutIfAbsent 4 { state_abcd with _max_size := 130 } "e" "5" = .ok (t1, true) ∧
      PutIfAbsent 4 { state_abcd with _max_size := 130 } "long-key-" big_value
        = .ok (t2, true) ∧
      t1._lru_index
        = spec_index_after_cleaner { state_abcd with _max_size := 130 } [3, 2, 1, 0] 40
          ++ [("e", 4)] ∧
      t2._lru_index
        = spec_index_after_cleaner { state_abcd with _max_size := 130 } [3, 2, 1, 0] 40
          ++ [("long-key-", 4)]) :=
  ⟨by decide, by decide,
    (C16_trigger_counts_bookkeeping_only 4 { state_abcd with _max_size := 130 } [3, 2, 1, 0]
      8 8 "e" "5" "long-key-" big_value).2.2 (well_formed_max_size 130 state_abcd_well_formed)
      (by decide) rfl (by decide) rfl (by decide)⟩

end Backend
end Afina
